import Mathlib

/-!
# go-loadsched: schedule model, parser, filters and renderer

A shallow embedding of `schedule.go`, `util.go` and the function `fetchStage`
of `go-loadsched.go`.

* Go `string` values are Lean `String`s; the scanning functions work on the
  character list of a string.
* A Go `map[K]V` is a `GoMap K V`: either the nil map, or a made map holding a
  list of entries with pairwise distinct keys.  The order of the list is the
  order in which `range` enumerates the map.
* Go `int` is `Int`; `strconv.Atoi` is the only producer of integers read from
  text and it is modelled with its 64-bit range check.  The one subtraction
  that can leave the 64-bit range, in `fetchStage`, wraps around.
* The filters are embedded a second time on an explicit heap of map objects,
  where a map value is a reference, to speak of which objects a filter makes,
  shares and leaves unchanged.
-/

namespace LoadSched

/-! ## Go maps -/

/-- Look a key up in an entry list. -/
def lookupL {K V : Type} [DecidableEq K] (k : K) : List (K × V) → Option V
  | [] => none
  | e :: es => if e.1 = k then some e.2 else lookupL k es

/-- Assign `k ↦ v` in an entry list: overwrite the entry of `k` when there is
one, add a new entry otherwise. -/
def insertL {K V : Type} [DecidableEq K] (k : K) (v : V) : List (K × V) → List (K × V)
  | [] => [(k, v)]
  | e :: es => if e.1 = k then (k, v) :: es else e :: insertL k v es

theorem keys_insertL {K V : Type} [DecidableEq K] (k : K) (v : V) (es : List (K × V)) :
    (insertL k v es).map Prod.fst
      = if k ∈ es.map Prod.fst then es.map Prod.fst else es.map Prod.fst ++ [k] := by
  induction es with
  | nil => simp [insertL]
  | cons e es ih =>
    by_cases h : e.1 = k
    · simp [insertL, h]
    · have h' : ¬ k = e.1 := fun h' => h h'.symm
      simp only [insertL, h, if_false, List.map_cons, ih, List.mem_cons, h', false_or]
      split <;> simp

theorem nodup_insertL {K V : Type} [DecidableEq K] (k : K) (v : V) (es : List (K × V))
    (h : (es.map Prod.fst).Nodup) : ((insertL k v es).map Prod.fst).Nodup := by
  rw [keys_insertL]
  split
  · exact h
  · rename_i hk
    exact List.Nodup.append h (List.nodup_singleton k) (by
      intro a ha hb
      simp at hb
      exact hk (hb ▸ ha))

/-- A Go map value: `nil` is the zero value (reads as empty, `== nil` holds),
`mk` is a map made by `make`, with its entries in enumeration order. -/
inductive GoMap (K V : Type) where
  | nil : GoMap K V
  | mk (entries : List (K × V)) (nodup : (entries.map Prod.fst).Nodup) : GoMap K V
deriving DecidableEq

namespace GoMap

variable {K V : Type}

instance : Inhabited (GoMap K V) := ⟨GoMap.nil⟩

/-- The Go expression `make(map[K]V)`. -/
def make : GoMap K V := GoMap.mk [] List.nodup_nil

/-- The entries `range m` enumerates (none for the nil map). -/
def toList : GoMap K V → List (K × V)
  | GoMap.nil => []
  | GoMap.mk es _ => es

/-- The Go test `m == nil`. -/
def isNil : GoMap K V → Bool
  | GoMap.nil => true
  | GoMap.mk _ _ => false

/-- The keys `range m` enumerates. -/
def keys (m : GoMap K V) : List K := m.toList.map Prod.fst

/-- The Go expression `len(m)`. -/
def len (m : GoMap K V) : Nat := m.toList.length

/-- The two-valued read `v, ok := m[k]`. -/
def find? [DecidableEq K] (m : GoMap K V) (k : K) : Option V := lookupL k m.toList

/-- The Go expression `m[k]`: the zero value of `V` when `k` is absent. -/
def get [DecidableEq K] [Inhabited V] (m : GoMap K V) (k : K) : V := (m.find? k).getD default

theorem nodup_toList (m : GoMap K V) : (m.toList.map Prod.fst).Nodup := by
  cases m with
  | nil => exact List.nodup_nil
  | mk es h => exact h

/-- The Go statement `m[k] = v`.  Go panics when `m` is nil; every assignment
in `schedule.go` is to a map that was made before, so that case does not
arise and the model lets it create the entry. -/
def set [DecidableEq K] (m : GoMap K V) (k : K) (v : V) : GoMap K V :=
  GoMap.mk (insertL k v m.toList) (nodup_insertL k v m.toList m.nodup_toList)

/-- The guard `if m[k] == nil { m[k] = make(...) }` on a map of maps. -/
def ensure {W : Type} [DecidableEq K] (m : GoMap K (GoMap W V)) (k : K) : GoMap K (GoMap W V) :=
  if (m.get k).isNil then m.set k GoMap.make else m

/-- A map as it reads after the guard `if m == nil { m = make(...) }`. -/
def made (m : GoMap K V) : GoMap K V := if m.isNil then GoMap.make else m

end GoMap

/-! ## Strings and `strconv` -/

/-- Go `strings.Split(s, "\n")` on the characters of `s`. -/
def splitLines : List Char → List (List Char)
  | [] => [[]]
  | c :: cs =>
    if c = '\n' then [] :: splitLines cs
    else
      match splitLines cs with
      | [] => [[c]]
      | l :: ls => (c :: l) :: ls

/-- The class `\s` of Go regular expressions: tab, newline, form feed,
carriage return and space. -/
def isSpace (c : Char) : Bool :=
  c = '\t' || c = '\n' || c = Char.ofNat 12 || c = '\r' || c = ' '

/-- Split at the matches of `\s*\|\s*`.  `afterBar` holds while the scan is
inside the white space that follows a bar (part of the match); `piece` is the
text of the current piece up to its last non-space character and `ws` the
white space seen since, which belongs to the next match when a bar follows
and to the piece otherwise. -/
def reSplitGo : Bool → List Char → List Char → List Char → List (List Char)
  | _, piece, ws, [] => [piece ++ ws]
  | afterBar, piece, ws, c :: cs =>
    if c = '|' then piece :: reSplitGo true [] [] cs
    else if isSpace c then
      if afterBar then reSplitGo true [] [] cs
      else reSplitGo false piece (ws ++ [c]) cs
    else reSplitGo false (piece ++ ws ++ [c]) [] cs

/-- Go `regexp.MustCompile("\\s*\\|\\s*").Split(line, -1)`. -/
def reSplit (line : List Char) : List (List Char) := reSplitGo false [] [] line

/-- `RemoveEmpty` of `util.go`. -/
def RemoveEmpty (strings : List (List Char)) : List (List Char) :=
  strings.filter (fun s => s.length != 0)

/-- Go `strings.Replace(s, old, "", -1)` for a non-empty `old`: `skip` counts
the characters of a found occurrence still to be dropped. -/
def removeAllGo (old : List Char) : Nat → List Char → List Char
  | _, [] => []
  | 0, c :: cs =>
    if old.isPrefixOf (c :: cs) then removeAllGo old (old.length - 1) cs
    else c :: removeAllGo old 0 cs
  | n + 1, _ :: cs => removeAllGo old n cs

/-- Go `strings.Replace(s, "Stage", "", -1)`. -/
def removeStage (s : List Char) : List Char := removeAllGo "Stage".toList 0 s

/-- The two errors of `strconv`. -/
inductive NumError where
  | errSyntax
  | errRange
deriving DecidableEq

/-- The digit loop of `strconv.ParseUint(s, 10, 64)`. -/
def parseDigits : Nat → List Char → Except NumError Nat
  | n, [] => Except.ok n
  | n, c :: cs =>
    if '0' ≤ c ∧ c ≤ '9' then
      if 2 ^ 64 ≤ n * 10 + (c.toNat - 48) then Except.error NumError.errRange
      else parseDigits (n * 10 + (c.toNat - 48)) cs
    else Except.error NumError.errSyntax

/-- Go `strconv.Atoi` with 64-bit `int`: an optional sign, then one or more
decimal digits, denoting a value in `[-2^63, 2^63)`. -/
def Atoi (s : List Char) : Except NumError Int :=
  match s with
  | [] => Except.error NumError.errSyntax
  | c :: cs =>
    let neg := decide (c = '-')
    let digits := if c = '-' ∨ c = '+' then cs else c :: cs
    if digits = [] then Except.error NumError.errSyntax
    else
      match parseDigits 0 digits with
      | Except.error e => Except.error e
      | Except.ok un =>
        if neg then
          if 2 ^ 63 < un then Except.error NumError.errRange else Except.ok (-(un : Int))
        else
          if 2 ^ 63 ≤ un then Except.error NumError.errRange else Except.ok (un : Int)

/-- Go `strconv.Itoa`. -/
def Itoa (n : Int) : List Char :=
  match n with
  | Int.ofNat m => Nat.toDigits 10 m
  | Int.negSucc m => '-' :: Nat.toDigits 10 (m + 1)

/-- Pad on the left with spaces to a width, as the `fmt` verbs `%2d` and `%5s` do. -/
def padLeft (width : Nat) (s : List Char) : List Char :=
  List.replicate (width - s.length) ' ' ++ s

/-- Go `strings.Join(strs, sep)`. -/
def Join (sep : List Char) : List (List Char) → List Char
  | [] => []
  | [s] => s
  | s :: t :: rest => s ++ sep ++ Join sep (t :: rest)

/-- `TimeToInt` of `util.go`: `strings.Split(time, ":")[0]` is the text before
the first colon. -/
def TimeToInt (time : String) : Int :=
  let hour := time.toList.takeWhile (fun c => c != ':')
  match Atoi hour with
  | Except.error _ => -1
  | Except.ok i => i

/-! ## The schedule -/

/-- The key type `TimeSlot` of `schedule.go` (its field `end` is written `stop`,
`end` being a Lean keyword). -/
structure TimeSlot where
  start : String
  stop : String
deriving DecidableEq

/-- The innermost `map[int]struct{}`. -/
abbrev GroupSet := GoMap Int Unit

/-- The stages of one time slot: `map[int]map[int]struct{}`. -/
abbrev StageMap := GoMap Int GroupSet

/-- The time slots of one day. -/
abbrev SlotMap := GoMap TimeSlot StageMap

/-- The type `ScheduleData`: day, time slot, stage, group. -/
abbrev ScheduleData := GoMap Int SlotMap

/-- The type `Schedule`. -/
structure Schedule where
  FileName : String
  Data : ScheduleData
deriving DecidableEq

/-- The group `g` is recorded at day `d`, time slot `t`, stage `s`. -/
def ScheduleData.has (data : ScheduleData) (d : Int) (t : TimeSlot) (s g : Int) : Prop :=
  g ∈ (((data.get d).get t).get s).keys

instance (data : ScheduleData) (d : Int) (t : TimeSlot) (s g : Int) :
    Decidable (data.has d t s g) := by
  unfold ScheduleData.has; infer_instance

/-- The stage `s` is a key at day `d`, time slot `t`. -/
def ScheduleData.hasStage (data : ScheduleData) (d : Int) (t : TimeSlot) (s : Int) : Prop :=
  s ∈ ((data.get d).get t).keys

instance (data : ScheduleData) (d : Int) (t : TimeSlot) (s : Int) :
    Decidable (data.hasStage d t s) := by
  unfold ScheduleData.hasStage; infer_instance

/-! ## `parseScheduleFile` -/

/-- The body of the loop over the group cells of a stage row (lines 195-215),
for one cell whose text parsed as `groupNum`.  A write through a nested index
such as `data[d][t][s] = v` changes the inner map in place; here the changed
inner map is written back into the maps that hold it. -/
def cellStep (time : TimeSlot) (stage : Int) (data : ScheduleData)
    (dayOfMonth groupNum : Int) : ScheduleData :=
  -- lines 195-197
  let data := data.ensure dayOfMonth
  -- lines 198-200
  let day := (data.get dayOfMonth).ensure time
  -- lines 201-203
  let day := day.set time ((day.get time).ensure stage)
  -- line 205
  let timeSlot := day.get time
  -- lines 206-208
  let timeSlot := timeSlot.ensure stage
  -- line 209
  let timeSlot := timeSlot.set stage ((timeSlot.get stage).set groupNum ())
  -- lines 211-215
  let timeSlot :=
    if stage > 1 then
      (timeSlot.get (stage - 1)).keys.foldl
        (fun timeSlot gn => timeSlot.set stage ((timeSlot.get stage).set gn ())) timeSlot
    else timeSlot
  data.set dayOfMonth (day.set time timeSlot)

/-- The loop over the group cells of a stage row; `i` is the index of the
first cell of `fields`. -/
def parseCells (time : TimeSlot) (stage : Int) :
    Nat → List (List Char) → ScheduleData → Except NumError ScheduleData
  | _, [], data => Except.ok data
  | i, field :: rest, data =>
    match Atoi field with
    | Except.error err => Except.error err
    | Except.ok groupNum =>
      parseCells time stage (i + 1) rest (cellStep time stage data ((i : Int) + 1) groupNum)

/-- The fields of a line: the non-empty pieces between the bars. -/
def lineFields (line : List Char) : List (List Char) := RemoveEmpty (reSplit line)

/-- Go `strings.HasPrefix(line, "#")`. -/
def isComment (line : List Char) : Bool := "#".toList.isPrefixOf line

/-- The body of the loop over the lines: the state is the current time slot
and the data built so far. -/
def lineStep (st : TimeSlot × ScheduleData) (line : List Char) :
    Except NumError (TimeSlot × ScheduleData) :=
  if isComment line then Except.ok st
  else
    match lineFields line with
    | [a, b] => Except.ok (TimeSlot.mk (String.mk a) (String.mk b), st.2)
    | stageStr :: fields =>
      if (stageStr :: fields).length = 32 then
        match Atoi (removeStage stageStr) with
        | Except.error err => Except.error err
        | Except.ok stage =>
          match parseCells st.1 stage 0 fields st.2 with
          | Except.error err => Except.error err
          | Except.ok data => Except.ok (st.1, data)
      else Except.ok st
    | [] => Except.ok st

/-- The loop over the lines. -/
def parseLines : List (List Char) → TimeSlot × ScheduleData →
    Except NumError (TimeSlot × ScheduleData)
  | [], st => Except.ok st
  | line :: rest, st =>
    match lineStep st line with
    | Except.error err => Except.error err
    | Except.ok st1 => parseLines rest st1

/-- The function `parseScheduleFile`: the returned pair is the Go pair
`(ScheduleData, error)`, the error being `nil` when it is `none`. -/
def parseScheduleFile (contents : String) : ScheduleData × Option NumError :=
  match parseLines (splitLines contents.toList) (TimeSlot.mk "" "", GoMap.make) with
  | Except.error err => (GoMap.nil, some err)
  | Except.ok st => (st.2, none)

/-- Whether `strconv.Atoi` accepts the text. -/
def parsesAsInt (s : List Char) : Bool :=
  match Atoi s with
  | Except.ok _ => true
  | Except.error _ => false

/-- A line the parser skips: a comment, or a line whose number of fields is
neither 2 nor 32. -/
def irrelevantLine (line : List Char) : Prop :=
  isComment line = true ∨ ((lineFields line).length ≠ 2 ∧ (lineFields line).length ≠ 32)

/-- The stage rows among the lines, in file order: each with the number of the
block it stands in (the number of time slot headers before it), the time slot
current at the row, and its stage number. -/
def stageRows : List (List Char) → Nat → TimeSlot → List (Nat × TimeSlot × Int)
  | [], _, _ => []
  | line :: rest, block, time =>
    if isComment line then stageRows rest block time
    else
      match lineFields line with
      | [a, b] => stageRows rest (block + 1) (TimeSlot.mk (String.mk a) (String.mk b))
      | stageStr :: fields =>
        if (stageStr :: fields).length = 32 then
          match Atoi (removeStage stageStr) with
          | Except.ok stage => (block, time, stage) :: stageRows rest block time
          | Except.error _ => stageRows rest block time
        else stageRows rest block time
      | [] => stageRows rest block time

/-- Well-ordered input in the words of the cascade claim: within each block
the stage rows appear in increasing stage order. -/
def increasingWithinBlocks (contents : String) : Prop :=
  (stageRows (splitLines contents.toList) 0 (TimeSlot.mk "" "")).Pairwise
    fun a b => a.1 = b.1 → a.2.2 < b.2.2

/-- Stage rows in increasing stage order for each time slot: of two rows given
under the same time slot, anywhere in the file, the earlier has the smaller
stage. -/
def increasingPerTimeSlot (contents : String) : Prop :=
  (stageRows (splitLines contents.toList) 0 (TimeSlot.mk "" "")).Pairwise
    fun a b => a.2.1 = b.2.1 → a.2.2 < b.2.2

instance (contents : String) : Decidable (increasingWithinBlocks contents) := by
  unfold increasingWithinBlocks; infer_instance

instance (contents : String) : Decidable (increasingPerTimeSlot contents) := by
  unfold increasingPerTimeSlot; infer_instance

/-- Strip the literal prefix `Stage` from a label, as the specification words
the reading of a stage label. -/
def stripStagePrefix (label : List Char) : List Char :=
  if "Stage".toList.isPrefixOf label then label.drop 5 else label

/-! ## Filters -/

/-- The method `FilterByDay`. -/
def Schedule.FilterByDay (schedule : Schedule) (dayOfMonth : Int) : Schedule :=
  let filtered : ScheduleData := GoMap.make
  let filtered := filtered.set dayOfMonth (schedule.Data.get dayOfMonth)
  Schedule.mk schedule.FileName filtered

/-- The innermost body of `FilterByGroups` (lines 73-83), reached when `group`
is a key of the stage's group set. -/
def addGroup (filtered : ScheduleData) (dayOfMonth : Int) (timeSlot : TimeSlot)
    (stage group : Int) : ScheduleData :=
  let filtered := filtered.ensure dayOfMonth
  let day := (filtered.get dayOfMonth).ensure timeSlot
  let stages := (day.get timeSlot).ensure stage
  let stages := stages.set stage ((stages.get stage).set group ())
  filtered.set dayOfMonth (day.set timeSlot stages)

/-- The method `FilterByGroups`: four nested loops. -/
def Schedule.FilterByGroups (schedule : Schedule) (groups : List Int) : Schedule :=
  let filtered : ScheduleData :=
    schedule.Data.toList.foldl (fun filtered dayEntry =>
      dayEntry.2.toList.foldl (fun filtered slotEntry =>
        slotEntry.2.toList.foldl (fun filtered stageEntry =>
          groups.foldl (fun filtered group =>
            match stageEntry.2.find? group with
            | none => filtered
            | some _ => addGroup filtered dayEntry.1 slotEntry.1 stageEntry.1 group)
            filtered)
          filtered)
        filtered)
      GoMap.make
  Schedule.mk schedule.FileName filtered

/-- The body of the inner loop of `FilterByStage` (lines 97-103). -/
def keepStage (stage : Int) (filtered : ScheduleData) (dayOfMonth : Int)
    (timeSlot : TimeSlot) (stages : StageMap) : ScheduleData :=
  let filtered := filtered.ensure dayOfMonth
  let day := (filtered.get dayOfMonth).ensure timeSlot
  filtered.set dayOfMonth (day.set timeSlot ((day.get timeSlot).set stage (stages.get stage)))

/-- The method `FilterByStage`. -/
def Schedule.FilterByStage (schedule : Schedule) (stage : Int) : Schedule :=
  let filtered : ScheduleData :=
    schedule.Data.toList.foldl (fun filtered dayEntry =>
      dayEntry.2.toList.foldl (fun filtered slotEntry =>
        keepStage stage filtered dayEntry.1 slotEntry.1 slotEntry.2)
        filtered)
      GoMap.make
  Schedule.mk schedule.FileName filtered

/-- The shape shared by the three writers of `schedule.go`: make sure the day
and the time slot exist, then replace the stages of the time slot. -/
def atSlot (f : ScheduleData) (d : Int) (t : TimeSlot) (F : StageMap → StageMap) :
    ScheduleData :=
  (f.ensure d).set d
    ((((f.ensure d).get d).ensure t).set t (F ((((f.ensure d).get d).ensure t).get t)))

/-- The (day, time slot, stages) triples of a schedule, in the order in which
the two outer loops of the filters visit them. -/
def slotEntries (data : ScheduleData) : List (Int × TimeSlot × StageMap) :=
  data.toList.flatMap fun dayEntry =>
    dayEntry.2.toList.map fun slotEntry => (dayEntry.1, slotEntry.1, slotEntry.2)

/-- The (day, time slot, stage, groups) entries of a schedule, in the order in
which the three outer loops of `FilterByGroups` visit them. -/
def stageEntries (data : ScheduleData) : List (Int × TimeSlot × Int × GroupSet) :=
  (slotEntries data).flatMap fun e =>
    e.2.2.toList.map fun stageEntry => (e.1, e.2.1, stageEntry.1, stageEntry.2)

/-- The (day, time slot, stage, group) tuples for which `FilterByGroups`
reaches its innermost body, in order. -/
def keptTuples (data : ScheduleData) (groups : List Int) : List (Int × TimeSlot × Int × Int) :=
  (stageEntries data).flatMap fun e =>
    (groups.filter fun group => (e.2.2.2.find? group).isSome).map fun group =>
      (e.1, e.2.1, e.2.2.1, group)

/-- What `cellStep` does to the stages of the time slot: the guards on the
stage, the write of the cell's group, and the cascade from the stage below. -/
def cellStages (stage groupNum : Int) (stages : StageMap) : StageMap :=
  let timeSlot := (stages.ensure stage).ensure stage
  let timeSlot := timeSlot.set stage ((timeSlot.get stage).set groupNum ())
  if stage > 1 then
    (timeSlot.get (stage - 1)).keys.foldl
      (fun timeSlot gn => timeSlot.set stage ((timeSlot.get stage).set gn ())) timeSlot
  else timeSlot

/-! ## `Print` -/

/-- Go `sort.Ints`. -/
def sortInts (xs : List Int) : List Int := xs.insertionSort (fun a b => a ≤ b)

/-- The call of `sort.Slice` in `Print`: the keys in non-decreasing order of
`TimeToInt` of the start label.  `sort.Slice` is not a stable sort: it keeps
keys that compare equal in the order in which the map enumerated them only
while the slice is short enough for its insertion sort (up to 12 keys), and
may reorder them in a longer slice.  The model keeps them in enumeration
order throughout, so for a longer slice it fixes one order of the tied keys
where the code may produce another. -/
def sortTimeSlots (xs : List TimeSlot) : List TimeSlot :=
  xs.insertionSort (fun a b => TimeToInt a.start ≤ TimeToInt b.start)

/-- The text `fmt.Printf` writes for one stage, without the final newline. -/
def formatLine (dayOfMonth stage : Int) (timeSlot : TimeSlot) (groupStrs : List (List Char)) :
    String :=
  String.mk (padLeft 2 (Itoa dayOfMonth) ++ " ".toList ++ Itoa stage ++ " ".toList
    ++ padLeft 5 timeSlot.start.toList ++ " - ".toList ++ padLeft 5 timeSlot.stop.toList
    ++ ": ".toList ++ Join ", ".toList groupStrs)

/-- The lines `Print` writes for the stages of one time slot. -/
def printStages (dayOfMonth : Int) (timeSlot : TimeSlot) (stages : StageMap) : List String :=
  (sortInts stages.keys).flatMap fun stage =>
    let groups := stages.get stage
    if groups.len = 0 then []
    else
      let groupNums := sortInts groups.keys
      let groupStrs := groupNums.map Itoa
      [formatLine dayOfMonth stage timeSlot groupStrs]

/-- The method `Print`: the lines written to standard output, in order. -/
def Schedule.Print (schedule : Schedule) : List String :=
  (sortInts schedule.Data.keys).flatMap fun dayOfMonth =>
    let timeSlots := schedule.Data.get dayOfMonth
    (sortTimeSlots timeSlots.keys).flatMap fun timeSlot =>
      printStages dayOfMonth timeSlot (timeSlots.get timeSlot)

/-- The input of the end-to-end example: the header, a `Stage1` row with 1 in
the column of day 1, a `Stage2` row with 2 in the column of day 1. -/
def exampleText : String :=
  "06:00|08:30\nStage1|1|0|0|0|0|0|0|0|0|0|0|0|0|0|0|0|0|0|0|0|0|0|0|0|0|0|0|0|0|0|0\nStage2|2|0|0|0|0|0|0|0|0|0|0|0|0|0|0|0|0|0|0|0|0|0|0|0|0|0|0|0|0|0|0"

/-- The schedule the end-to-end example prints: stage 2, then day 1. -/
def exampleSchedule : Schedule :=
  ((Schedule.mk "schedule.txt" (parseScheduleFile exampleText).1).FilterByStage 2).FilterByDay 1

/-- An input whose only block has the rows `Stage1` and `Stage3`. -/
def gapText : String :=
  "06:00|08:30\nStage1|1|0|0|0|0|0|0|0|0|0|0|0|0|0|0|0|0|0|0|0|0|0|0|0|0|0|0|0|0|0|0\nStage3|3|0|0|0|0|0|0|0|0|0|0|0|0|0|0|0|0|0|0|0|0|0|0|0|0|0|0|0|0|0|0"

/-- An input with two blocks under the same header, the second with a row
`Stage1` only. -/
def repeatedHeaderText : String :=
  "06:00|08:30\nStage1|1|0|0|0|0|0|0|0|0|0|0|0|0|0|0|0|0|0|0|0|0|0|0|0|0|0|0|0|0|0|0\nStage2|2|0|0|0|0|0|0|0|0|0|0|0|0|0|0|0|0|0|0|0|0|0|0|0|0|0|0|0|0|0|0\n06:00|08:30\nStage1|3|0|0|0|0|0|0|0|0|0|0|0|0|0|0|0|0|0|0|0|0|0|0|0|0|0|0|0|0|0|0"

/-- An input whose only block has the rows `Stage0` and `Stage1`. -/
def stageZeroText : String :=
  "06:00|08:30\nStage0|5|0|0|0|0|0|0|0|0|0|0|0|0|0|0|0|0|0|0|0|0|0|0|0|0|0|0|0|0|0|0\nStage1|1|0|0|0|0|0|0|0|0|0|0|0|0|0|0|0|0|0|0|0|0|0|0|0|0|0|0|0|0|0|0"

/-- A single stage row whose label is `1Stage`. -/
def oddLabelText : String :=
  "1Stage|0|0|0|0|0|0|0|0|0|0|0|0|0|0|0|0|0|0|0|0|0|0|0|0|0|0|0|0|0|0|0"

/-- A stage row without a header, among a line without bars, a comment that
looks like a header, an empty line and a line of three fields. -/
def mixedText : String :=
  "junk\n# 06:00|08:30\nStage1|7|0|0|0|0|0|0|0|0|0|0|0|0|0|0|0|0|0|0|0|0|0|0|0|0|0|0|0|0|0|0\n\na|b|c"

/-- The end-to-end input with the cell `abc` in the `Stage2` row. -/
def badCellText : String :=
  "06:00|08:30\nStage1|1|0|0|0|0|0|0|0|0|0|0|0|0|0|0|0|0|0|0|0|0|0|0|0|0|0|0|0|0|0|0\nStage2|abc|0|0|0|0|0|0|0|0|0|0|0|0|0|0|0|0|0|0|0|0|0|0|0|0|0|0|0|0|0|0"

instance (line : List Char) : Decidable (irrelevantLine line) := by
  unfold irrelevantLine; infer_instance

/-- The rows read so far are `R`: every stage key comes from a row, groups are
carried from a stage to the next one when both have a row, and only the days
1 to 31 hold groups. -/
def ParseInv (data : ScheduleData) (R : List (Nat × TimeSlot × Int)) : Prop :=
  (∀ d t s, data.hasStage d t s → ∃ b, (b, t, s) ∈ R)
  ∧ (∀ d t s g, 1 ≤ s → (∃ b, (b, t, s) ∈ R) → (∃ b, (b, t, s + 1) ∈ R) →
      data.has d t s g → data.has d t (s + 1) g)
  ∧ (∀ d t s g, data.has d t s g → 1 ≤ d ∧ d ≤ 31)

/-! ## `fetchStage` -/

/-- Go `int` arithmetic on a 64-bit platform: the result of an operation, taken
modulo `2^64` into the range `[-2^63, 2^63)`. -/
def wrapInt64 (n : Int) : Int := (n + 2 ^ 63) % 2 ^ 64 - 2 ^ 63

/-- The errors `fetchStage` returns: the error of `http.Get` or of
`ioutil.ReadAll`, the error of `strconv.Atoi`, and the error made by
`errors.New("Eskom data is unavailable")`. -/
inductive FetchError where
  | network
  | number (err : NumError)
  | unavailable
deriving DecidableEq

/-- The function `fetchStage` of `go-loadsched.go`: `response` is what
`http.Get` and `ioutil.ReadAll` deliver, the body or a failure; the returned
pair is the Go pair `(int, error)`. -/
def fetchStage (response : Option String) : Int × Option FetchError :=
  match response with
  | none => (-1, some FetchError.network)
  | some respBody =>
    match Atoi respBody.toList with
    | Except.error err => (-1, some (FetchError.number err))
    | Except.ok statusId =>
      if statusId = 99 then (-1, some FetchError.unavailable)
      else (wrapInt64 (statusId - 1), none)

/-- An input whose only block has the row `Stage2` before the row `Stage1`. -/
def reversedText : String :=
  "06:00|08:30\nStage2|2|0|0|0|0|0|0|0|0|0|0|0|0|0|0|0|0|0|0|0|0|0|0|0|0|0|0|0|0|0|0\nStage1|1|0|0|0|0|0|0|0|0|0|0|0|0|0|0|0|0|0|0|0|0|0|0|0|0|0|0|0|0|0|0"

/-- The stage rows among the lines, in file order: each with the time slot
current at the row, its stage number and its 31 cells. -/
def stageRowCells : List (List Char) → TimeSlot → List (TimeSlot × Int × List (List Char))
  | [], _ => []
  | line :: rest, time =>
    if isComment line then stageRowCells rest time
    else
      match lineFields line with
      | [a, b] => stageRowCells rest (TimeSlot.mk (String.mk a) (String.mk b))
      | stageStr :: fields =>
        if (stageStr :: fields).length = 32 then
          match Atoi (removeStage stageStr) with
          | Except.ok stage => (time, stage, fields) :: stageRowCells rest time
          | Except.error _ => stageRowCells rest time
        else stageRowCells rest time
      | [] => stageRowCells rest time

/-- The group `g` at day `d`, time slot `t`, stage `s` comes from a row of
`R`: a row of the time slot `t` and of a stage at most `s` whose cell of
column `d` reads `g`. -/
def fromRow (R : List (TimeSlot × Int × List (List Char))) (d : Int) (t : TimeSlot)
    (s g : Int) : Prop :=
  ∃ row ∈ R, row.1 = t ∧ row.2.1 ≤ s ∧ 1 ≤ d
    ∧ ∃ cell, row.2.2[(d - 1).toNat]? = some cell ∧ Atoi cell = Except.ok g

/-- With the rows `R` read so far, the day keys are among 1 to 31 and every
group comes from a row. -/
def SoundInv (data : ScheduleData) (R : List (TimeSlot × Int × List (List Char))) : Prop :=
  (∀ d, d ∈ data.keys → 1 ≤ d ∧ d ≤ 31)
  ∧ (∀ d t s g, data.has d t s g → fromRow R d t s g)

/-! ## The lines of `Print` before formatting -/

/-- What `Print` writes for the stages of one time slot, before formatting:
day, time slot, stage and the sorted group numbers of each line. -/
def stagePrintEntries (dayOfMonth : Int) (timeSlot : TimeSlot) (stages : StageMap) :
    List (Int × TimeSlot × Int × List Int) :=
  (sortInts stages.keys).flatMap fun stage =>
    if (stages.get stage).len = 0 then []
    else [(dayOfMonth, timeSlot, stage, sortInts (stages.get stage).keys)]

/-- What `Print` writes, before formatting. -/
def printEntries (schedule : Schedule) : List (Int × TimeSlot × Int × List Int) :=
  (sortInts schedule.Data.keys).flatMap fun dayOfMonth =>
    (sortTimeSlots (schedule.Data.get dayOfMonth).keys).flatMap fun timeSlot =>
      stagePrintEntries dayOfMonth timeSlot ((schedule.Data.get dayOfMonth).get timeSlot)

/-- The text of a line of `Print`. -/
def formatEntry (e : Int × TimeSlot × Int × List Int) : String :=
  formatLine e.1 e.2.2.1 e.2.1 (e.2.2.2.map Itoa)

/-- An input with two time slots whose start labels have the same hour. -/
def halfHourText : String :=
  "06:00|06:30\nStage1|1|0|0|0|0|0|0|0|0|0|0|0|0|0|0|0|0|0|0|0|0|0|0|0|0|0|0|0|0|0|0\n06:30|07:00\nStage1|2|0|0|0|0|0|0|0|0|0|0|0|0|0|0|0|0|0|0|0|0|0|0|0|0|0|0|0|0|0|0"

/-- Day 1 of the schedule of `halfHourText`. -/
def halfHourSchedule : Schedule :=
  (Schedule.mk "schedule.txt" (parseScheduleFile halfHourText).1).FilterByDay 1

/-- The schedule `halfHourSchedule` with the two time slots of day 1 held in
the other enumeration order. -/
def halfHourScheduleSwapped : Schedule :=
  Schedule.mk "schedule.txt"
    ((GoMap.make : ScheduleData).set 1
      (((GoMap.make : SlotMap).set (TimeSlot.mk "06:30" "07:00")
          ((halfHourSchedule.Data.get 1).get (TimeSlot.mk "06:30" "07:00"))).set
        (TimeSlot.mk "06:00" "06:30")
        ((halfHourSchedule.Data.get 1).get (TimeSlot.mk "06:00" "06:30"))))

/-! ## The filters on a heap of map objects

A Go map value is a reference to a map object.  To speak of which object a
map of a filtered schedule is, the filters are embedded a second time, on an
explicit heap: one store of objects for each of the four map types of
`ScheduleData`, and one for the `Schedule` structs. -/

/-- A reference to a map object: `none` is the nil map, `some a` the object at
address `a` of the store of its type. -/
abbrev Ref := Option Nat

/-- The map objects of one type: the object at address `a` is the entry list
at index `a`. -/
abbrev Store (K V : Type) := List (List (K × V))

namespace Store

variable {K V : Type}

/-- The entries `range m` enumerates for the map `m` referred to by `r`. -/
def entries (st : Store K V) (r : Ref) : List (K × V) :=
  match r with
  | none => []
  | some a => st.getD a []

/-- The Go expression `m[k]` for the map referred to by `r`. -/
def get [DecidableEq K] [Inhabited V] (st : Store K V) (r : Ref) (k : K) : V :=
  (lookupL k (st.entries r)).getD default

/-- The Go statement `m[k] = v` for the map referred to by `r`: the object is
changed in place.  (Go panics when `r` is nil; no assignment of `schedule.go`
is to a nil map, and the model leaves the store as it is.) -/
def set [DecidableEq K] (st : Store K V) (r : Ref) (k : K) (v : V) : Store K V :=
  match r with
  | none => st
  | some a => List.set st a (insertL k v (st.getD a []))

/-- The store after `make(...)`: the new object has the address `st.length`. -/
def alloc (st : Store K V) : Store K V := st ++ [[]]

/-- The guard `if m[k] == nil { m[k] = make(...) }` for the map `m` referred
to by `r` in the store `parent`, the made map being an object of `child`. -/
def ensure {W : Type} [DecidableEq K] (parent : Store K Ref) (child : Store W V) (r : Ref)
    (k : K) : Store K Ref × Store W V :=
  if parent.get r k = none then (parent.set r k (some child.length), child.alloc)
  else (parent, child)

end Store

/-- A `Schedule` struct on the heap: its `Data` field is a reference. -/
structure ScheduleObj where
  FileName : String
  Data : Ref
deriving DecidableEq

instance : Inhabited ScheduleObj := ⟨ScheduleObj.mk "" none⟩

/-- The heap: the `Schedule` structs and the map objects of each type. -/
structure Heap where
  schedules : List ScheduleObj
  days : Store Int Ref
  slots : Store TimeSlot Ref
  stages : Store Int Ref
  groups : Store Int Unit
deriving DecidableEq

namespace Heap

/-- The method `FilterByDay` for the struct at address `schedule`: the heap
after the call and the address of the returned struct. -/
def FilterByDay (h : Heap) (schedule : Nat) (dayOfMonth : Int) : Heap × Nat :=
  let src := h.schedules.getD schedule default
  -- line 56
  let filtered : Ref := some h.days.length
  let days := h.days.alloc
  -- line 57
  let days := days.set filtered dayOfMonth (days.get src.Data dayOfMonth)
  -- line 58
  (Heap.mk (h.schedules ++ [ScheduleObj.mk src.FileName filtered]) days h.slots h.stages
    h.groups, h.schedules.length)

/-- The innermost body of `FilterByGroups` (lines 73-83) on the heap. -/
def addGroup (filtered : Ref) (h : Heap) (dayOfMonth : Int) (timeSlot : TimeSlot)
    (stage group : Int) : Heap :=
  -- lines 73-75
  let ds := Store.ensure h.days h.slots filtered dayOfMonth
  let day := ds.1.get filtered dayOfMonth
  -- lines 76-78
  let ts := Store.ensure ds.2 h.stages day timeSlot
  let stages := ts.1.get day timeSlot
  -- lines 79-81
  let sg := Store.ensure ts.2 h.groups stages stage
  let groups := sg.1.get stages stage
  -- line 83
  Heap.mk h.schedules ds.1 ts.1 sg.1 (sg.2.set groups group ())

/-- The method `FilterByGroups` on the heap. -/
def FilterByGroups (h : Heap) (schedule : Nat) (groups : List Int) : Heap × Nat :=
  let src := h.schedules.getD schedule default
  let filtered : Ref := some h.days.length
  let h1 := Heap.mk h.schedules h.days.alloc h.slots h.stages h.groups
  let h2 :=
    (h1.days.entries src.Data).foldl (fun h dayEntry =>
      (h.slots.entries dayEntry.2).foldl (fun h slotEntry =>
        (h.stages.entries slotEntry.2).foldl (fun h stageEntry =>
          groups.foldl (fun h group =>
            match lookupL group (h.groups.entries stageEntry.2) with
            | none => h
            | some _ => addGroup filtered h dayEntry.1 slotEntry.1 stageEntry.1 group)
            h)
          h)
        h)
      h1
  (Heap.mk (h2.schedules ++ [ScheduleObj.mk src.FileName filtered]) h2.days h2.slots h2.stages
    h2.groups, h2.schedules.length)

/-- The body of the inner loop of `FilterByStage` (lines 97-103) on the heap;
`stages` is the reference the loop variable holds. -/
def keepStage (stage : Int) (filtered : Ref) (h : Heap) (dayOfMonth : Int)
    (timeSlot : TimeSlot) (stages : Ref) : Heap :=
  -- lines 97-99
  let ds := Store.ensure h.days h.slots filtered dayOfMonth
  let day := ds.1.get filtered dayOfMonth
  -- lines 100-102
  let ts := Store.ensure ds.2 h.stages day timeSlot
  -- line 103
  Heap.mk h.schedules ds.1 ts.1
    (ts.2.set (ts.1.get day timeSlot) stage (ts.2.get stages stage)) h.groups

/-- The method `FilterByStage` on the heap. -/
def FilterByStage (h : Heap) (schedule : Nat) (stage : Int) : Heap × Nat :=
  let src := h.schedules.getD schedule default
  let filtered : Ref := some h.days.length
  let h1 := Heap.mk h.schedules h.days.alloc h.slots h.stages h.groups
  let h2 :=
    (h1.days.entries src.Data).foldl (fun h dayEntry =>
      (h.slots.entries dayEntry.2).foldl (fun h slotEntry =>
        keepStage stage filtered h dayEntry.1 slotEntry.1 slotEntry.2)
        h)
      h1
  (Heap.mk (h2.schedules ++ [ScheduleObj.mk src.FileName filtered]) h2.days h2.slots h2.stages
    h2.groups, h2.schedules.length)

end Heap

/-- The objects of the store at the addresses from `n` on hold only references
to objects at the addresses from `m` on (and below `len`) of the store they
refer to. -/
def Store.Fresh {K : Type} (n : Nat) (st : Store K Ref) (m len : Nat) : Prop :=
  ∀ a, n ≤ a → ∀ e ∈ st.getD a [], ∃ b, e.2 = some b ∧ m ≤ b ∧ b < len

/-- What holds of the heap `h` while a filter called on the heap `h0` builds
its result: the structs and objects of `h0` are unchanged, the result's day
map is the object made first, and the day maps and time slot maps made since
refer to objects made since. -/
def Heap.Building (h0 h : Heap) : Prop :=
  h.schedules = h0.schedules
  ∧ List.IsPrefix h0.days h.days ∧ List.IsPrefix h0.slots h.slots
  ∧ List.IsPrefix h0.stages h.stages ∧ List.IsPrefix h0.groups h.groups
  ∧ h0.days.length < h.days.length
  ∧ Store.Fresh h0.days.length h.days h0.slots.length h.slots.length
  ∧ Store.Fresh h0.slots.length h.slots h0.stages.length h.stages.length

/-- Every struct and every map object of the heap `h` is in the heap `h'`, at
the same address and unchanged. -/
def Heap.Extends (h h' : Heap) : Prop :=
  List.IsPrefix h.schedules h'.schedules ∧ List.IsPrefix h.days h'.days
  ∧ List.IsPrefix h.slots h'.slots ∧ List.IsPrefix h.stages h'.stages
  ∧ List.IsPrefix h.groups h'.groups

/-- The group set a reference stands for. -/
def Heap.groupSet (h : Heap) (r : Ref) : GroupSet :=
  match r with
  | none => GoMap.nil
  | some a => (h.groups.getD a []).foldl (fun m e => m.set e.1 e.2) GoMap.make

/-- The stages a reference stands for. -/
def Heap.stageMap (h : Heap) (r : Ref) : StageMap :=
  match r with
  | none => GoMap.nil
  | some a => (h.stages.getD a []).foldl (fun m e => m.set e.1 (h.groupSet e.2)) GoMap.make

/-- The time slots a reference stands for. -/
def Heap.slotMap (h : Heap) (r : Ref) : SlotMap :=
  match r with
  | none => GoMap.nil
  | some a => (h.slots.getD a []).foldl (fun m e => m.set e.1 (h.stageMap e.2)) GoMap.make

/-- The schedule data a reference stands for. -/
def Heap.scheduleData (h : Heap) (r : Ref) : ScheduleData :=
  match r with
  | none => GoMap.nil
  | some a => (h.days.getD a []).foldl (fun m e => m.set e.1 (h.slotMap e.2)) GoMap.make

/-- The schedule the struct at an address stands for. -/
def Heap.toSchedule (h : Heap) (schedule : Nat) : Schedule :=
  Schedule.mk (h.schedules.getD schedule default).FileName
    (h.scheduleData (h.schedules.getD schedule default).Data)

/-- A heap with one schedule: day 1, time slot 06:00-08:30, group 1 at stage
1 and groups 2 and 1 at stage 2. -/
def sampleHeap : Heap :=
  Heap.mk [ScheduleObj.mk "schedule.txt" (some 0)]
    [[(1, some 0)]]
    [[(TimeSlot.mk "06:00" "08:30", some 0)]]
    [[(1, some 0), (2, some 1)]]
    [[(1, ())], [(2, ()), (1, ())]]

/-- A heap with one schedule of three days: day 1 with two time slots, one of
which holds a nil stage map entry; day 2 with the nil time slot map; day 3
with one time slot. -/
def sampleHeap2 : Heap :=
  Heap.mk [ScheduleObj.mk "a.txt" (some 0)]
    [[(1, some 0), (2, none), (3, some 1)]]
    [[(TimeSlot.mk "06:00" "08:30", some 0), (TimeSlot.mk "08:00" "10:30", some 1)],
      [(TimeSlot.mk "06:00" "08:30", some 2)]]
    [[(1, some 0), (2, some 1)], [(1, none)], [(2, some 2)]]
    [[(1, ())], [(2, ()), (1, ())], [(5, ()), (1, ())]]

/-- Every reference held by an object of the store is nil or the address of
an object among the first `len` of the store it refers to. -/
def Store.Below {K : Type} (st : Store K Ref) (len : Nat) : Prop :=
  ∀ es ∈ st, ∀ e ∈ es, ∀ a ∈ e.2, a < len

instance {K : Type} (st : Store K Ref) (len : Nat) : Decidable (st.Below len) :=
  inferInstanceAs (Decidable (∀ es ∈ st, ∀ e ∈ es, ∀ a ∈ e.2, a < len))

/-- The keys of every map object of the store are distinct, as the keys of a
Go map are. -/
def Store.Distinct {K V : Type} (st : Store K V) : Prop :=
  ∀ es ∈ st, (es.map Prod.fst).Nodup

instance {K V : Type} [DecidableEq K] (st : Store K V) : Decidable st.Distinct :=
  inferInstanceAs (Decidable (∀ es ∈ st, (es.map Prod.fst).Nodup))

/-- No reference of the heap dangles: the references the day maps, the time
slot maps and the stage maps hold are nil or addresses of objects of the
heap. -/
def Heap.Closed (h : Heap) : Prop :=
  h.days.Below h.slots.length ∧ h.slots.Below h.stages.length
  ∧ h.stages.Below h.groups.length

instance (h : Heap) : Decidable h.Closed :=
  inferInstanceAs (Decidable (h.days.Below h.slots.length ∧ h.slots.Below h.stages.length
    ∧ h.stages.Below h.groups.length))

/-- The keys of every day map and of every time slot map of the heap are
distinct. -/
def Heap.Distinct (h : Heap) : Prop :=
  h.days.Distinct ∧ h.slots.Distinct

instance (h : Heap) : Decidable h.Distinct :=
  inferInstanceAs (Decidable (h.days.Distinct ∧ h.slots.Distinct))

/-- The Go expression `data[d][t][s]` for the schedule data referred to by
`data`: a reference to a group set. -/
def Heap.groupsAt (h : Heap) (data : Ref) (d : Int) (t : TimeSlot) (s : Int) : Ref :=
  h.stages.get (h.slots.get (h.days.get data d) t) s

/-- The Go expression `data[d]` for the schedule data at address `n`: a
reference to a time slot map. -/
def Heap.slotsAt (h : Heap) (n : Nat) (d : Int) : Ref := h.days.get (some n) d

/-- The Go expression `data[p.1][p.2]` for the schedule data at address `n`:
a reference to a stage map. -/
def Heap.stagesAt (h : Heap) (n : Nat) (p : Int × TimeSlot) : Ref :=
  h.slots.get (h.slotsAt n p.1) p.2

/-- While a filter builds the schedule data at address `n`, distinct days lead
to distinct time slot maps and distinct time slots to distinct stage maps. -/
def Heap.Separate (n : Nat) (h : Heap) : Prop :=
  (∀ d d' b, h.slotsAt n d = some b → h.slotsAt n d' = some b → d = d')
  ∧ (∀ p p' c, h.stagesAt n p = some c → h.stagesAt n p' = some c → p = p')

/-- The iterations of the inner loop of `FilterByStage` on the schedule data
referred to by `data`, in order: the day, the time slot and the reference the
loop variable `stages` holds. -/
def Heap.stageRefs (h : Heap) (data : Ref) : List (Int × TimeSlot × Ref) :=
  (h.days.entries data).flatMap (fun dayEntry =>
    (h.slots.entries dayEntry.2).map (fun slotEntry => (dayEntry.1, slotEntry.1, slotEntry.2)))

/-! ## Facts about Go maps -/

theorem lookupL_insertL {K V : Type} [DecidableEq K] (k k' : K) (v : V) (es : List (K × V)) :
    lookupL k' (insertL k v es) = if k' = k then some v else lookupL k' es := by
  induction es with
  | nil =>
    by_cases h : k' = k
    · simp [insertL, lookupL, h]
    · have h' : ¬ k = k' := fun e => h e.symm
      simp [insertL, lookupL, h, h']
  | cons e es ih =>
    by_cases h : e.1 = k
    · by_cases h2 : k' = k
      · simp [insertL, lookupL, h, h2]
      · have h3 : ¬ k = k' := fun e => h2 e.symm
        simp [insertL, lookupL, h, h2, h3]
    · by_cases h2 : e.1 = k'
      · have h3 : ¬ k' = k := fun e => h (h2.trans e)
        simp [insertL, lookupL, h, h2, h3]
      · simp [insertL, lookupL, h, h2, ih]

theorem lookupL_eq_none {K V : Type} [DecidableEq K] (k : K) (es : List (K × V)) :
    lookupL k es = none ↔ k ∉ es.map Prod.fst := by
  induction es with
  | nil => simp [lookupL]
  | cons e es ih =>
    by_cases h : e.1 = k
    · simp [lookupL, h]
    · have h' : ¬ k = e.1 := fun e' => h e'.symm
      simp [lookupL, h, h', ih]

theorem lookupL_of_mem {K V : Type} [DecidableEq K] (k : K) (v : V) (es : List (K × V))
    (hn : (es.map Prod.fst).Nodup) (h : (k, v) ∈ es) : lookupL k es = some v := by
  induction es with
  | nil => simp at h
  | cons e es ih =>
    simp only [List.map_cons, List.nodup_cons] at hn
    rcases List.mem_cons.1 h with h1 | h1
    · subst h1; simp [lookupL]
    · have hk : k ∈ es.map Prod.fst := List.mem_map.2 ⟨(k, v), h1, rfl⟩
      have hne : ¬ e.1 = k := fun e' => hn.1 (e' ▸ hk)
      simp [lookupL, hne, ih hn.2 h1]

theorem mem_of_lookupL {K V : Type} [DecidableEq K] (k : K) (v : V) (es : List (K × V))
    (h : lookupL k es = some v) : (k, v) ∈ es := by
  induction es with
  | nil => simp [lookupL] at h
  | cons e es ih =>
    by_cases h1 : e.1 = k
    · simp only [lookupL, h1, if_true, Option.some.injEq] at h
      have : e = (k, v) := Prod.ext h1 h
      simp [this]
    · simp only [lookupL, h1, if_false] at h
      exact List.mem_cons_of_mem _ (ih h)

namespace GoMap

variable {K V : Type}

@[simp] theorem toList_set [DecidableEq K] (m : GoMap K V) (k : K) (v : V) :
    (m.set k v).toList = insertL k v m.toList := rfl

@[simp] theorem toList_make : (GoMap.make : GoMap K V).toList = [] := rfl

@[simp] theorem keys_make : (GoMap.make : GoMap K V).keys = [] := rfl

@[simp] theorem keys_nil : (GoMap.nil : GoMap K V).keys = [] := rfl

@[simp] theorem isNil_set [DecidableEq K] (m : GoMap K V) (k : K) (v : V) :
    (m.set k v).isNil = false := rfl

@[simp] theorem isNil_make : (GoMap.make : GoMap K V).isNil = false := rfl

theorem find?_set [DecidableEq K] (m : GoMap K V) (k k' : K) (v : V) :
    (m.set k v).find? k' = if k' = k then some v else m.find? k' := by
  simp [find?, lookupL_insertL]

@[simp] theorem get_set [DecidableEq K] [Inhabited V] (m : GoMap K V) (k k' : K) (v : V) :
    (m.set k v).get k' = if k' = k then v else m.get k' := by
  simp only [get, find?_set]
  split <;> rfl

@[simp] theorem get_make [DecidableEq K] [Inhabited V] (k : K) :
    (GoMap.make : GoMap K V).get k = default := rfl

@[simp] theorem get_nil [DecidableEq K] [Inhabited V] (k : K) :
    (GoMap.nil : GoMap K V).get k = default := rfl

theorem default_eq_nil : (default : GoMap K V) = GoMap.nil := rfl

theorem mem_keys_set [DecidableEq K] (m : GoMap K V) (k k' : K) (v : V) :
    k' ∈ (m.set k v).keys ↔ k' = k ∨ k' ∈ m.keys := by
  simp only [keys, toList_set, keys_insertL]
  split
  · rename_i h
    constructor
    · exact fun h' => Or.inr h'
    · rintro (h' | h')
      · exact h' ▸ h
      · exact h'
  · simp [or_comm]

theorem nodup_keys (m : GoMap K V) : m.keys.Nodup := m.nodup_toList

theorem find?_eq_none [DecidableEq K] (m : GoMap K V) (k : K) :
    m.find? k = none ↔ k ∉ m.keys := lookupL_eq_none k m.toList

theorem find?_isSome [DecidableEq K] (m : GoMap K V) (k : K) :
    (∃ v, m.find? k = some v) ↔ k ∈ m.keys := by
  rw [← not_iff_not, ← find?_eq_none]
  cases m.find? k <;> simp

theorem get_of_not_mem [DecidableEq K] [Inhabited V] (m : GoMap K V) (k : K)
    (h : k ∉ m.keys) : m.get k = default := by
  simp [get, (find?_eq_none m k).2 h]

theorem get_of_mem [DecidableEq K] [Inhabited V] (m : GoMap K V) (k : K) (v : V)
    (h : (k, v) ∈ m.toList) : m.get k = v := by
  simp [get, find?, lookupL_of_mem k v m.toList m.nodup_toList h]

/-- A map that is nil or made reads alike once made: the entries are the same. -/
theorem toList_eq_nil_of_isNil (m : GoMap K V) (h : m.isNil = true) : m.toList = [] := by
  cases m with
  | nil => rfl
  | mk es hn => simp [isNil] at h

theorem eq_nil_of_isNil (m : GoMap K V) (h : m.isNil = true) : m = GoMap.nil := by
  cases m with
  | nil => rfl
  | mk es hn => simp [isNil] at h

theorem keys_eq_nil_of_isNil (m : GoMap K V) (h : m.isNil = true) : m.keys = [] := by
  simp [keys, toList_eq_nil_of_isNil m h]

theorem ext_toList (m m' : GoMap K V) (h1 : m.isNil = m'.isNil) (h2 : m.toList = m'.toList) :
    m = m' := by
  cases m <;> cases m' <;> simp_all [isNil, toList]

end GoMap


namespace GoMap

variable {K V W : Type}

@[simp] theorem toList_made (m : GoMap K V) : m.made.toList = m.toList := by
  cases m <;> rfl

@[simp] theorem keys_made (m : GoMap K V) : m.made.keys = m.keys := by
  simp [keys]

@[simp] theorem isNil_made (m : GoMap K V) : m.made.isNil = false := by
  cases m <;> rfl

@[simp] theorem get_made [DecidableEq K] [Inhabited V] (m : GoMap K V) (k : K) :
    m.made.get k = m.get k := by
  simp [get, find?]

theorem made_of_not_isNil (m : GoMap K V) (h : m.isNil = false) : m.made = m := by
  simp [made, h]

@[simp] theorem made_nil : (GoMap.nil : GoMap K V).made = GoMap.make := rfl

@[simp] theorem made_set [DecidableEq K] (m : GoMap K V) (k : K) (v : V) :
    (m.set k v).made = m.set k v := rfl

@[simp] theorem made_made (m : GoMap K V) : m.made.made = m.made := by
  cases m <;> rfl

theorem get_ensure [DecidableEq K] (m : GoMap K (GoMap W V)) (k k' : K) :
    (m.ensure k).get k' = if k' = k then (m.get k).made else m.get k' := by
  unfold ensure
  cases h : (m.get k).isNil
  · by_cases hk : k' = k
    · subst hk
      simp [made, h]
    · simp [hk]
  · by_cases hk : k' = k
    · subst hk
      simp [made, h]
    · simp [hk]

theorem mem_keys_ensure [DecidableEq K] (m : GoMap K (GoMap W V)) (k k' : K) :
    k' ∈ (m.ensure k).keys → k' = k ∨ k' ∈ m.keys := by
  unfold ensure
  split
  · exact (mem_keys_set m k k' _).1
  · exact Or.inr

theorem mem_keys_ensure_of_mem [DecidableEq K] (m : GoMap K (GoMap W V)) (k k' : K)
    (h : k' ∈ m.keys) : k' ∈ (m.ensure k).keys := by
  unfold ensure
  split
  · exact (mem_keys_set m k k' _).2 (Or.inr h)
  · exact h

theorem insertL_insertL [DecidableEq K] (k : K) (v v' : V) (es : List (K × V)) :
    insertL k v' (insertL k v es) = insertL k v' es := by
  induction es with
  | nil => simp [insertL]
  | cons e es ih =>
    by_cases h : e.1 = k
    · simp [insertL, h]
    · simp [insertL, h, ih]

theorem set_set [DecidableEq K] (m : GoMap K V) (k : K) (v v' : V) :
    (m.set k v).set k v' = m.set k v' := by
  apply ext_toList
  · rfl
  · simp [insertL_insertL]

theorem mem_toList_get [DecidableEq K] [Inhabited V] (m : GoMap K V) (k : K)
    (h : k ∈ m.keys) : (k, m.get k) ∈ m.toList := by
  obtain ⟨v, hv⟩ := (find?_isSome m k).2 h
  have : m.get k = v := by simp [get, hv]
  rw [this]
  exact mem_of_lookupL k v m.toList hv

theorem mem_keys_of_mem [DecidableEq K] (m : GoMap K V) (k : K) (v : V)
    (h : (k, v) ∈ m.toList) : k ∈ m.keys :=
  List.mem_map.2 ⟨(k, v), h, rfl⟩

/-- Reading a key that is absent from a map of maps gives a map without keys. -/
theorem keys_get_of_not_mem [DecidableEq K] (m : GoMap K (GoMap W V)) (k : K)
    (h : k ∉ m.keys) : (m.get k).keys = [] := by
  rw [get_of_not_mem m k h]; rfl

theorem mem_keys_of_get_keys [DecidableEq K] (m : GoMap K (GoMap W V)) (k : K) (w : W)
    (h : w ∈ (m.get k).keys) : k ∈ m.keys := by
  by_contra hk
  rw [keys_get_of_not_mem m k hk] at h
  simp at h

end GoMap

theorem atSlot_get_get (f : ScheduleData) (d : Int) (t : TimeSlot) (F : StageMap → StageMap)
    (d' : Int) (t' : TimeSlot) :
    ((atSlot f d t F).get d').get t'
      = if d' = d ∧ t' = t then F ((f.get d).get t).made else (f.get d').get t' := by
  unfold atSlot
  by_cases hd : d' = d
  · subst hd
    by_cases ht : t' = t
    · subst ht
      simp [GoMap.get_ensure]
    · simp [GoMap.get_ensure, ht]
  · simp [GoMap.get_ensure, hd]

theorem atSlot_mem_keys (f : ScheduleData) (d : Int) (t : TimeSlot) (F : StageMap → StageMap)
    (d' : Int) : d' ∈ (atSlot f d t F).keys ↔ d' = d ∨ d' ∈ f.keys := by
  unfold atSlot
  rw [GoMap.mem_keys_set]
  constructor
  · rintro (h | h)
    · exact Or.inl h
    · exact GoMap.mem_keys_ensure f d d' h
  · rintro (h | h)
    · exact Or.inl h
    · exact Or.inr (GoMap.mem_keys_ensure_of_mem f d d' h)

theorem atSlot_mem_slots (f : ScheduleData) (d : Int) (t : TimeSlot) (F : StageMap → StageMap)
    (d' : Int) (t' : TimeSlot) :
    t' ∈ ((atSlot f d t F).get d').keys ↔ (d' = d ∧ t' = t) ∨ t' ∈ (f.get d').keys := by
  unfold atSlot
  by_cases hd : d' = d
  · subst hd
    simp only [GoMap.get_set, if_true, GoMap.mem_keys_set, true_and]
    constructor
    · rintro (h | h)
      · exact Or.inl h
      · have := GoMap.mem_keys_ensure _ t t' h
        simpa [GoMap.get_ensure] using this
    · rintro (h | h)
      · exact Or.inl h
      · refine Or.inr (GoMap.mem_keys_ensure_of_mem _ t t' ?_)
        simpa [GoMap.get_ensure] using h
  · simp [GoMap.get_ensure, hd]


/-! ## The filters -/

theorem foldl_flatMap_map {A B C S : Type} (g : A → List B) (h : A → B → C) (f : S → C → S)
    (l : List A) (init : S) :
    (l.flatMap fun x => (g x).map (h x)).foldl f init
      = l.foldl (fun acc x => (g x).foldl (fun acc y => f acc (h x y)) acc) init := by
  induction l generalizing init with
  | nil => rfl
  | cons x l ih => simp [List.flatMap_cons, List.foldl_append, List.foldl_map, ih]

theorem mem_slotEntries (data : ScheduleData) (d : Int) (t : TimeSlot) (st : StageMap) :
    (d, t, st) ∈ slotEntries data ↔ t ∈ (data.get d).keys ∧ st = (data.get d).get t := by
  unfold slotEntries
  simp only [List.mem_flatMap, List.mem_map, Prod.mk.injEq]
  constructor
  · rintro ⟨dayEntry, hday, slotEntry, hslot, hd, ht, hst⟩
    have h1 : data.get d = dayEntry.2 :=
      GoMap.get_of_mem data d dayEntry.2 (by rw [← hd]; exact hday)
    rw [h1]
    have h2 : (t, st) ∈ dayEntry.2.toList := by rw [← ht, ← hst]; exact hslot
    exact ⟨GoMap.mem_keys_of_mem _ t st h2, (GoMap.get_of_mem _ t st h2).symm⟩
  · rintro ⟨ht, hst⟩
    have hd : d ∈ data.keys := GoMap.mem_keys_of_get_keys data d t ht
    refine ⟨(d, data.get d), GoMap.mem_toList_get data d hd, (t, (data.get d).get t),
      GoMap.mem_toList_get _ t ht, rfl, rfl, hst.symm⟩

theorem FilterByStage_eq_foldl (schedule : Schedule) (stage : Int) :
    (schedule.FilterByStage stage).Data
      = (slotEntries schedule.Data).foldl
          (fun filtered e => keepStage stage filtered e.1 e.2.1 e.2.2) GoMap.make := by
  unfold Schedule.FilterByStage slotEntries
  rw [foldl_flatMap_map]

theorem keepStage_eq (stage : Int) (f : ScheduleData) (d : Int) (t : TimeSlot) (st : StageMap) :
    keepStage stage f d t st = atSlot f d t (fun S0 => S0.set stage (st.get stage)) := rfl

/-- What the loops of `FilterByStage` have built after visiting the triples `L`. -/
theorem keepStage_foldl (stage : Int) (L : List (Int × TimeSlot × StageMap))
    (hfun : ∀ d t st st', (d, t, st) ∈ L → (d, t, st') ∈ L → st = st') :
    (∀ d, d ∈ (L.foldl (fun f e => keepStage stage f e.1 e.2.1 e.2.2) GoMap.make).keys
        ↔ ∃ t st, (d, t, st) ∈ L)
    ∧ (∀ d t, t ∈ ((L.foldl (fun f e => keepStage stage f e.1 e.2.1 e.2.2)
          GoMap.make).get d).keys ↔ ∃ st, (d, t, st) ∈ L)
    ∧ (∀ d t st, (d, t, st) ∈ L →
        ((L.foldl (fun f e => keepStage stage f e.1 e.2.1 e.2.2) GoMap.make).get d).get t
          = (GoMap.make : StageMap).set stage (st.get stage)) := by
  induction L using List.reverseRecOn with
  | nil =>
    refine ⟨?_, ?_, ?_⟩
    · intro d; simp
    · intro d t; simp [GoMap.default_eq_nil]
    · intro d t st h; simp at h
  | append_singleton L x ih =>
    obtain ⟨d0, t0, st0⟩ := x
    have hfunL : ∀ d t st st', (d, t, st) ∈ L → (d, t, st') ∈ L → st = st' :=
      fun d t st st' h h' =>
        hfun d t st st' (List.mem_append_left _ h) (List.mem_append_left _ h')
    obtain ⟨ih1, ih2, ih3⟩ := ih hfunL
    simp only [List.foldl_append, List.foldl_cons, List.foldl_nil]
    generalize L.foldl (fun f e => keepStage stage f e.1 e.2.1 e.2.2) GoMap.make = F
      at ih1 ih2 ih3 ⊢
    rw [keepStage_eq]
    refine ⟨?_, ?_, ?_⟩
    · intro d
      rw [atSlot_mem_keys, ih1]
      constructor
      · rintro (h | ⟨t, st, h⟩)
        · exact ⟨t0, st0, by simp [h]⟩
        · exact ⟨t, st, List.mem_append_left _ h⟩
      · rintro ⟨t, st, h⟩
        rcases List.mem_append.1 h with h | h
        · exact Or.inr ⟨t, st, h⟩
        · simp at h; exact Or.inl h.1
    · intro d t
      rw [atSlot_mem_slots, ih2]
      constructor
      · rintro (⟨h, h'⟩ | ⟨st, h⟩)
        · exact ⟨st0, by simp [h, h']⟩
        · exact ⟨st, List.mem_append_left _ h⟩
      · rintro ⟨st, h⟩
        rcases List.mem_append.1 h with h | h
        · exact Or.inr ⟨st, h⟩
        · simp at h; exact Or.inl ⟨h.1, h.2.1⟩
    · intro d t st h
      rw [atSlot_get_get]
      by_cases hdt : d = d0 ∧ t = t0
      · obtain ⟨hd, ht⟩ := hdt
        subst hd ht
        have hst : st = st0 := hfun d t st st0 h (by simp)
        subst hst
        simp only [and_self, if_true]
        by_cases hex : ∃ st', (d, t, st') ∈ L
        · obtain ⟨st', hst'⟩ := hex
          have : st' = st := hfun d t st' st (List.mem_append_left _ hst') h
          subst this
          rw [ih3 d t st' hst', GoMap.made_set, GoMap.set_set]
        · have hnot : t ∉ (F.get d).keys := fun hmem => hex ((ih2 d t).1 hmem)
          rw [GoMap.get_of_not_mem _ t hnot, GoMap.default_eq_nil, GoMap.made_nil]
      · rw [if_neg hdt]
        rcases List.mem_append.1 h with h | h
        · exact ih3 d t st h
        · simp at h
          exact absurd ⟨h.1, h.2.1⟩ hdt


theorem mem_stageEntries (data : ScheduleData) (d : Int) (t : TimeSlot) (s : Int)
    (gs : GroupSet) :
    (d, t, s, gs) ∈ stageEntries data
      ↔ s ∈ ((data.get d).get t).keys ∧ gs = ((data.get d).get t).get s := by
  unfold stageEntries
  simp only [List.mem_flatMap, List.mem_map, Prod.mk.injEq]
  constructor
  · rintro ⟨⟨d1, t1, st⟩, he, stageEntry, hse, hd, ht, hs, hgs⟩
    simp only at hd ht hs hgs hse
    subst hd ht
    obtain ⟨_, hst⟩ := (mem_slotEntries data d1 t1 st).1 he
    rw [← hst]
    have h2 : (s, gs) ∈ st.toList := by rw [← hs, ← hgs]; exact hse
    exact ⟨GoMap.mem_keys_of_mem _ s gs h2, (GoMap.get_of_mem _ s gs h2).symm⟩
  · rintro ⟨hs, hgs⟩
    have ht : t ∈ (data.get d).keys := GoMap.mem_keys_of_get_keys _ t s hs
    refine ⟨(d, t, (data.get d).get t), (mem_slotEntries data d t _).2 ⟨ht, rfl⟩,
      (s, ((data.get d).get t).get s), GoMap.mem_toList_get _ s hs, rfl, rfl, rfl, hgs.symm⟩

theorem mem_keptTuples (data : ScheduleData) (groups : List Int) (d : Int) (t : TimeSlot)
    (s g : Int) :
    (d, t, s, g) ∈ keptTuples data groups ↔ data.has d t s g ∧ g ∈ groups := by
  unfold keptTuples ScheduleData.has
  simp only [List.mem_flatMap, List.mem_map, List.mem_filter, Prod.mk.injEq]
  constructor
  · rintro ⟨⟨d1, t1, s1, gs⟩, he, g1, ⟨hg1, hsome⟩, hd, ht, hs, hg⟩
    simp only at hd ht hs hsome
    subst hd ht hs hg
    obtain ⟨_, hgs⟩ := (mem_stageEntries data d1 t1 s1 gs).1 he
    rw [← hgs]
    refine ⟨?_, hg1⟩
    rw [← GoMap.find?_isSome]
    exact Option.isSome_iff_exists.1 hsome
  · rintro ⟨hg, hmem⟩
    have hs : s ∈ ((data.get d).get t).keys := GoMap.mem_keys_of_get_keys _ s g hg
    refine ⟨(d, t, s, ((data.get d).get t).get s),
      (mem_stageEntries data d t s _).2 ⟨hs, rfl⟩, g, ⟨hmem, ?_⟩, rfl, rfl, rfl, rfl⟩
    exact Option.isSome_iff_exists.2 ((GoMap.find?_isSome _ g).2 hg)

theorem foldl_flatMap' {A B S : Type} (g : A → List B) (f : S → B → S) (l : List A) (init : S) :
    (l.flatMap g).foldl f init = l.foldl (fun acc x => (g x).foldl f acc) init := by
  induction l generalizing init with
  | nil => rfl
  | cons x l ih => simp [List.flatMap_cons, List.foldl_append, ih]

theorem foldl_filter' {B S : Type} (p : B → Bool) (f : S → B → S) (l : List B) (init : S) :
    (l.filter p).foldl f init = l.foldl (fun acc y => if p y then f acc y else acc) init := by
  induction l generalizing init with
  | nil => rfl
  | cons y l ih =>
    by_cases hp : p y = true
    · simp [List.filter_cons, hp, ih]
    · simp [List.filter_cons, hp, ih]

theorem FilterByGroups_eq_foldl (schedule : Schedule) (groups : List Int) :
    (schedule.FilterByGroups groups).Data
      = (keptTuples schedule.Data groups).foldl
          (fun filtered x => addGroup filtered x.1 x.2.1 x.2.2.1 x.2.2.2) GoMap.make := by
  unfold Schedule.FilterByGroups keptTuples stageEntries slotEntries
  simp only [foldl_flatMap', foldl_filter', List.foldl_map]
  congr 1
  funext filtered dayEntry
  congr 1
  funext filtered slotEntry
  congr 1
  funext filtered stageEntry
  congr 1
  funext filtered group
  cases h : stageEntry.2.find? group <;> simp

theorem addGroup_eq (f : ScheduleData) (d : Int) (t : TimeSlot) (s g : Int) :
    addGroup f d t s g
      = atSlot f d t (fun S0 => (S0.ensure s).set s (((S0.ensure s).get s).set g ())) := rfl

theorem addGroup_mem_stages (f : ScheduleData) (d : Int) (t : TimeSlot) (s g : Int)
    (d' : Int) (t' : TimeSlot) (s' : Int) :
    s' ∈ (((addGroup f d t s g).get d').get t').keys
      ↔ (d' = d ∧ t' = t ∧ s' = s) ∨ s' ∈ ((f.get d').get t').keys := by
  rw [addGroup_eq, atSlot_get_get]
  by_cases hdt : d' = d ∧ t' = t
  · obtain ⟨hd, ht⟩ := hdt
    subst hd ht
    simp only [and_self, if_true, true_and, GoMap.mem_keys_set]
    constructor
    · rintro (h | h)
      · exact Or.inl h
      · have := GoMap.mem_keys_ensure _ s s' h
        simpa using this
    · rintro (h | h)
      · exact Or.inl h
      · exact Or.inr (GoMap.mem_keys_ensure_of_mem _ s s' (by simpa using h))
  · rw [if_neg hdt]
    constructor
    · exact Or.inr
    · rintro (h | h)
      · exact absurd ⟨h.1, h.2.1⟩ hdt
      · exact h

theorem addGroup_has (f : ScheduleData) (d : Int) (t : TimeSlot) (s g : Int)
    (d' : Int) (t' : TimeSlot) (s' g' : Int) :
    (addGroup f d t s g).has d' t' s' g'
      ↔ (d' = d ∧ t' = t ∧ s' = s ∧ g' = g) ∨ f.has d' t' s' g' := by
  unfold ScheduleData.has
  rw [addGroup_eq, atSlot_get_get]
  by_cases hdt : d' = d ∧ t' = t
  · obtain ⟨hd, ht⟩ := hdt
    subst hd ht
    simp only [and_self, if_true, true_and, GoMap.get_set]
    by_cases hs : s' = s
    · subst hs
      simp [GoMap.mem_keys_set, GoMap.get_ensure]
    · simp [hs, GoMap.get_ensure]
  · rw [if_neg hdt]
    constructor
    · exact Or.inr
    · rintro (h | h)
      · exact absurd ⟨h.1, h.2.1⟩ hdt
      · exact h

/-- What the loops of `FilterByGroups` have built from `f` after reaching the
innermost body for the tuples `T`. -/
theorem addGroup_foldl (T : List (Int × TimeSlot × Int × Int)) (f : ScheduleData) :
    (∀ d, d ∈ (T.foldl (fun f x => addGroup f x.1 x.2.1 x.2.2.1 x.2.2.2) f).keys
        ↔ (∃ t s g, (d, t, s, g) ∈ T) ∨ d ∈ f.keys)
    ∧ (∀ d t, t ∈ ((T.foldl (fun f x => addGroup f x.1 x.2.1 x.2.2.1 x.2.2.2) f).get d).keys
        ↔ (∃ s g, (d, t, s, g) ∈ T) ∨ t ∈ (f.get d).keys)
    ∧ (∀ d t s,
        s ∈ (((T.foldl (fun f x => addGroup f x.1 x.2.1 x.2.2.1 x.2.2.2) f).get d).get t).keys
        ↔ (∃ g, (d, t, s, g) ∈ T) ∨ s ∈ ((f.get d).get t).keys)
    ∧ (∀ d t s g, (T.foldl (fun f x => addGroup f x.1 x.2.1 x.2.2.1 x.2.2.2) f).has d t s g
        ↔ (d, t, s, g) ∈ T ∨ f.has d t s g) := by
  induction T generalizing f with
  | nil => simp
  | cons x T ih =>
    obtain ⟨d0, t0, s0, g0⟩ := x
    obtain ⟨ih1, ih2, ih3, ih4⟩ := ih (addGroup f d0 t0 s0 g0)
    simp only [List.foldl_cons]
    refine ⟨?_, ?_, ?_, ?_⟩
    · intro d
      rw [ih1, addGroup_eq, atSlot_mem_keys]
      simp only [List.mem_cons, Prod.mk.injEq]
      constructor
      · rintro (⟨t, s, g, h⟩ | h | h)
        · exact Or.inl ⟨t, s, g, Or.inr h⟩
        · exact Or.inl ⟨t0, s0, g0, Or.inl ⟨h, rfl, rfl, rfl⟩⟩
        · exact Or.inr h
      · rintro (⟨t, s, g, h | h⟩ | h)
        · exact Or.inr (Or.inl h.1)
        · exact Or.inl ⟨t, s, g, h⟩
        · exact Or.inr (Or.inr h)
    · intro d t
      rw [ih2, addGroup_eq, atSlot_mem_slots]
      simp only [List.mem_cons, Prod.mk.injEq]
      constructor
      · rintro (⟨s, g, h⟩ | h | h)
        · exact Or.inl ⟨s, g, Or.inr h⟩
        · exact Or.inl ⟨s0, g0, Or.inl ⟨h.1, h.2, rfl, rfl⟩⟩
        · exact Or.inr h
      · rintro (⟨s, g, h | h⟩ | h)
        · exact Or.inr (Or.inl ⟨h.1, h.2.1⟩)
        · exact Or.inl ⟨s, g, h⟩
        · exact Or.inr (Or.inr h)
    · intro d t s
      rw [ih3, addGroup_mem_stages]
      simp only [List.mem_cons, Prod.mk.injEq]
      constructor
      · rintro (⟨g, h⟩ | h | h)
        · exact Or.inl ⟨g, Or.inr h⟩
        · exact Or.inl ⟨g0, Or.inl ⟨h.1, h.2.1, h.2.2, rfl⟩⟩
        · exact Or.inr h
      · rintro (⟨g, h | h⟩ | h)
        · exact Or.inr (Or.inl ⟨h.1, h.2.1, h.2.2.1⟩)
        · exact Or.inl ⟨g, h⟩
        · exact Or.inr (Or.inr h)
    · intro d t s g
      rw [ih4, addGroup_has]
      simp only [List.mem_cons, Prod.mk.injEq]
      constructor
      · rintro (h | h | h)
        · exact Or.inl (Or.inr h)
        · exact Or.inl (Or.inl h)
        · exact Or.inr h
      · rintro ((h | h) | h)
        · exact Or.inr (Or.inl h)
        · exact Or.inl h
        · exact Or.inr (Or.inr h)


/-! ## The parser: one cell -/

theorem cellStep_eq (time : TimeSlot) (stage : Int) (data : ScheduleData) (d g : Int) :
    cellStep time stage data d g = atSlot data d time (cellStages stage g) := by
  unfold cellStep atSlot cellStages
  simp only [GoMap.get_set, if_true, GoMap.set_set]

theorem cascade_foldl (stage : Int) (ks : List Int) (ts : StageMap) (hs : stage ∈ ts.keys) :
    (∀ s', s' ∈ (ks.foldl (fun ts gn => ts.set stage ((ts.get stage).set gn ())) ts).keys
        ↔ s' ∈ ts.keys)
    ∧ (∀ s' g', g' ∈ ((ks.foldl (fun ts gn => ts.set stage ((ts.get stage).set gn ()))
          ts).get s').keys ↔ g' ∈ (ts.get s').keys ∨ (s' = stage ∧ g' ∈ ks)) := by
  induction ks generalizing ts with
  | nil => simp
  | cons k ks ih =>
    have hs' : stage ∈ (ts.set stage ((ts.get stage).set k ())).keys :=
      (GoMap.mem_keys_set _ _ _ _).2 (Or.inl rfl)
    obtain ⟨ih1, ih2⟩ := ih _ hs'
    simp only [List.foldl_cons]
    refine ⟨?_, ?_⟩
    · intro s'
      rw [ih1, GoMap.mem_keys_set]
      constructor
      · rintro (h | h)
        · exact h ▸ hs
        · exact h
      · exact Or.inr
    · intro s' g'
      rw [ih2, GoMap.get_set]
      by_cases h : s' = stage
      · subst h
        simp only [if_true, GoMap.mem_keys_set, true_and, List.mem_cons]
        constructor
        · rintro ((h | h) | h)
          · exact Or.inr (Or.inl h)
          · exact Or.inl h
          · exact Or.inr (Or.inr h)
        · rintro (h | h | h)
          · exact Or.inl (Or.inr h)
          · exact Or.inl (Or.inl h)
          · exact Or.inr h
      · simp [h]

theorem cellStages_spec (stage g : Int) (S : StageMap) :
    (∀ s', s' ∈ (cellStages stage g S).keys ↔ s' = stage ∨ s' ∈ S.keys)
    ∧ (∀ s' g', g' ∈ ((cellStages stage g S).get s').keys
        ↔ g' ∈ (S.get s').keys
          ∨ (s' = stage ∧ (g' = g ∨ (stage > 1 ∧ g' ∈ (S.get (stage - 1)).keys)))) := by
  have hk : ∀ s', s' ∈ ((S.ensure stage).ensure stage).keys → s' = stage ∨ s' ∈ S.keys := by
    intro s' h
    rcases GoMap.mem_keys_ensure _ stage s' h with h | h
    · exact Or.inl h
    · exact GoMap.mem_keys_ensure _ stage s' h
  have hk' : ∀ s', s' ∈ S.keys → s' ∈ ((S.ensure stage).ensure stage).keys :=
    fun s' h => GoMap.mem_keys_ensure_of_mem _ stage s' (GoMap.mem_keys_ensure_of_mem _ stage s' h)
  have hg : ∀ s', (((S.ensure stage).ensure stage).get s').keys = (S.get s').keys := by
    intro s'
    by_cases h : s' = stage
    · simp [GoMap.get_ensure, h]
    · simp [GoMap.get_ensure, h]
  have base1 : ∀ s', s' ∈ (((S.ensure stage).ensure stage).set stage
      ((((S.ensure stage).ensure stage).get stage).set g ())).keys ↔ s' = stage ∨ s' ∈ S.keys := by
    intro s'
    rw [GoMap.mem_keys_set]
    constructor
    · rintro (h | h)
      · exact Or.inl h
      · exact hk s' h
    · rintro (h | h)
      · exact Or.inl h
      · exact Or.inr (hk' s' h)
  have base2 : ∀ s' g', g' ∈ ((((S.ensure stage).ensure stage).set stage
      ((((S.ensure stage).ensure stage).get stage).set g ())).get s').keys
        ↔ g' ∈ (S.get s').keys ∨ (s' = stage ∧ g' = g) := by
    intro s' g'
    rw [GoMap.get_set]
    by_cases h : s' = stage
    · subst h
      simp only [if_true, GoMap.mem_keys_set, hg, true_and]
      exact or_comm
    · simp [h, hg]
  unfold cellStages
  by_cases h1 : stage > 1
  · simp only [h1, if_true]
    obtain ⟨c1, c2⟩ := cascade_foldl stage
      (((((S.ensure stage).ensure stage).set stage
        ((((S.ensure stage).ensure stage).get stage).set g ())).get (stage - 1)).keys)
      (((S.ensure stage).ensure stage).set stage
        ((((S.ensure stage).ensure stage).get stage).set g ()))
      ((base1 stage).2 (Or.inl rfl))
    refine ⟨?_, ?_⟩
    · intro s'
      rw [c1, base1]
    · intro s' g'
      rw [c2, base2, base2]
      have hne : ¬ stage - 1 = stage := by omega
      simp only [hne, false_and, or_false, true_and]
      constructor
      · rintro ((h | h) | h)
        · exact Or.inl h
        · exact Or.inr ⟨h.1, Or.inl h.2⟩
        · exact Or.inr ⟨h.1, Or.inr h.2⟩
      · rintro (h | ⟨h, h' | h'⟩)
        · exact Or.inl (Or.inl h)
        · exact Or.inl (Or.inr ⟨h, h'⟩)
        · exact Or.inr ⟨h, h'⟩
  · simp only [h1, if_false]
    refine ⟨base1, ?_⟩
    intro s' g'
    rw [base2]
    simp

theorem cellStep_has (time : TimeSlot) (stage : Int) (data : ScheduleData) (d g : Int)
    (d' : Int) (t' : TimeSlot) (s' g' : Int) :
    (cellStep time stage data d g).has d' t' s' g'
      ↔ data.has d' t' s' g'
        ∨ (d' = d ∧ t' = time ∧ s' = stage
            ∧ (g' = g ∨ (stage > 1 ∧ data.has d time (stage - 1) g'))) := by
  unfold ScheduleData.has
  rw [cellStep_eq, atSlot_get_get]
  by_cases hdt : d' = d ∧ t' = time
  · obtain ⟨hd, ht⟩ := hdt
    subst hd ht
    simp only [and_self, if_true, true_and]
    rw [(cellStages_spec stage g _).2]
    simp
  · rw [if_neg hdt]
    constructor
    · exact Or.inl
    · rintro (h | h)
      · exact h
      · exact absurd ⟨h.1, h.2.1⟩ hdt

theorem cellStep_hasStage (time : TimeSlot) (stage : Int) (data : ScheduleData) (d g : Int)
    (d' : Int) (t' : TimeSlot) (s' : Int) :
    (cellStep time stage data d g).hasStage d' t' s'
      ↔ data.hasStage d' t' s' ∨ (d' = d ∧ t' = time ∧ s' = stage) := by
  unfold ScheduleData.hasStage
  rw [cellStep_eq, atSlot_get_get]
  by_cases hdt : d' = d ∧ t' = time
  · obtain ⟨hd, ht⟩ := hdt
    subst hd ht
    simp only [and_self, if_true, true_and]
    rw [(cellStages_spec stage g _).1]
    simp [or_comm]
  · rw [if_neg hdt]
    constructor
    · exact Or.inl
    · rintro (h | h)
      · exact h
      · exact absurd ⟨h.1, h.2.1⟩ hdt


/-! ## The parser: rows and lines -/

theorem parsesAsInt_eq_true (s : List Char) : parsesAsInt s = true ↔ ∃ n, Atoi s = Except.ok n := by
  unfold parsesAsInt
  cases Atoi s <;> simp

theorem parsesAsInt_eq_false (s : List Char) :
    parsesAsInt s = false ↔ ∃ e, Atoi s = Except.error e := by
  unfold parsesAsInt
  cases Atoi s <;> simp

theorem cellStep_isNil (time : TimeSlot) (stage : Int) (data : ScheduleData) (d g : Int) :
    (cellStep time stage data d g).isNil = false := rfl

theorem parseCells_isNil (time : TimeSlot) (stage : Int) (i : Nat) (cells : List (List Char))
    (data data' : ScheduleData) (h : parseCells time stage i cells data = Except.ok data')
    (hn : data.isNil = false) : data'.isNil = false := by
  induction cells generalizing i data with
  | nil =>
    simp only [parseCells, Except.ok.injEq] at h
    exact h ▸ hn
  | cons c cells ih =>
    unfold parseCells at h
    cases hA : Atoi c with
    | error e => simp [hA] at h
    | ok g =>
      simp only [hA] at h
      exact ih _ _ h (cellStep_isNil _ _ _ _ _)

theorem parseCells_ok (time : TimeSlot) (stage : Int) (i : Nat) (cells : List (List Char))
    (data : ScheduleData) (h : ∀ c ∈ cells, parsesAsInt c = true) :
    ∃ data', parseCells time stage i cells data = Except.ok data' := by
  induction cells generalizing i data with
  | nil => exact ⟨data, rfl⟩
  | cons c cells ih =>
    obtain ⟨g, hg⟩ := (parsesAsInt_eq_true c).1 (h c (List.mem_cons_self _ _))
    unfold parseCells
    simp only [hg]
    exact ih _ _ (fun c' hc' => h c' (List.mem_cons_of_mem _ hc'))

theorem parseCells_error (time : TimeSlot) (stage : Int) (i : Nat) (cells : List (List Char))
    (data : ScheduleData) (h : ∃ c ∈ cells, parsesAsInt c = false) :
    ∃ e, parseCells time stage i cells data = Except.error e := by
  induction cells generalizing i data with
  | nil => simp at h
  | cons c cells ih =>
    unfold parseCells
    cases hA : Atoi c with
    | error e => exact ⟨e, rfl⟩
    | ok g =>
      simp only
      apply ih
      obtain ⟨c', hc', hbad⟩ := h
      rcases List.mem_cons.1 hc' with h1 | h1
      · subst h1
        simp [parsesAsInt, hA] at hbad
      · exact ⟨c', h1, hbad⟩

/-- The groups after the cells of a row: those before, and at stage `stage` of
the row's time slot, for the day of each cell, the cell's group and (above
stage 1) the groups of the stage below. -/
theorem parseCells_has (time : TimeSlot) (stage : Int) (i : Nat) (cells : List (List Char))
    (data data' : ScheduleData) (h : parseCells time stage i cells data = Except.ok data')
    (d : Int) (t : TimeSlot) (s g : Int) :
    data'.has d t s g
      ↔ data.has d t s g
        ∨ (t = time ∧ s = stage ∧ ∃ j cell, cells[j]? = some cell ∧ d = ((i + j : Nat) : Int) + 1
            ∧ (Atoi cell = Except.ok g ∨ (stage > 1 ∧ data.has d time (stage - 1) g))) := by
  induction cells generalizing i data with
  | nil =>
    simp only [parseCells, Except.ok.injEq] at h
    subst h
    simp
  | cons c cells ih =>
    unfold parseCells at h
    cases hA : Atoi c with
    | error e => simp [hA] at h
    | ok g0 =>
      simp only [hA] at h
      rw [ih _ _ h, cellStep_has]
      have hlow : ∀ d', (cellStep time stage data (↑i + 1) g0).has d' time (stage - 1) g
          ↔ data.has d' time (stage - 1) g := by
        intro d'
        rw [cellStep_has]
        have : ¬ stage - 1 = stage := by omega
        simp [this]
      constructor
      · rintro ((h1 | ⟨hd, ht, hs, h1⟩) | ⟨ht, hs, j, cell, hj, hd, h1⟩)
        · exact Or.inl h1
        · refine Or.inr ⟨ht, hs, 0, c, by simp, by simpa using hd, ?_⟩
          rcases h1 with h1 | h1
          · exact Or.inl (by rw [hA, h1])
          · exact Or.inr ⟨h1.1, hd ▸ h1.2⟩
        · refine Or.inr ⟨ht, hs, j + 1, cell, by simpa using hj, ?_, ?_⟩
          · rw [hd]; push_cast; ring
          · rcases h1 with h1 | h1
            · exact Or.inl h1
            · exact Or.inr ⟨h1.1, (hlow d).1 h1.2⟩
      · rintro (h1 | ⟨ht, hs, j, cell, hj, hd, h1⟩)
        · exact Or.inl (Or.inl h1)
        · cases j with
          | zero =>
            simp only [List.getElem?_cons_zero, Option.some.injEq] at hj
            subst hj
            refine Or.inl (Or.inr ⟨by simpa using hd, ht, hs, ?_⟩)
            rcases h1 with h1 | h1
            · left
              rw [hA] at h1
              exact (Except.ok.inj h1).symm
            · right
              refine ⟨h1.1, ?_⟩
              have : d = ↑i + 1 := by simpa using hd
              exact this ▸ h1.2
          | succ j =>
            refine Or.inr ⟨ht, hs, j, cell, by simpa using hj, ?_, ?_⟩
            · rw [hd]; push_cast; ring
            · rcases h1 with h1 | h1
              · exact Or.inl h1
              · exact Or.inr ⟨h1.1, (hlow d).2 h1.2⟩

theorem parseCells_hasStage (time : TimeSlot) (stage : Int) (i : Nat) (cells : List (List Char))
    (data data' : ScheduleData) (h : parseCells time stage i cells data = Except.ok data')
    (d : Int) (t : TimeSlot) (s : Int) :
    data'.hasStage d t s
      ↔ data.hasStage d t s
        ∨ (t = time ∧ s = stage ∧ ∃ j, j < cells.length ∧ d = ((i + j : Nat) : Int) + 1) := by
  induction cells generalizing i data with
  | nil =>
    simp only [parseCells, Except.ok.injEq] at h
    subst h
    simp
  | cons c cells ih =>
    unfold parseCells at h
    cases hA : Atoi c with
    | error e => simp [hA] at h
    | ok g0 =>
      simp only [hA] at h
      rw [ih _ _ h, cellStep_hasStage]
      constructor
      · rintro ((h1 | ⟨hd, ht, hs⟩) | ⟨ht, hs, j, hj, hd⟩)
        · exact Or.inl h1
        · exact Or.inr ⟨ht, hs, 0, by simp, by simpa using hd⟩
        · refine Or.inr ⟨ht, hs, j + 1, by simpa using hj, ?_⟩
          rw [hd]; push_cast; ring
      · rintro (h1 | ⟨ht, hs, j, hj, hd⟩)
        · exact Or.inl (Or.inl h1)
        · cases j with
          | zero => exact Or.inl (Or.inr ⟨by simpa using hd, ht, hs⟩)
          | succ j =>
            refine Or.inr ⟨ht, hs, j, by simpa using hj, ?_⟩
            rw [hd]; push_cast; ring


theorem lineStep_comment (st : TimeSlot × ScheduleData) (line : List Char)
    (h : isComment line = true) : lineStep st line = Except.ok st := by
  simp [lineStep, h]

theorem lineStep_header (st : TimeSlot × ScheduleData) (line a b : List Char)
    (hc : isComment line = false) (hf : lineFields line = [a, b]) :
    lineStep st line = Except.ok (TimeSlot.mk (String.mk a) (String.mk b), st.2) := by
  simp [lineStep, hc, hf]

theorem lineStep_row (st : TimeSlot × ScheduleData) (line label : List Char)
    (cells : List (List Char)) (hc : isComment line = false)
    (hf : lineFields line = label :: cells) (hlen : cells.length = 31) :
    lineStep st line
      = match Atoi (removeStage label) with
        | Except.error err => Except.error err
        | Except.ok stage =>
          match parseCells st.1 stage 0 cells st.2 with
          | Except.error err => Except.error err
          | Except.ok data => Except.ok (st.1, data) := by
  rcases cells with _ | ⟨c1, _ | ⟨c2, cells⟩⟩
  · simp at hlen
  · simp at hlen
  · simp [lineStep, hc, hf, hlen]

theorem lineStep_irrelevant (st : TimeSlot × ScheduleData) (line : List Char)
    (h : irrelevantLine line) : lineStep st line = Except.ok st := by
  rcases h with h | ⟨h2, h32⟩
  · exact lineStep_comment st line h
  · cases hc : isComment line with
    | true => exact lineStep_comment st line hc
    | false =>
      rcases hf : lineFields line with _ | ⟨a, _ | ⟨b, _ | ⟨c, rest⟩⟩⟩
      · simp [lineStep, hc, hf]
      · simp [lineStep, hc, hf]
      · simp [hf] at h2
      · have : ¬ (rest.length + 1 + 1 + 1 = 32) := by
          intro h'
          apply h32
          simp [hf, h']
        simp [lineStep, hc, hf, this]

/-- The three things a line can do when the loop goes on: nothing, set the
current time slot, or add the cells of a stage row. -/
theorem lineStep_cases (st st' : TimeSlot × ScheduleData) (line : List Char)
    (h : lineStep st line = Except.ok st') :
    (irrelevantLine line ∧ st' = st)
    ∨ (∃ a b, isComment line = false ∧ lineFields line = [a, b]
        ∧ st' = (TimeSlot.mk (String.mk a) (String.mk b), st.2))
    ∨ (∃ label cells stage data', isComment line = false ∧ lineFields line = label :: cells
        ∧ cells.length = 31 ∧ Atoi (removeStage label) = Except.ok stage
        ∧ parseCells st.1 stage 0 cells st.2 = Except.ok data' ∧ st' = (st.1, data')) := by
  cases hc : isComment line with
  | true =>
    rw [lineStep_comment st line hc] at h
    exact Or.inl ⟨Or.inl hc, (Except.ok.inj h).symm⟩
  | false =>
    by_cases h2 : (lineFields line).length = 2
    · right; left
      rcases hf : lineFields line with _ | ⟨a, _ | ⟨b, _ | ⟨c, rest⟩⟩⟩
      · simp [hf] at h2
      · simp [hf] at h2
      · rw [lineStep_header st line a b hc hf] at h
        exact ⟨a, b, rfl, rfl, (Except.ok.inj h).symm⟩
      · simp [hf] at h2
    · by_cases h32 : (lineFields line).length = 32
      · right; right
        rcases hf : lineFields line with _ | ⟨label, cells⟩
        · simp [hf] at h32
        · have hlen : cells.length = 31 := by simpa [hf] using h32
          rw [lineStep_row st line label cells hc hf hlen] at h
          cases hA : Atoi (removeStage label) with
          | error e => simp [hA] at h
          | ok stage =>
            simp only [hA] at h
            cases hP : parseCells st.1 stage 0 cells st.2 with
            | error e => simp [hP] at h
            | ok data' =>
              simp only [hP] at h
              exact ⟨label, cells, stage, data', rfl, rfl, hlen, hA, hP,
                (Except.ok.inj h).symm⟩
      · left
        have hirr : irrelevantLine line := Or.inr ⟨h2, h32⟩
        rw [lineStep_irrelevant st line hirr] at h
        exact ⟨hirr, (Except.ok.inj h).symm⟩

theorem parseLines_append (l1 l2 : List (List Char)) (st : TimeSlot × ScheduleData) :
    parseLines (l1 ++ l2) st
      = match parseLines l1 st with
        | Except.error err => Except.error err
        | Except.ok st1 => parseLines l2 st1 := by
  induction l1 generalizing st with
  | nil => rfl
  | cons line l1 ih =>
    simp only [List.cons_append, parseLines]
    cases lineStep st line with
    | error e => rfl
    | ok st1 => exact ih st1

theorem parseLines_append_ok (l1 l2 : List (List Char)) (st st' : TimeSlot × ScheduleData)
    (h : parseLines (l1 ++ l2) st = Except.ok st') :
    ∃ st1, parseLines l1 st = Except.ok st1 ∧ parseLines l2 st1 = Except.ok st' := by
  rw [parseLines_append] at h
  cases h1 : parseLines l1 st with
  | error e => simp [h1] at h
  | ok st1 =>
    simp only [h1] at h
    exact ⟨st1, rfl, h⟩

theorem parseLines_cons_ok (line : List Char) (rest : List (List Char))
    (st st' : TimeSlot × ScheduleData) (h : parseLines (line :: rest) st = Except.ok st') :
    ∃ st1, lineStep st line = Except.ok st1 ∧ parseLines rest st1 = Except.ok st' := by
  unfold parseLines at h
  cases h1 : lineStep st line with
  | error e => simp [h1] at h
  | ok st1 =>
    simp only [h1] at h
    exact ⟨st1, rfl, h⟩

theorem parseLines_skip (pre post : List (List Char)) (line : List Char)
    (st : TimeSlot × ScheduleData) (h : irrelevantLine line) :
    parseLines (pre ++ line :: post) st = parseLines (pre ++ post) st := by
  rw [parseLines_append, parseLines_append]
  cases parseLines pre st with
  | error e => rfl
  | ok st1 =>
    simp only [parseLines, lineStep_irrelevant st1 line h]

theorem parseLines_error_of_bad_line (lines : List (List Char)) (line : List Char)
    (hmem : line ∈ lines) (hbad : ∀ st, ∃ e, lineStep st line = Except.error e)
    (st : TimeSlot × ScheduleData) : ∃ e, parseLines lines st = Except.error e := by
  induction lines generalizing st with
  | nil => simp at hmem
  | cons l lines ih =>
    unfold parseLines
    cases h1 : lineStep st l with
    | error e => exact ⟨e, rfl⟩
    | ok st1 =>
      simp only
      rcases List.mem_cons.1 hmem with h | h
      · subst h
        obtain ⟨e, he⟩ := hbad st
        rw [he] at h1
        cases h1
      · exact ih h st1

theorem parseLines_ok_of_good_lines (lines : List (List Char))
    (hgood : ∀ line ∈ lines, ∀ st, st.2.isNil = false →
      ∃ st', lineStep st line = Except.ok st' ∧ st'.2.isNil = false)
    (st : TimeSlot × ScheduleData) (hn : st.2.isNil = false) :
    ∃ st', parseLines lines st = Except.ok st' ∧ st'.2.isNil = false := by
  induction lines generalizing st with
  | nil => exact ⟨st, rfl, hn⟩
  | cons l lines ih =>
    obtain ⟨st1, h1, hn1⟩ := hgood l (List.mem_cons_self _ _) st hn
    unfold parseLines
    simp only [h1]
    exact ih (fun line hl => hgood line (List.mem_cons_of_mem _ hl)) st1 hn1

theorem lineStep_mono (st st' : TimeSlot × ScheduleData) (line : List Char)
    (h : lineStep st line = Except.ok st') (d : Int) (t : TimeSlot) (s g : Int)
    (hg : st.2.has d t s g) : st'.2.has d t s g := by
  rcases lineStep_cases st st' line h with ⟨_, h1⟩ | ⟨a, b, _, _, h1⟩ |
    ⟨label, cells, stage, data', _, _, _, _, hP, h1⟩
  · rw [h1]; exact hg
  · rw [h1]; exact hg
  · rw [h1]
    exact (parseCells_has _ _ _ _ _ _ hP d t s g).2 (Or.inl hg)

theorem parseLines_mono (lines : List (List Char)) (st st' : TimeSlot × ScheduleData)
    (h : parseLines lines st = Except.ok st') (d : Int) (t : TimeSlot) (s g : Int)
    (hg : st.2.has d t s g) : st'.2.has d t s g := by
  induction lines generalizing st with
  | nil =>
    simp only [parseLines, Except.ok.injEq] at h
    exact h ▸ hg
  | cons l lines ih =>
    obtain ⟨st1, h1, h2⟩ := parseLines_cons_ok l lines st st' h
    exact ih st1 h2 (lineStep_mono st st1 l h1 d t s g hg)

theorem parseLines_time (lines : List (List Char)) (st st' : TimeSlot × ScheduleData)
    (h : parseLines lines st = Except.ok st')
    (hno : ∀ l ∈ lines, isComment l = true ∨ (lineFields l).length ≠ 2) : st'.1 = st.1 := by
  induction lines generalizing st with
  | nil =>
    simp only [parseLines, Except.ok.injEq] at h
    rw [h]
  | cons l lines ih =>
    obtain ⟨st1, h1, h2⟩ := parseLines_cons_ok l lines st st' h
    rw [ih st1 h2 (fun l' hl' => hno l' (List.mem_cons_of_mem _ hl'))]
    rcases lineStep_cases st st1 l h1 with ⟨_, e⟩ | ⟨a, b, hc, hf, _⟩ | ⟨_, _, _, _, _, _, _, _, _, e⟩
    · rw [e]
    · rcases hno l (List.mem_cons_self _ _) with h' | h'
      · rw [hc] at h'; cases h'
      · simp [hf] at h'
    · rw [e]

theorem parseScheduleFile_ok (contents : String) (data : ScheduleData)
    (h : parseScheduleFile contents = (data, none)) :
    ∃ time, parseLines (splitLines contents.toList) (TimeSlot.mk "" "", GoMap.make)
      = Except.ok (time, data) := by
  unfold parseScheduleFile at h
  split at h
  · simp at h
  · rename_i st hp
    simp only [Prod.mk.injEq, and_true] at h
    subst h
    exact ⟨st.1, hp⟩

/-! ## Lines of a text -/

theorem splitLines_ne_nil (s : List Char) : splitLines s ≠ [] := by
  cases s with
  | nil => simp [splitLines]
  | cons c cs =>
    unfold splitLines
    split
    · simp
    · split <;> simp

theorem splitLines_append (a b : List Char) :
    splitLines (a ++ '\n' :: b) = splitLines a ++ splitLines b := by
  induction a with
  | nil => simp [splitLines]
  | cons c a ih =>
    by_cases hc : c = '\n'
    · simp [splitLines, hc, ih]
    · simp only [List.cons_append, splitLines, hc, if_false]
      have ih' : splitLines (a.append ('\n' :: b)) = splitLines a ++ splitLines b := ih
      rw [ih']
      rcases hs : splitLines a with _ | ⟨l, ls⟩
      · exact absurd hs (splitLines_ne_nil a)
      · simp

theorem splitLines_single (l : List Char) (h : '\n' ∉ l) : splitLines l = [l] := by
  induction l with
  | nil => rfl
  | cons c l ih =>
    have hc : ¬ c = '\n' := fun e => h (by simp [e])
    have hl : '\n' ∉ l := fun e => h (List.mem_cons_of_mem _ e)
    simp [splitLines, hc, ih hl]


/-! ## The cascade along the rows -/

theorem stageRows_irrelevant (line : List Char) (rest : List (List Char)) (block : Nat)
    (time : TimeSlot) (h : irrelevantLine line) :
    stageRows (line :: rest) block time = stageRows rest block time := by
  cases hc : isComment line with
  | true => simp [stageRows, hc]
  | false =>
    rcases h with h | ⟨h2, h32⟩
    · rw [hc] at h; cases h
    · rcases hf : lineFields line with _ | ⟨a, _ | ⟨b, _ | ⟨c, tl⟩⟩⟩
      · simp [stageRows, hc, hf]
      · simp [stageRows, hc, hf]
      · simp [hf] at h2
      · have : ¬ (tl.length + 1 + 1 + 1 = 32) := by
          intro h'
          apply h32
          simp [hf, h']
        simp [stageRows, hc, hf, this]

theorem stageRows_header (line a b : List Char) (rest : List (List Char)) (block : Nat)
    (time : TimeSlot) (hc : isComment line = false) (hf : lineFields line = [a, b]) :
    stageRows (line :: rest) block time
      = stageRows rest (block + 1) (TimeSlot.mk (String.mk a) (String.mk b)) := by
  simp [stageRows, hc, hf]

theorem stageRows_row (line label : List Char) (cells : List (List Char))
    (rest : List (List Char)) (block : Nat) (time : TimeSlot) (stage : Int)
    (hc : isComment line = false) (hf : lineFields line = label :: cells)
    (hlen : cells.length = 31) (hA : Atoi (removeStage label) = Except.ok stage) :
    stageRows (line :: rest) block time = (block, time, stage) :: stageRows rest block time := by
  rcases cells with _ | ⟨c1, _ | ⟨c2, cells⟩⟩
  · simp at hlen
  · simp at hlen
  · simp [stageRows, hc, hf, hlen, hA]

/-- One stage row keeps the invariant when its stage is above the stages of
all earlier rows of its time slot. -/
theorem row_inv (time : TimeSlot) (stage : Int) (cells : List (List Char))
    (data data' : ScheduleData) (R : List (Nat × TimeSlot × Int)) (block : Nat)
    (hP : parseCells time stage 0 cells data = Except.ok data') (hlen : cells.length = 31)
    (hinv : ParseInv data R) (hw : ∀ r ∈ R, r.2.1 = time → r.2.2 < stage) :
    ParseInv data' (R ++ [(block, time, stage)]) := by
  obtain ⟨i1, i2, i3⟩ := hinv
  have hnot : ∀ s, stage ≤ s → ¬ ∃ b, (b, time, s) ∈ R := by
    rintro s hs ⟨b, hb⟩
    have := hw _ hb rfl
    simp only at this
    omega
  refine ⟨?_, ?_, ?_⟩
  · intro d t s h
    rcases (parseCells_hasStage _ _ _ _ _ _ hP d t s).1 h with h | ⟨ht, hs, _⟩
    · obtain ⟨b, hb⟩ := i1 d t s h
      exact ⟨b, List.mem_append_left _ hb⟩
    · exact ⟨block, by simp [ht, hs]⟩
  · intro d t s g hs1 hin hin' h
    rw [parseCells_has _ _ _ _ _ _ hP]
    rcases (parseCells_has _ _ _ _ _ _ hP d t s g).1 h with h | ⟨ht, hs, _⟩
    · obtain ⟨b', hb'⟩ := hin'
      rcases List.mem_append.1 hb' with hR' | hN'
      · obtain ⟨b, hb⟩ := hin
        rcases List.mem_append.1 hb with hR | hN
        · exact Or.inl (i2 d t s g hs1 ⟨b, hR⟩ ⟨b', hR'⟩ h)
        · simp only [List.mem_singleton, Prod.mk.injEq] at hN
          obtain ⟨_, ht, hs⟩ := hN
          exact absurd ⟨b', ht ▸ hR'⟩ (hnot (s + 1) (by omega))
      · simp only [List.mem_singleton, Prod.mk.injEq] at hN'
        obtain ⟨_, ht, hs⟩ := hN'
        subst ht
        obtain ⟨hd1, hd31⟩ := i3 d t s g h
        have hj : (d - 1).toNat < cells.length := by omega
        refine Or.inr ⟨rfl, hs, (d - 1).toNat, cells[(d - 1).toNat], ?_, ?_, Or.inr ⟨by omega, ?_⟩⟩
        · exact List.getElem?_eq_getElem hj
        · simp only [Nat.zero_add]
          omega
        · have : stage - 1 = s := by omega
          rw [this]
          exact h
    · subst ht hs
      obtain ⟨b', hb'⟩ := hin'
      rcases List.mem_append.1 hb' with hR | hN
      · exact absurd ⟨b', hR⟩ (hnot (s + 1) (by omega))
      · simp only [List.mem_singleton, Prod.mk.injEq] at hN
        omega
  · intro d t s g h
    rcases (parseCells_has _ _ _ _ _ _ hP d t s g).1 h with h | ⟨_, _, j, cell, hj, hd, _⟩
    · exact i3 d t s g h
    · have hlt : j < cells.length := by
        by_contra hge
        rw [List.getElem?_eq_none (by omega)] at hj
        cases hj
      simp only [Nat.zero_add] at hd
      omega

/-- The invariant holds along the lines when the rows are in increasing stage
order for each time slot. -/
theorem parseLines_inv (lines : List (List Char)) (block : Nat)
    (st st' : TimeSlot × ScheduleData) (R : List (Nat × TimeSlot × Int))
    (h : parseLines lines st = Except.ok st')
    (hord : (R ++ stageRows lines block st.1).Pairwise fun a b => a.2.1 = b.2.1 → a.2.2 < b.2.2)
    (hinv : ParseInv st.2 R) :
    ParseInv st'.2 (R ++ stageRows lines block st.1) := by
  induction lines generalizing block st R with
  | nil =>
    simp only [parseLines, Except.ok.injEq] at h
    subst h
    simpa [stageRows] using hinv
  | cons line rest ih =>
    obtain ⟨st1, h1, h2⟩ := parseLines_cons_ok line rest st st' h
    rcases lineStep_cases st st1 line h1 with ⟨hirr, e⟩ | ⟨a, b, hc, hf, e⟩ |
      ⟨label, cells, stage, data', hc, hf, hlen, hA, hP, e⟩
    · subst e
      rw [stageRows_irrelevant line rest block st1.1 hirr] at hord ⊢
      exact ih block st1 R h2 hord hinv
    · subst e
      rw [stageRows_header line a b rest block st.1 hc hf] at hord ⊢
      exact ih (block + 1) _ R h2 hord hinv
    · subst e
      rw [stageRows_row line label cells rest block st.1 stage hc hf hlen hA] at hord ⊢
      have hw : ∀ r ∈ R, r.2.1 = st.1 → r.2.2 < stage := by
        intro r hr
        exact (List.pairwise_append.1 hord).2.2 r hr (block, st.1, stage)
          (List.mem_cons_self _ _)
      have hinv' := row_inv st.1 stage cells st.2 data' R block hP hlen hinv hw
      have hord' : ((R ++ [(block, st.1, stage)]) ++ stageRows rest block st.1).Pairwise
          fun a b => a.2.1 = b.2.1 → a.2.2 < b.2.2 := by
        simpa using hord
      have := ih block (st.1, data') (R ++ [(block, st.1, stage)]) h2 hord' hinv'
      simpa using this

theorem parseInv_make : ParseInv GoMap.make [] := by
  refine ⟨?_, ?_, ?_⟩
  · intro d t s h
    simp [ScheduleData.hasStage, GoMap.default_eq_nil] at h
  · intro d t s g _ h
    simp at h
  · intro d t s g h
    simp [ScheduleData.has, GoMap.default_eq_nil] at h

/-- Groups climb a run of stages that all have a row. -/
theorem parseInv_chain (data : ScheduleData) (R : List (Nat × TimeSlot × Int))
    (hinv : ParseInv data R) (d : Int) (t : TimeSlot) (S1 g : Int) (h1 : 1 ≤ S1) (k : Nat)
    (hpresent : ∀ s, S1 ≤ s → s ≤ S1 + k → data.hasStage d t s)
    (hg : data.has d t S1 g) : data.has d t (S1 + k) g := by
  induction k with
  | zero => simpa using hg
  | succ k ih =>
    have hk := ih (fun s hs hs' => hpresent s hs (by push_cast; omega))
    have e : S1 + ((k + 1 : Nat) : Int) = (S1 + k) + 1 := by push_cast; ring
    rw [e]
    exact hinv.2.1 d t (S1 + k) g (by omega)
      (hinv.1 d t _ (hpresent _ (by omega) (by push_cast; omega)))
      (hinv.1 d t _ (hpresent _ (by omega) (by push_cast; omega))) hk

/-! ## Claims about the filters -/

/-- C7. `FilterByGroups`: a tuple (day, slot, stage, group) is present in the
result exactly when it is present in the source and the group occurs in the
list; and no container of the result is empty: every day key holds a time
slot, every time slot key a stage, every stage key a group. -/
theorem FilterByGroups_keeps_listed_groups_and_prunes (schedule : Schedule)
    (groups : List Int) :
    (∀ d t s g, (schedule.FilterByGroups groups).Data.has d t s g
        ↔ schedule.Data.has d t s g ∧ g ∈ groups)
    ∧ (∀ d, d ∈ (schedule.FilterByGroups groups).Data.keys →
        ((schedule.FilterByGroups groups).Data.get d).len ≠ 0)
    ∧ (∀ d t, t ∈ ((schedule.FilterByGroups groups).Data.get d).keys →
        (((schedule.FilterByGroups groups).Data.get d).get t).len ≠ 0)
    ∧ (∀ d t s, s ∈ (((schedule.FilterByGroups groups).Data.get d).get t).keys →
        ((((schedule.FilterByGroups groups).Data.get d).get t).get s).len ≠ 0) := by
  rw [FilterByGroups_eq_foldl]
  obtain ⟨h1, h2, h3, h4⟩ := addGroup_foldl (keptTuples schedule.Data groups) GoMap.make
  have len_ne : ∀ {K V : Type} (m : GoMap K V) (k : K), k ∈ m.keys → m.len ≠ 0 := by
    intro K V m k hk h0
    have : m.keys = [] := by
      unfold GoMap.keys
      rw [List.length_eq_zero.1 (show m.toList.length = 0 from h0)]
      rfl
    rw [this] at hk
    simp at hk
  refine ⟨?_, ?_, ?_, ?_⟩
  · intro d t s g
    rw [h4, mem_keptTuples]
    constructor
    · rintro (h | h)
      · exact h
      · simp [ScheduleData.has, GoMap.default_eq_nil] at h
    · exact Or.inl
  · intro d hd
    rcases (h1 d).1 hd with ⟨t, s, g, h⟩ | h
    · exact len_ne _ t ((h2 d t).2 (Or.inl ⟨s, g, h⟩))
    · simp at h
  · intro d t ht
    rcases (h2 d t).1 ht with ⟨s, g, h⟩ | h
    · exact len_ne _ s ((h3 d t s).2 (Or.inl ⟨g, h⟩))
    · simp [GoMap.default_eq_nil] at h
  · intro d t s hs
    rcases (h3 d t s).1 hs with ⟨g, h⟩ | h
    · exact len_ne _ g ((h4 d t s g).2 (Or.inl h))
    · simp [GoMap.default_eq_nil] at h

/-- C8, as stated, fails: the schedule `FilterByDay 5` returns for a source
without day 5 has the day key 5 (holding no time slot), and `FilterByStage 1`
of it has no day key at all. -/
theorem FilterByStage_drops_day_without_slots :
    5 ∈ ((Schedule.mk "schedule.txt" GoMap.make).FilterByDay 5).Data.keys
    ∧ 5 ∉ (((Schedule.mk "schedule.txt" GoMap.make).FilterByDay 5).FilterByStage 1).Data.keys := by
  decide

/-- C8, amended. The day keys of `FilterByStage s` are the days of the source
that hold at least one time slot; every day has the same time slot keys as in
the source; and each (day, time slot) of the source holds the single stage key
`s`, mapped to the group set the source holds at (day, time slot, `s`), which
is the nil set when the source recorded none. -/
theorem FilterByStage_keeps_slots_single_stage (schedule : Schedule) (stage : Int) :
    (∀ d, d ∈ (schedule.FilterByStage stage).Data.keys
        ↔ d ∈ schedule.Data.keys ∧ (schedule.Data.get d).keys ≠ [])
    ∧ (∀ d t, t ∈ ((schedule.FilterByStage stage).Data.get d).keys
        ↔ t ∈ (schedule.Data.get d).keys)
    ∧ (∀ d t, t ∈ (schedule.Data.get d).keys →
        (((schedule.FilterByStage stage).Data.get d).get t).keys = [stage]
        ∧ (((schedule.FilterByStage stage).Data.get d).get t).get stage
            = ((schedule.Data.get d).get t).get stage
        ∧ (stage ∉ ((schedule.Data.get d).get t).keys →
            (((schedule.FilterByStage stage).Data.get d).get t).get stage = GoMap.nil)) := by
  rw [FilterByStage_eq_foldl]
  have hfun : ∀ d t st st', (d, t, st) ∈ slotEntries schedule.Data →
      (d, t, st') ∈ slotEntries schedule.Data → st = st' := by
    intro d t st st' h h'
    rw [((mem_slotEntries _ d t st).1 h).2, ((mem_slotEntries _ d t st').1 h').2]
  obtain ⟨h1, h2, h3⟩ := keepStage_foldl stage (slotEntries schedule.Data) hfun
  refine ⟨?_, ?_, ?_⟩
  · intro d
    rw [h1]
    constructor
    · rintro ⟨t, st, h⟩
      have ht := ((mem_slotEntries _ d t st).1 h).1
      refine ⟨GoMap.mem_keys_of_get_keys _ d t ht, ?_⟩
      intro h0
      rw [h0] at ht
      simp at ht
    · rintro ⟨_, hne⟩
      obtain ⟨t, ht⟩ := List.exists_mem_of_ne_nil _ hne
      exact ⟨t, _, (mem_slotEntries _ d t _).2 ⟨ht, rfl⟩⟩
  · intro d t
    rw [h2]
    constructor
    · rintro ⟨st, h⟩
      exact ((mem_slotEntries _ d t st).1 h).1
    · intro ht
      exact ⟨_, (mem_slotEntries _ d t _).2 ⟨ht, rfl⟩⟩
  · intro d t ht
    rw [h3 d t _ ((mem_slotEntries _ d t _).2 ⟨ht, rfl⟩)]
    refine ⟨rfl, by simp, ?_⟩
    intro hs
    simp only [GoMap.get_set, if_true]
    exact GoMap.get_of_not_mem _ stage hs

/-- C9. `FilterByDay d` is a total function whose result has the day keys
exactly `d`, holding the source's entry for `d`: the nil map when the source
has no day `d`. -/
theorem FilterByDay_single_day (schedule : Schedule) (d : Int) :
    (schedule.FilterByDay d).Data.keys = [d]
    ∧ (schedule.FilterByDay d).Data.find? d = some (schedule.Data.get d)
    ∧ (schedule.FilterByDay d).Data.get d = schedule.Data.get d
    ∧ (d ∉ schedule.Data.keys → (schedule.FilterByDay d).Data.get d = GoMap.nil) := by
  refine ⟨rfl, ?_, ?_, ?_⟩
  · simp [Schedule.FilterByDay, GoMap.find?_set]
  · simp [Schedule.FilterByDay]
  · intro h
    simp only [Schedule.FilterByDay, GoMap.get_set, if_true]
    exact GoMap.get_of_not_mem _ d h

/-- C10. Filtering by the same day twice equals filtering once: same file name
and same data. -/
theorem FilterByDay_idempotent (schedule : Schedule) (d : Int) :
    (schedule.FilterByDay d).FilterByDay d = schedule.FilterByDay d := by
  simp [Schedule.FilterByDay]

/-! ## Claims about the parser -/

set_option maxRecDepth 1000000

/-- C1, as stated, fails on three inputs whose rows are in increasing stage
order within each block.  With the rows `Stage1`, `Stage3` group 1 is at stage
1 and not at stage 3 of day 1; with a second block under the same header whose
row is `Stage1`, group 3 is at stage 1 and not at stage 2; with the rows
`Stage0`, `Stage1` group 5 is at stage 0 and not at stage 1. -/
theorem cascade_fails_within_blocks :
    ((parseScheduleFile gapText).2 = none ∧ increasingWithinBlocks gapText
      ∧ (parseScheduleFile gapText).1.hasStage 1 (TimeSlot.mk "06:00" "08:30") 1
      ∧ (parseScheduleFile gapText).1.hasStage 1 (TimeSlot.mk "06:00" "08:30") 3
      ∧ (parseScheduleFile gapText).1.has 1 (TimeSlot.mk "06:00" "08:30") 1 1
      ∧ ¬ (parseScheduleFile gapText).1.has 1 (TimeSlot.mk "06:00" "08:30") 3 1)
    ∧ ((parseScheduleFile repeatedHeaderText).2 = none
      ∧ increasingWithinBlocks repeatedHeaderText
      ∧ (parseScheduleFile repeatedHeaderText).1.hasStage 1 (TimeSlot.mk "06:00" "08:30") 1
      ∧ (parseScheduleFile repeatedHeaderText).1.hasStage 1 (TimeSlot.mk "06:00" "08:30") 2
      ∧ (parseScheduleFile repeatedHeaderText).1.has 1 (TimeSlot.mk "06:00" "08:30") 1 3
      ∧ ¬ (parseScheduleFile repeatedHeaderText).1.has 1 (TimeSlot.mk "06:00" "08:30") 2 3)
    ∧ ((parseScheduleFile stageZeroText).2 = none ∧ increasingWithinBlocks stageZeroText
      ∧ (parseScheduleFile stageZeroText).1.hasStage 1 (TimeSlot.mk "06:00" "08:30") 0
      ∧ (parseScheduleFile stageZeroText).1.hasStage 1 (TimeSlot.mk "06:00" "08:30") 1
      ∧ (parseScheduleFile stageZeroText).1.has 1 (TimeSlot.mk "06:00" "08:30") 0 5
      ∧ ¬ (parseScheduleFile stageZeroText).1.has 1 (TimeSlot.mk "06:00" "08:30") 1 5) := by
  decide

/-- C1, amended. For an input that parses and whose stage rows are in
increasing stage order for each time slot (over the whole file, not only
within a block), and for a day, a time slot and stages `1 ≤ S1 < S2` such that
every stage from `S1` to `S2` is present for that day and time slot, every
group in the set at `S1` is also in the set at `S2`. -/
theorem cascade_monotone (contents : String) (data : ScheduleData)
    (hparse : parseScheduleFile contents = (data, none))
    (hord : increasingPerTimeSlot contents)
    (d : Int) (t : TimeSlot) (S1 S2 g : Int) (h1 : 1 ≤ S1) (h12 : S1 < S2)
    (hpresent : ∀ s, S1 ≤ s → s ≤ S2 → data.hasStage d t s)
    (hg : data.has d t S1 g) : data.has d t S2 g := by
  obtain ⟨time, hp⟩ := parseScheduleFile_ok contents data hparse
  have hinv := parseLines_inv (splitLines contents.toList) 0 (TimeSlot.mk "" "", GoMap.make)
    (time, data) [] hp (by simpa [increasingPerTimeSlot] using hord) parseInv_make
  have e : S2 = S1 + ((S2 - S1).toNat : Int) := by omega
  rw [e]
  exact parseInv_chain data _ hinv d t S1 g h1 (S2 - S1).toNat
    (fun s hs hs' => hpresent s hs (by omega)) hg

/-- C1, amended, at the end-to-end input: group 1 of stage 1 is at stage 2. -/
theorem cascade_monotone_witness :
    parseScheduleFile exampleText = ((parseScheduleFile exampleText).1, none)
    ∧ increasingPerTimeSlot exampleText
    ∧ (parseScheduleFile exampleText).1.has 1 (TimeSlot.mk "06:00" "08:30") 1 1
    ∧ (parseScheduleFile exampleText).1.has 1 (TimeSlot.mk "06:00" "08:30") 2 1 :=
  ⟨by decide, by decide, by decide,
    cascade_monotone exampleText (parseScheduleFile exampleText).1 (by decide) (by decide)
      1 (TimeSlot.mk "06:00" "08:30") 1 2 1 (by decide) (by decide)
      (fun s hs hs' => by
        have hs12 : s = 1 ∨ s = 2 := by omega
        rcases hs12 with e | e <;> subst e <;> decide)
      (by decide)⟩

/-- C2. The end-to-end example: the input parses; after `FilterByStage 2` and
`FilterByDay 1` the schedule has the single day 1, the single time slot
06:00-08:30 and the single stage 2, whose group set is exactly `{1, 2}`; and
`Print` writes the single line ` 1 2 06:00 - 08:30: 1, 2`. -/
theorem end_to_end_example :
    (parseScheduleFile exampleText).2 = none
    ∧ exampleSchedule.Data.keys = [1]
    ∧ (exampleSchedule.Data.get 1).keys = [TimeSlot.mk "06:00" "08:30"]
    ∧ ((exampleSchedule.Data.get 1).get (TimeSlot.mk "06:00" "08:30")).keys = [2]
    ∧ sortInts
        (((exampleSchedule.Data.get 1).get (TimeSlot.mk "06:00" "08:30")).get 2).keys = [1, 2]
    ∧ (∀ g, exampleSchedule.Data.has 1 (TimeSlot.mk "06:00" "08:30") 2 g ↔ g = 1 ∨ g = 2)
    ∧ exampleSchedule.Print = [" 1 2 06:00 - 08:30: 1, 2"] := by
  refine ⟨by decide, by decide, by decide, by decide, by decide, ?_, by decide⟩
  intro g
  have hk : (((exampleSchedule.Data.get 1).get (TimeSlot.mk "06:00" "08:30")).get 2).keys
      = [2, 1] := by decide
  unfold ScheduleData.has
  rw [hk]
  simp [or_comm]

/-- C3, as stated, fails: the one-line input whose label is `1Stage` is a
line of 32 fields whose label, stripped of the prefix `Stage`, is not an
integer, and it parses (as a row of stage 1). -/
theorem odd_label_parses :
    oddLabelText.toList ∈ splitLines oddLabelText.toList
    ∧ isComment oddLabelText.toList = false
    ∧ (lineFields oddLabelText.toList).length = 32
    ∧ (lineFields oddLabelText.toList).head? = some "1Stage".toList
    ∧ parsesAsInt (stripStagePrefix "1Stage".toList) = false
    ∧ (parseScheduleFile oddLabelText).2 = none
    ∧ (parseScheduleFile oddLabelText).1.hasStage 1 (TimeSlot.mk "" "") 1 := by
  decide

/-- C3, amended. When some line of the input is not a comment and has 32
fields whose label, after every occurrence of the text `Stage` is removed, is
not an integer, or one of whose 31 cells is not an integer, then
`parseScheduleFile` returns an error and the nil schedule. -/
theorem parse_fails_on_malformed_row (contents : String) (line label : List Char)
    (cells : List (List Char)) (hline : line ∈ splitLines contents.toList)
    (hc : isComment line = false) (hf : lineFields line = label :: cells)
    (hlen : cells.length = 31)
    (hbad : parsesAsInt (removeStage label) = false ∨ ∃ c ∈ cells, parsesAsInt c = false) :
    ∃ err, parseScheduleFile contents = (GoMap.nil, some err) := by
  have hstep : ∀ st, ∃ e, lineStep st line = Except.error e := by
    intro st
    rw [lineStep_row st line label cells hc hf hlen]
    cases hA : Atoi (removeStage label) with
    | error e => exact ⟨e, rfl⟩
    | ok stage =>
      rcases hbad with hbad | hbad
      · simp [parsesAsInt, hA] at hbad
      · obtain ⟨e, he⟩ := parseCells_error st.1 stage 0 cells st.2 hbad
        exact ⟨e, by simp only [he]⟩
  obtain ⟨e, he⟩ := parseLines_error_of_bad_line _ line hline hstep
    (TimeSlot.mk "" "", GoMap.make)
  exact ⟨e, by unfold parseScheduleFile; rw [he]⟩

/-- C3, amended, at the end-to-end input with the cell `abc` in its last row,
after two valid lines. -/
theorem parse_fails_on_malformed_row_witness :
    ((splitLines badCellText.toList).getLast?.getD []) ∈ splitLines badCellText.toList
    ∧ (∃ c ∈ (lineFields ((splitLines badCellText.toList).getLast?.getD [])).drop 1,
        parsesAsInt c = false)
    ∧ ∃ err, parseScheduleFile badCellText = (GoMap.nil, some err) :=
  ⟨by decide, by decide,
    parse_fails_on_malformed_row badCellText
      ((splitLines badCellText.toList).getLast?.getD [])
      "Stage2".toList
      ((lineFields ((splitLines badCellText.toList).getLast?.getD [])).drop 1)
      (by decide) (by decide) (by decide) (by decide) (Or.inr (by decide))⟩

/-- C4. When in every line that is not a comment and has 32 fields the label,
with the text `Stage` removed, is an integer and the 31 cells are integers,
`parseScheduleFile` returns a schedule and no error, whatever the other lines
are. -/
theorem parse_succeeds_when_integers_parse (contents : String)
    (h : ∀ line ∈ splitLines contents.toList, isComment line = false →
      (lineFields line).length = 32 →
      (∀ label ∈ (lineFields line).take 1, parsesAsInt (removeStage label) = true)
      ∧ (∀ cell ∈ (lineFields line).drop 1, parsesAsInt cell = true)) :
    ∃ data, parseScheduleFile contents = (data, none) ∧ data.isNil = false := by
  have hgood : ∀ line ∈ splitLines contents.toList, ∀ st : TimeSlot × ScheduleData,
      st.2.isNil = false → ∃ st', lineStep st line = Except.ok st' ∧ st'.2.isNil = false := by
    intro line hline st hn
    cases hc : isComment line with
    | true => exact ⟨st, lineStep_comment st line hc, hn⟩
    | false =>
      by_cases h32 : (lineFields line).length = 32
      · obtain ⟨hlabel, hcells⟩ := h line hline hc h32
        rcases hf : lineFields line with _ | ⟨label, cells⟩
        · simp [hf] at h32
        · have hlen : cells.length = 31 := by simpa [hf] using h32
          rw [hf] at hlabel hcells
          obtain ⟨stage, hA⟩ := (parsesAsInt_eq_true _).1 (hlabel label (by simp))
          obtain ⟨data', hP⟩ := parseCells_ok st.1 stage 0 cells st.2
            (fun c hcm => hcells c (by simpa using hcm))
          refine ⟨(st.1, data'), ?_, parseCells_isNil _ _ _ _ _ _ hP hn⟩
          rw [lineStep_row st line label cells hc hf hlen]
          simp only [hA, hP]
      · by_cases h2 : (lineFields line).length = 2
        · rcases hf : lineFields line with _ | ⟨a, _ | ⟨b, _ | ⟨c, rest⟩⟩⟩
          · simp [hf] at h2
          · simp [hf] at h2
          · exact ⟨_, lineStep_header st line a b hc hf, hn⟩
          · simp [hf] at h2
        · exact ⟨st, lineStep_irrelevant st line (Or.inr ⟨h2, h32⟩), hn⟩
  obtain ⟨st', hp, hn⟩ := parseLines_ok_of_good_lines _ hgood (TimeSlot.mk "" "", GoMap.make) rfl
  exact ⟨st'.2, by unfold parseScheduleFile; rw [hp], hn⟩

/-- C4 at an input with a row without header, a line without bars, a comment,
an empty line and a line of three fields. -/
theorem parse_succeeds_when_integers_parse_witness :
    (∀ line ∈ splitLines mixedText.toList, isComment line = false →
      (lineFields line).length = 32 →
      (∀ label ∈ (lineFields line).take 1, parsesAsInt (removeStage label) = true)
      ∧ (∀ cell ∈ (lineFields line).drop 1, parsesAsInt cell = true))
    ∧ ∃ data, parseScheduleFile mixedText = (data, none) ∧ data.isNil = false :=
  ⟨by decide, parse_succeeds_when_integers_parse mixedText (by decide)⟩

/-- C5. A line that begins with `#`, or that is not a comment and has neither
2 nor 32 fields, leaves the loop state (current time slot and data) as it is,
so that inserting it into a text or deleting it from a text, between two
lines, before the first line, after the last line or as the only line, does
not change what `parseScheduleFile` returns. -/
theorem irrelevant_line_is_noop (a b line : String) (hnl : '\n' ∉ line.toList)
    (hirr : irrelevantLine line.toList) :
    (∀ st, lineStep st line.toList = Except.ok st)
    ∧ parseScheduleFile (a ++ "\n" ++ line ++ "\n" ++ b) = parseScheduleFile (a ++ "\n" ++ b)
    ∧ parseScheduleFile (line ++ "\n" ++ b) = parseScheduleFile b
    ∧ parseScheduleFile (a ++ "\n" ++ line) = parseScheduleFile a
    ∧ parseScheduleFile line = parseScheduleFile "" := by
  have hnlS : ("\n" : String).toList = ['\n'] := rfl
  have hsingle := splitLines_single line.toList hnl
  refine ⟨fun st => lineStep_irrelevant st _ hirr, ?_, ?_, ?_, ?_⟩
  · unfold parseScheduleFile
    have e1 : (a ++ "\n" ++ line ++ "\n" ++ b).toList
        = a.toList ++ '\n' :: (line.toList ++ '\n' :: b.toList) := by
      simp [String.toList, String.data_append]
    have e2 : (a ++ "\n" ++ b).toList = a.toList ++ '\n' :: b.toList := by
      simp [String.toList, String.data_append]
    rw [e1, e2, splitLines_append, splitLines_append, splitLines_append, hsingle,
      List.singleton_append, parseLines_skip _ _ _ _ hirr]
  · unfold parseScheduleFile
    have e1 : (line ++ "\n" ++ b).toList = line.toList ++ '\n' :: b.toList := by
      simp [String.toList, String.data_append]
    rw [e1, splitLines_append, hsingle, List.singleton_append]
    simp only [parseLines, lineStep_irrelevant _ _ hirr]
  · unfold parseScheduleFile
    have e1 : (a ++ "\n" ++ line).toList = a.toList ++ '\n' :: line.toList := by
      simp [String.toList, String.data_append]
    rw [e1, splitLines_append, hsingle]
    have := parseLines_skip (splitLines a.toList) [] line.toList
      (TimeSlot.mk "" "", GoMap.make) hirr
    rw [this, List.append_nil]
  · unfold parseScheduleFile
    rw [hsingle]
    simp only [parseLines, lineStep_irrelevant _ _ hirr]
    rfl

/-- C5 at a comment line with two fields, put between a header line and the
lines of the input `gapText`. -/
theorem irrelevant_line_is_noop_witness :
    '\n' ∉ "# 09:00|11:30".toList
    ∧ irrelevantLine "# 09:00|11:30".toList
    ∧ (lineFields "# 09:00|11:30".toList).length = 2
    ∧ parseScheduleFile ("06:00|08:30" ++ "\n" ++ "# 09:00|11:30" ++ "\n" ++ gapText)
        = parseScheduleFile ("06:00|08:30" ++ "\n" ++ gapText) :=
  ⟨by decide, by decide, by decide,
    (irrelevant_line_is_noop "06:00|08:30" gapText "# 09:00|11:30"
      (by decide) (by decide)).2.1⟩

/-- C6. In an input that parses, take a stage row with label `Stage<N>`, and
the last time slot header before it, with fields `start` and `stop`: the
schedule holds, for each cell of the row, the group of the cell at the day of
its column (column `i` is day `i`), the time slot `(start, stop)` and stage
`N`. -/
theorem row_is_placed (contents : String) (data : ScheduleData)
    (pre mid post : List (List Char)) (header row start stop label : List Char)
    (cells : List (List Char)) (N : Int)
    (hparse : parseScheduleFile contents = (data, none))
    (hlines : splitLines contents.toList = pre ++ header :: (mid ++ row :: post))
    (hheader : isComment header = false ∧ lineFields header = [start, stop])
    (hmid : ∀ l ∈ mid, isComment l = true ∨ (lineFields l).length ≠ 2)
    (hrow : isComment row = false ∧ lineFields row = label :: cells ∧ cells.length = 31)
    (hN : Atoi (removeStage label) = Except.ok N)
    (i : Nat) (cell : List Char) (c : Int) (hcell : cells[i]? = some cell)
    (hc : Atoi cell = Except.ok c) :
    data.has ((i : Int) + 1) (TimeSlot.mk (String.mk start) (String.mk stop)) N c := by
  obtain ⟨time, hp⟩ := parseScheduleFile_ok contents data hparse
  rw [hlines] at hp
  obtain ⟨st1, _, hp1⟩ := parseLines_append_ok _ _ _ _ hp
  obtain ⟨st2, hs2, hp2⟩ := parseLines_cons_ok _ _ _ _ hp1
  rw [lineStep_header st1 header start stop hheader.1 hheader.2] at hs2
  have hs2' := Except.ok.inj hs2
  obtain ⟨st3, hp3, hp4⟩ := parseLines_append_ok _ _ _ _ hp2
  have htime : st3.1 = TimeSlot.mk (String.mk start) (String.mk stop) := by
    rw [parseLines_time mid st2 st3 hp3 hmid, ← hs2']
  obtain ⟨st4, hs4, hp5⟩ := parseLines_cons_ok _ _ _ _ hp4
  rw [lineStep_row st3 row label cells hrow.1 hrow.2.1 hrow.2.2, hN] at hs4
  simp only at hs4
  cases hP : parseCells st3.1 N 0 cells st3.2 with
  | error e => simp [hP] at hs4
  | ok data4 =>
    simp only [hP] at hs4
    have hs4' := Except.ok.inj hs4
    have h4 : st4.2.has ((i : Int) + 1) (TimeSlot.mk (String.mk start) (String.mk stop)) N c := by
      rw [← hs4']
      refine (parseCells_has _ _ _ _ _ _ hP _ _ _ _).2 (Or.inr ⟨htime.symm, rfl, i, cell, hcell,
        by simp, Or.inl hc⟩)
    exact parseLines_mono post st4 (time, data) hp5 _ _ _ _ h4

/-- C6 at the end-to-end input: the first cell of the `Stage2` row, which
holds 2, puts group 2 at day 1, time slot 06:00-08:30, stage 2; the `Stage1`
row stands between the header and that row. -/
theorem row_is_placed_witness :
    parseScheduleFile exampleText = ((parseScheduleFile exampleText).1, none)
    ∧ (lineFields ((splitLines exampleText.toList).getD 0 [])) = ["06:00".toList, "08:30".toList]
    ∧ (lineFields ((splitLines exampleText.toList).getD 2 [])).take 2
        = ["Stage2".toList, "2".toList]
    ∧ (parseScheduleFile exampleText).1.has 1 (TimeSlot.mk "06:00" "08:30") 2 2 :=
  ⟨by decide, by decide, by decide,
    row_is_placed exampleText (parseScheduleFile exampleText).1
      [] [(splitLines exampleText.toList).getD 1 []] []
      ((splitLines exampleText.toList).getD 0 []) ((splitLines exampleText.toList).getD 2 [])
      "06:00".toList "08:30".toList "Stage2".toList
      ((lineFields ((splitLines exampleText.toList).getD 2 [])).drop 1) 2
      (by decide) (by decide) (by decide) (by decide) (by decide) (by rfl)
      0 "2".toList 2 (by decide) (by rfl)⟩

/-! ## Claims about `TimeToInt` and `fetchStage` -/

/-- C16. `TimeToInt` is a total function.  For a text `hour` without a colon,
the result on `hour` alone and on `hour` followed by a colon and any text is
the integer `strconv.Atoi` reads from `hour`, and `-1` when `strconv.Atoi`
rejects `hour`. -/
theorem TimeToInt_reads_hour (hour rest : List Char) (h : ':' ∉ hour) :
    TimeToInt (String.mk (hour ++ ':' :: rest))
        = (match Atoi hour with
          | Except.ok i => i
          | Except.error _ => -1)
    ∧ TimeToInt (String.mk hour)
        = (match Atoi hour with
          | Except.ok i => i
          | Except.error _ => -1) := by
  have h1 : ∀ rest', (hour ++ rest').takeWhile (fun c => c != ':')
      = hour ++ rest'.takeWhile (fun c => c != ':') := by
    intro rest'
    induction hour with
    | nil => rfl
    | cons c hour ih =>
      have hc : c ≠ ':' := fun e => h (by simp [e])
      have hh : ':' ∉ hour := fun e => h (List.mem_cons_of_mem _ e)
      simp [List.takeWhile_cons, hc, ih hh]
  constructor
  · unfold TimeToInt
    simp only [String.toList]
    rw [h1]
    simp only [List.takeWhile_cons, bne_self_eq_false, Bool.false_eq_true, if_false,
      List.append_nil]
    cases Atoi hour <;> rfl
  · unfold TimeToInt
    simp only [String.toList]
    have := h1 []
    simp only [List.append_nil, List.takeWhile_nil] at this
    rw [this]
    cases Atoi hour <;> rfl

/-- C16 at the labels `06:00`, `ab:cd` and `22`. -/
theorem TimeToInt_reads_hour_witness :
    ':' ∉ "06".toList ∧ ':' ∉ "ab".toList ∧ ':' ∉ "22".toList
    ∧ TimeToInt "06:00" = 6 ∧ TimeToInt "ab:cd" = -1 ∧ TimeToInt "22" = 22 :=
  ⟨by decide, by decide, by decide,
    (TimeToInt_reads_hour "06".toList "00".toList (by decide)).1,
    (TimeToInt_reads_hour "ab".toList "cd".toList (by decide)).1,
    (TimeToInt_reads_hour "22".toList [] (by decide)).2⟩

/-- What `strconv.Atoi` returns is a 64-bit integer. -/
theorem Atoi_range (s : List Char) (n : Int) (h : Atoi s = Except.ok n) :
    -9223372036854775808 ≤ n ∧ n < 9223372036854775808 := by
  cases s with
  | nil => simp [Atoi] at h
  | cons c cs =>
    simp only [Atoi] at h
    generalize (if c = '-' ∨ c = '+' then cs else c :: cs) = digits at h
    by_cases hd : digits = []
    · simp [hd] at h
    · simp only [hd, if_false] at h
      cases hp : parseDigits 0 digits with
      | error e => simp [hp] at h
      | ok un =>
        simp only [hp] at h
        by_cases hneg : c = '-'
        · simp only [hneg, decide_True, if_true] at h
          split at h
          · cases h
          · have := Except.ok.inj h
            omega
        · simp only [hneg, decide_False, Bool.false_eq_true, if_false] at h
          split at h
          · cases h
          · have := Except.ok.inj h
            omega

theorem fetchStage_of_ok (body : String) (n : Int) (h : Atoi body.toList = Except.ok n) :
    fetchStage (some body)
      = if n = 99 then (-1, some FetchError.unavailable) else (wrapInt64 (n - 1), none) := by
  show (match Atoi body.toList with
    | Except.error err => (-1, some (FetchError.number err))
    | Except.ok statusId =>
      if statusId = 99 then (-1, some FetchError.unavailable)
      else (wrapInt64 (statusId - 1), none)) = _
  rw [h]

theorem digitChar_digit (k : Nat) (hk : k < 10) :
    ('0' ≤ Nat.digitChar k ∧ Nat.digitChar k ≤ '9') ∧ (Nat.digitChar k).toNat - 48 = k
    ∧ Nat.digitChar k ≠ '-' ∧ Nat.digitChar k ≠ '+' := by
  interval_cases k <;> decide

/-- Reading the digits `Nat.toDigits` writes gives the number back. -/
theorem parseDigits_toDigitsCore (fuel n : Nat) (ds : List Char) (hf : n < fuel)
    (hn : n < 2 ^ 64) :
    parseDigits 0 (Nat.toDigitsCore 10 fuel n ds) = parseDigits n ds := by
  induction fuel generalizing n ds with
  | zero => omega
  | succ fuel ih =>
    obtain ⟨hd, hv, _, _⟩ := digitChar_digit (n % 10) (Nat.mod_lt _ (by decide))
    have hstep : ∀ a, a * 10 + n % 10 < 2 ^ 64 →
        parseDigits a (Nat.digitChar (n % 10) :: ds) = parseDigits (a * 10 + n % 10) ds := by
      intro a ha
      rw [parseDigits, if_pos hd, hv, if_neg (Nat.not_le.2 ha)]
    unfold Nat.toDigitsCore
    dsimp only
    by_cases h0 : n / 10 = 0
    · rw [if_pos h0, hstep 0 (by omega)]
      congr 1
      omega
    · rw [if_neg h0, ih (n / 10) _ (by omega) (by omega), hstep (n / 10) (by omega)]
      congr 1
      omega

theorem toDigitsCore_head (fuel n : Nat) (ds : List Char) :
    ∃ k, k < 10 ∧ ∃ rest, Nat.toDigitsCore 10 (fuel + 1) n ds = Nat.digitChar k :: rest := by
  induction fuel generalizing n ds with
  | zero =>
    unfold Nat.toDigitsCore
    dsimp only
    by_cases h0 : n / 10 = 0
    · rw [if_pos h0]
      exact ⟨n % 10, Nat.mod_lt _ (by decide), ds, rfl⟩
    · rw [if_neg h0]
      exact ⟨n % 10, Nat.mod_lt _ (by decide), ds, rfl⟩
  | succ fuel ih =>
    unfold Nat.toDigitsCore
    dsimp only
    by_cases h0 : n / 10 = 0
    · rw [if_pos h0]
      exact ⟨n % 10, Nat.mod_lt _ (by decide), ds, rfl⟩
    · rw [if_neg h0]
      exact ih _ _

/-- `strconv.Atoi` reads the decimal numeral `strconv.Itoa` writes for a
64-bit integer as that integer. -/
theorem Atoi_Itoa (n : Int) (h1 : -9223372036854775808 ≤ n) (h2 : n ≤ 9223372036854775807) :
    Atoi (Itoa n) = Except.ok n := by
  cases n with
  | ofNat m =>
    have hm : m < 2 ^ 63 := by
      have : (m : Int) ≤ 9223372036854775807 := h2
      omega
    obtain ⟨k, hk, rest, e⟩ := toDigitsCore_head m m []
    have hp := parseDigits_toDigitsCore (m + 1) m [] (by omega) (by omega)
    obtain ⟨_, _, hk1, hk2⟩ := digitChar_digit k hk
    show Atoi (Nat.toDigitsCore 10 (m + 1) m []) = _
    rw [e] at hp ⊢
    simp only [Atoi, hk1, hk2, or_self, if_false, decide_False, hp, parseDigits]
    rw [if_neg (List.cons_ne_nil _ _), if_neg (by decide), if_neg (by omega)]
    rfl
  | negSucc m =>
    have hm : m + 1 ≤ 2 ^ 63 := by
      have : Int.negSucc m = -((m : Int) + 1) := rfl
      omega
    obtain ⟨k, hk, rest, e⟩ := toDigitsCore_head (m + 1) (m + 1) []
    have hp := parseDigits_toDigitsCore (m + 1 + 1) (m + 1) [] (by omega) (by omega)
    show Atoi ('-' :: Nat.toDigitsCore 10 (m + 1 + 1) (m + 1) []) = _
    rw [e] at hp
    simp only [Atoi, true_or, if_true, decide_True, e, hp, parseDigits]
    rw [if_neg (List.cons_ne_nil _ _), if_neg (by omega)]
    rfl

/-- C17, as stated, fails on two integers other than 99.  For the body
`-9223372036854775808` the lookup succeeds with stage `9223372036854775807`,
which is not that integer less one; for the body `9223372036854775808`, which
is outside the 64-bit range, the lookup fails. -/
theorem fetchStage_wraps_at_least_int :
    Atoi "-9223372036854775808".toList = Except.ok (-9223372036854775808)
    ∧ fetchStage (some "-9223372036854775808") = (9223372036854775807, none)
    ∧ (9223372036854775807 : Int) ≠ -9223372036854775808 - 1
    ∧ fetchStage (some "9223372036854775808")
        = (-1, some (FetchError.number NumError.errRange)) := by
  refine ⟨by rfl, by decide, by decide, by decide⟩

/-- C17, amended. When the body is the decimal numeral of a 64-bit integer
`n`, as `strconv.Itoa` writes it, the lookup fails with the error
"unavailable" for `n = 99`, and for any other `n` it succeeds, with stage
`n - 1` when `n` is above the least 64-bit integer and with stage
`9223372036854775807` when `n` is the least 64-bit integer, the subtraction
wrapping around.  More generally, when `strconv.Atoi` reads the body as the
integer 99 the lookup fails with the error "unavailable"; when it reads the
body as another integer `n`, then `n` is a 64-bit integer and the lookup
succeeds, with stage `n - 1` when `n` is above the least 64-bit integer (so
stage 0 for `n = 1`) and with stage `9223372036854775807` when `n` is the
least 64-bit integer; and when `strconv.Atoi` rejects the body the lookup
fails with the error of `strconv.Atoi`. -/
theorem fetchStage_decodes_status (body : String) :
    (∀ n : Int, -9223372036854775808 ≤ n → n ≤ 9223372036854775807 →
        body.toList = Itoa n →
          (n = 99 → fetchStage (some body) = (-1, some FetchError.unavailable))
          ∧ (n ≠ 99 →
              (fetchStage (some body)).2 = none
              ∧ (-9223372036854775808 < n → (fetchStage (some body)).1 = n - 1)
              ∧ (n = -9223372036854775808 →
                  (fetchStage (some body)).1 = 9223372036854775807)))
    ∧ (Atoi body.toList = Except.ok 99 →
        fetchStage (some body) = (-1, some FetchError.unavailable))
    ∧ (∀ n, Atoi body.toList = Except.ok n → n ≠ 99 →
        -9223372036854775808 ≤ n ∧ n ≤ 9223372036854775807
        ∧ (fetchStage (some body)).2 = none
        ∧ (-9223372036854775808 < n → (fetchStage (some body)).1 = n - 1)
        ∧ (n = -9223372036854775808 → (fetchStage (some body)).1 = 9223372036854775807)
        ∧ (n = 1 → (fetchStage (some body)).1 = 0))
    ∧ (∀ err, Atoi body.toList = Except.error err →
        fetchStage (some body) = (-1, some (FetchError.number err))) := by
  have hok : ∀ n, Atoi body.toList = Except.ok n → n ≠ 99 →
      -9223372036854775808 ≤ n ∧ n ≤ 9223372036854775807
      ∧ (fetchStage (some body)).2 = none
      ∧ (-9223372036854775808 < n → (fetchStage (some body)).1 = n - 1)
      ∧ (n = -9223372036854775808 → (fetchStage (some body)).1 = 9223372036854775807)
      ∧ (n = 1 → (fetchStage (some body)).1 = 0) := by
    intro n h hn
    obtain ⟨hge, hlt⟩ := Atoi_range _ _ h
    rw [fetchStage_of_ok body n h, if_neg hn]
    refine ⟨hge, by omega, rfl, ?_, ?_, ?_⟩
    · intro hgt
      simp only [wrapInt64]
      omega
    · intro hmin
      subst hmin
      decide
    · intro h1
      subst h1
      decide
  have h99 : Atoi body.toList = Except.ok 99 →
      fetchStage (some body) = (-1, some FetchError.unavailable) := by
    intro h
    rw [fetchStage_of_ok body 99 h]
    rfl
  refine ⟨?_, h99, hok, ?_⟩
  · intro n h1 h2 hb
    have ha : Atoi body.toList = Except.ok n := by
      rw [hb]
      exact Atoi_Itoa n h1 h2
    refine ⟨?_, ?_⟩
    · intro e
      rw [e] at ha
      exact h99 ha
    · intro hn
      obtain ⟨_, _, k1, k2, k3, _⟩ := hok n ha hn
      exact ⟨k1, k2, k3⟩
  · intro err h
    show (match Atoi body.toList with
      | Except.error err => (-1, some (FetchError.number err))
      | Except.ok statusId =>
        if statusId = 99 then (-1, some FetchError.unavailable)
        else (wrapInt64 (statusId - 1), none)) = _
    rw [h]

/-- C17, amended, at the bodies `99`, `1`, `+4` and `abc`: the first is
unavailable, the second is stage 0, the third, a numeral of 4 that
`strconv.Itoa` does not write, is stage 3, and the last is not a number. -/
theorem fetchStage_decodes_status_witness :
    "99".toList = Itoa 99
    ∧ fetchStage (some "99") = (-1, some FetchError.unavailable)
    ∧ "1".toList = Itoa 1
    ∧ (fetchStage (some "1")).2 = none ∧ (fetchStage (some "1")).1 = 1 - 1
    ∧ Atoi "1".toList = Except.ok 1 ∧ (fetchStage (some "1")).1 = 0
    ∧ Atoi "+4".toList = Except.ok 4
    ∧ (fetchStage (some "+4")).2 = none ∧ (fetchStage (some "+4")).1 = 4 - 1
    ∧ Atoi "abc".toList = Except.error NumError.errSyntax
    ∧ fetchStage (some "abc") = (-1, some (FetchError.number NumError.errSyntax)) :=
  ⟨by rfl,
    ((fetchStage_decodes_status "99").1 99 (by decide) (by decide) (by rfl)).1 rfl,
    by rfl,
    (((fetchStage_decodes_status "1").1 1 (by decide) (by decide) (by rfl)).2 (by decide)).1,
    (((fetchStage_decodes_status "1").1 1 (by decide) (by decide) (by rfl)).2 (by decide)).2.1
      (by decide),
    by rfl,
    ((fetchStage_decodes_status "1").2.2.1 1 (by rfl) (by decide)).2.2.2.2.2 rfl,
    by rfl,
    ((fetchStage_decodes_status "+4").2.2.1 4 (by rfl) (by decide)).2.2.1,
    ((fetchStage_decodes_status "+4").2.2.1 4 (by rfl) (by decide)).2.2.2.1 (by decide),
    by rfl,
    (fetchStage_decodes_status "abc").2.2.2 NumError.errSyntax (by rfl)⟩

/-! ## More claims about the parser -/

/-- C19. There is an input whose stage rows are not in increasing stage order
within a block (a `Stage2` row before the `Stage1` row under one header) that
parses and whose schedule breaks the cascade: a group is present at stage 1
and absent at stage 2 of the same day and time slot. -/
theorem cascade_depends_on_row_order :
    ∃ contents : String, ¬ increasingWithinBlocks contents
      ∧ (parseScheduleFile contents).2 = none
      ∧ ∃ d t g, (parseScheduleFile contents).1.has d t 1 g
          ∧ ¬ (parseScheduleFile contents).1.has d t 2 g :=
  ⟨reversedText, by decide, by decide, 1, TimeSlot.mk "06:00" "08:30", 1, by decide, by decide⟩

/-! ## Soundness of the parsed schedule -/

theorem cellStep_mem_keys (time : TimeSlot) (stage : Int) (data : ScheduleData) (d g : Int)
    (d' : Int) : d' ∈ (cellStep time stage data d g).keys ↔ d' = d ∨ d' ∈ data.keys := by
  rw [cellStep_eq, atSlot_mem_keys]

theorem parseCells_mem_keys (time : TimeSlot) (stage : Int) (i : Nat) (cells : List (List Char))
    (data data' : ScheduleData) (h : parseCells time stage i cells data = Except.ok data')
    (d : Int) :
    d ∈ data'.keys ↔ d ∈ data.keys ∨ ∃ j, j < cells.length ∧ d = ((i + j : Nat) : Int) + 1 := by
  induction cells generalizing i data with
  | nil =>
    simp only [parseCells, Except.ok.injEq] at h
    subst h
    simp
  | cons c cells ih =>
    unfold parseCells at h
    cases hA : Atoi c with
    | error e => simp [hA] at h
    | ok g0 =>
      simp only [hA] at h
      rw [ih _ _ h, cellStep_mem_keys]
      constructor
      · rintro ((hd | h1) | ⟨j, hj, hd⟩)
        · exact Or.inr ⟨0, by simp, by simpa using hd⟩
        · exact Or.inl h1
        · refine Or.inr ⟨j + 1, by simpa using hj, ?_⟩
          rw [hd]; push_cast; ring
      · rintro (h1 | ⟨j, hj, hd⟩)
        · exact Or.inl (Or.inr h1)
        · cases j with
          | zero => exact Or.inl (Or.inl (by simpa using hd))
          | succ j =>
            refine Or.inr ⟨j, by simpa using hj, ?_⟩
            rw [hd]; push_cast; ring

theorem stageRowCells_irrelevant (line : List Char) (rest : List (List Char))
    (time : TimeSlot) (h : irrelevantLine line) :
    stageRowCells (line :: rest) time = stageRowCells rest time := by
  cases hc : isComment line with
  | true => simp [stageRowCells, hc]
  | false =>
    rcases h with h | ⟨h2, h32⟩
    · rw [hc] at h; cases h
    · rcases hf : lineFields line with _ | ⟨a, _ | ⟨b, _ | ⟨c, tl⟩⟩⟩
      · simp [stageRowCells, hc, hf]
      · simp [stageRowCells, hc, hf]
      · simp [hf] at h2
      · have : ¬ (tl.length + 1 + 1 + 1 = 32) := by
          intro h'
          apply h32
          simp [hf, h']
        simp [stageRowCells, hc, hf, this]

theorem stageRowCells_header (line a b : List Char) (rest : List (List Char))
    (time : TimeSlot) (hc : isComment line = false) (hf : lineFields line = [a, b]) :
    stageRowCells (line :: rest) time
      = stageRowCells rest (TimeSlot.mk (String.mk a) (String.mk b)) := by
  simp [stageRowCells, hc, hf]

theorem stageRowCells_row (line label : List Char) (cells : List (List Char))
    (rest : List (List Char)) (time : TimeSlot) (stage : Int)
    (hc : isComment line = false) (hf : lineFields line = label :: cells)
    (hlen : cells.length = 31) (hA : Atoi (removeStage label) = Except.ok stage) :
    stageRowCells (line :: rest) time = (time, stage, cells) :: stageRowCells rest time := by
  rcases cells with _ | ⟨c1, _ | ⟨c2, cells⟩⟩
  · simp at hlen
  · simp at hlen
  · simp [stageRowCells, hc, hf, hlen, hA]

theorem fromRow_mono (R R' : List (TimeSlot × Int × List (List Char)))
    (hsub : ∀ r ∈ R, r ∈ R') (d : Int) (t : TimeSlot) (s g : Int) (h : fromRow R d t s g) :
    fromRow R' d t s g := by
  obtain ⟨row, hrow, rest⟩ := h
  exact ⟨row, hsub row hrow, rest⟩

theorem fromRow_stage_le (R : List (TimeSlot × Int × List (List Char))) (d : Int)
    (t : TimeSlot) (s s' g : Int) (hs : s ≤ s') (h : fromRow R d t s g) :
    fromRow R d t s' g := by
  obtain ⟨row, hrow, ht, hle, rest⟩ := h
  exact ⟨row, hrow, ht, le_trans hle hs, rest⟩

/-- One stage row keeps the soundness invariant. -/
theorem row_sound (time : TimeSlot) (stage : Int) (cells : List (List Char))
    (data data' : ScheduleData) (R : List (TimeSlot × Int × List (List Char)))
    (hP : parseCells time stage 0 cells data = Except.ok data') (hlen : cells.length = 31)
    (hinv : SoundInv data R) : SoundInv data' (R ++ [(time, stage, cells)]) := by
  obtain ⟨i1, i2⟩ := hinv
  refine ⟨?_, ?_⟩
  · intro d hd
    rcases (parseCells_mem_keys _ _ _ _ _ _ hP d).1 hd with h | ⟨j, hj, hd⟩
    · exact i1 d h
    · simp only [Nat.zero_add] at hd
      omega
  · intro d t s g h
    rcases (parseCells_has _ _ _ _ _ _ hP d t s g).1 h with h | ⟨ht, hs, j, cell, hj, hd, h1⟩
    · exact fromRow_mono R _ (fun r hr => List.mem_append_left _ hr) d t s g (i2 d t s g h)
    · simp only [Nat.zero_add] at hd
      rcases h1 with h1 | ⟨_, h1⟩
      · refine ⟨(time, stage, cells), by simp, ht.symm, by simp [hs], by omega, cell, ?_, h1⟩
        have : (d - 1).toNat = j := by omega
        simp only [this]
        exact hj
      · have h2 := i2 d time (stage - 1) g h1
        rw [ht, hs]
        exact fromRow_mono R _ (fun r hr => List.mem_append_left _ hr) d time stage g
          (fromRow_stage_le R d time (stage - 1) stage g (by omega) h2)

theorem parseLines_sound (lines : List (List Char)) (st st' : TimeSlot × ScheduleData)
    (R : List (TimeSlot × Int × List (List Char)))
    (h : parseLines lines st = Except.ok st') (hinv : SoundInv st.2 R) :
    SoundInv st'.2 (R ++ stageRowCells lines st.1) := by
  induction lines generalizing st R with
  | nil =>
    simp only [parseLines, Except.ok.injEq] at h
    subst h
    simpa [stageRowCells] using hinv
  | cons line rest ih =>
    obtain ⟨st1, h1, h2⟩ := parseLines_cons_ok line rest st st' h
    rcases lineStep_cases st st1 line h1 with ⟨hirr, e⟩ | ⟨a, b, hc, hf, e⟩ |
      ⟨label, cells, stage, data', hc, hf, hlen, hA, hP, e⟩
    · subst e
      rw [stageRowCells_irrelevant line rest st1.1 hirr]
      exact ih st1 R h2 hinv
    · subst e
      rw [stageRowCells_header line a b rest st.1 hc hf]
      exact ih _ R h2 hinv
    · subst e
      rw [stageRowCells_row line label cells rest st.1 stage hc hf hlen hA]
      have hinv' := row_sound st.1 stage cells st.2 data' R hP hlen hinv
      have := ih (st.1, data') (R ++ [(st.1, stage, cells)]) h2 hinv'
      simpa using this

theorem soundInv_make : SoundInv GoMap.make [] := by
  refine ⟨?_, ?_⟩
  · intro d h
    simp at h
  · intro d t s g h
    simp [ScheduleData.has, GoMap.default_eq_nil] at h

/-- C20. In the schedule of an input that parses, every day key lies in 1 to
31, and a group is present at a day, a time slot and a stage only when some
stage row of the input, read under that time slot and with a stage number at
most that stage, holds the group in the column of that day. -/
theorem parsed_schedule_is_sound (contents : String) (data : ScheduleData)
    (hparse : parseScheduleFile contents = (data, none)) :
    (∀ d, d ∈ data.keys → 1 ≤ d ∧ d ≤ 31)
    ∧ (∀ d t s g, data.has d t s g →
        ∃ row ∈ stageRowCells (splitLines contents.toList) (TimeSlot.mk "" ""),
          row.1 = t ∧ row.2.1 ≤ s ∧ 1 ≤ d
          ∧ ∃ cell, row.2.2[(d - 1).toNat]? = some cell ∧ Atoi cell = Except.ok g) := by
  obtain ⟨time, hp⟩ := parseScheduleFile_ok contents data hparse
  have := parseLines_sound (splitLines contents.toList) (TimeSlot.mk "" "", GoMap.make)
    (time, data) [] hp soundInv_make
  simpa [SoundInv, fromRow] using this

/-- C20 at the end-to-end input: its day keys are the days 1 to 31. -/
theorem parsed_schedule_is_sound_witness :
    parseScheduleFile exampleText = ((parseScheduleFile exampleText).1, none)
    ∧ (∀ d, d ∈ (parseScheduleFile exampleText).1.keys → 1 ≤ d ∧ d ≤ 31) :=
  ⟨by decide, (parsed_schedule_is_sound exampleText (parseScheduleFile exampleText).1
    (by decide)).1⟩

/-! ## The renderer -/

theorem printStages_eq (d : Int) (t : TimeSlot) (stages : StageMap) :
    printStages d t stages = (stagePrintEntries d t stages).map formatEntry := by
  unfold printStages stagePrintEntries
  rw [List.map_flatMap]
  congr 1
  funext stage
  by_cases h : (stages.get stage).len = 0
  · simp [h]
  · simp [h, formatEntry]

theorem Print_eq_map (schedule : Schedule) :
    schedule.Print = (printEntries schedule).map formatEntry := by
  unfold Schedule.Print printEntries
  simp only [List.map_flatMap, printStages_eq]

theorem mem_sortInts (xs : List Int) (x : Int) : x ∈ sortInts xs ↔ x ∈ xs :=
  (List.perm_insertionSort _ xs).mem_iff

theorem sortInts_sorted_lt (xs : List Int) (h : xs.Nodup) : (sortInts xs).Sorted (· < ·) := by
  have h1 : (sortInts xs).Sorted (· ≤ ·) := List.sorted_insertionSort (fun a b : Int => a ≤ b) xs
  have h2 : (sortInts xs).Nodup := (List.perm_insertionSort _ xs).nodup_iff.2 h
  exact h1.lt_of_le h2

theorem mem_sortTimeSlots (xs : List TimeSlot) (x : TimeSlot) : x ∈ sortTimeSlots xs ↔ x ∈ xs :=
  (List.perm_insertionSort _ xs).mem_iff

theorem sortTimeSlots_pairwise (xs : List TimeSlot) (h : xs.Nodup) :
    (sortTimeSlots xs).Pairwise
      (fun a b => TimeToInt a.start ≤ TimeToInt b.start ∧ a ≠ b) := by
  haveI : IsTotal TimeSlot (fun a b => TimeToInt a.start ≤ TimeToInt b.start) :=
    ⟨fun a b => le_total _ _⟩
  haveI : IsTrans TimeSlot (fun a b => TimeToInt a.start ≤ TimeToInt b.start) :=
    ⟨fun a b c hab hbc => le_trans hab hbc⟩
  have h1 : (sortTimeSlots xs).Pairwise (fun a b => TimeToInt a.start ≤ TimeToInt b.start) :=
    List.sorted_insertionSort (fun a b : TimeSlot => TimeToInt a.start ≤ TimeToInt b.start) xs
  have h2 : (sortTimeSlots xs).Pairwise (fun a b => a ≠ b) :=
    (List.perm_insertionSort _ xs).nodup_iff.2 h
  exact h1.and h2

theorem mem_stagePrintEntries (d : Int) (t : TimeSlot) (stages : StageMap)
    (e : Int × TimeSlot × Int × List Int) :
    e ∈ stagePrintEntries d t stages
      ↔ e.2.2.1 ∈ stages.keys ∧ (stages.get e.2.2.1).len ≠ 0
        ∧ e = (d, t, e.2.2.1, sortInts (stages.get e.2.2.1).keys) := by
  unfold stagePrintEntries
  simp only [List.mem_flatMap, mem_sortInts]
  constructor
  · rintro ⟨s, hs, he⟩
    split at he
    · simp at he
    · rename_i hne
      simp only [List.mem_singleton] at he
      subst he
      exact ⟨hs, hne, rfl⟩
  · rintro ⟨hs, hne, he⟩
    refine ⟨e.2.2.1, hs, ?_⟩
    rw [if_neg hne]
    simp only [List.mem_singleton]
    exact he

theorem mem_printEntries (schedule : Schedule) (e : Int × TimeSlot × Int × List Int) :
    e ∈ printEntries schedule
      ↔ (((schedule.Data.get e.1).get e.2.1).get e.2.2.1).len ≠ 0
        ∧ e.2.2.2 = sortInts (((schedule.Data.get e.1).get e.2.1).get e.2.2.1).keys := by
  have len_pos : ∀ {K V : Type} (m : GoMap K V), m.len ≠ 0 → ∃ k, k ∈ m.keys := by
    intro K V m h
    cases hk : m.keys with
    | nil =>
      exfalso
      apply h
      unfold GoMap.keys at hk
      unfold GoMap.len
      rw [List.map_eq_nil_iff.1 hk]
      rfl
    | cons k ks => exact ⟨k, by simp⟩
  unfold printEntries
  simp only [List.mem_flatMap, mem_sortInts, mem_sortTimeSlots, mem_stagePrintEntries]
  constructor
  · rintro ⟨d, _, t, _, _, hne, he⟩
    have h1 : e.1 = d := by rw [he]
    have h2 : e.2.1 = t := by rw [he]
    have h3 : e.2.2.2 = sortInts (((schedule.Data.get d).get t).get e.2.2.1).keys := by
      rw [he]
    rw [h1, h2]
    exact ⟨hne, h3⟩
  · rintro ⟨hne, he⟩
    obtain ⟨g, hg⟩ := len_pos _ hne
    have hs := GoMap.mem_keys_of_get_keys _ _ g hg
    have ht := GoMap.mem_keys_of_get_keys _ _ _ hs
    have hd := GoMap.mem_keys_of_get_keys _ _ _ ht
    refine ⟨e.1, hd, e.2.1, ht, hs, hne, ?_⟩
    rw [← he]

/-- The order of the lines: days ascending, within a day time slots by the
rank of their start label, within a time slot stages strictly ascending. -/
theorem printEntries_pairwise (schedule : Schedule) :
    (printEntries schedule).Pairwise (fun a b =>
      a.1 ≤ b.1
      ∧ (a.1 = b.1 → TimeToInt a.2.1.start ≤ TimeToInt b.2.1.start)
      ∧ (a.1 = b.1 → a.2.1 = b.2.1 → a.2.2.1 < b.2.2.1)) := by
  unfold printEntries
  rw [List.pairwise_flatMap]
  constructor
  · intro d _
    rw [List.pairwise_flatMap]
    constructor
    · intro t _
      unfold stagePrintEntries
      rw [List.pairwise_flatMap]
      constructor
      · intro s _
        split
        · exact List.Pairwise.nil
        · exact List.pairwise_singleton _ _
      · refine (sortInts_sorted_lt _ (GoMap.nodup_keys _)).imp ?_
        intro s1 s2 hlt x hx y hy
        split at hx
        · simp at hx
        · split at hy
          · simp at hy
          · simp only [List.mem_singleton] at hx hy
            subst hx hy
            exact ⟨le_refl _, fun _ => le_refl _, fun _ _ => hlt⟩
    · refine (sortTimeSlots_pairwise _ (GoMap.nodup_keys _)).imp ?_
      rintro t1 t2 ⟨hle, hne⟩ x hx y hy
      obtain ⟨_, _, ex⟩ := (mem_stagePrintEntries _ _ _ x).1 hx
      obtain ⟨_, _, ey⟩ := (mem_stagePrintEntries _ _ _ y).1 hy
      have x1 : x.1 = d := by rw [ex]
      have x2 : x.2.1 = t1 := by rw [ex]
      have y1 : y.1 = d := by rw [ey]
      have y2 : y.2.1 = t2 := by rw [ey]
      rw [x1, x2, y1, y2]
      exact ⟨le_refl _, fun _ => hle, fun _ h => absurd h hne⟩
  · refine (sortInts_sorted_lt _ (GoMap.nodup_keys _)).imp ?_
    intro d1 d2 hlt x hx y hy
    simp only [List.mem_flatMap] at hx hy
    obtain ⟨_, _, hx⟩ := hx
    obtain ⟨_, _, hy⟩ := hy
    obtain ⟨_, _, ex⟩ := (mem_stagePrintEntries _ _ _ x).1 hx
    obtain ⟨_, _, ey⟩ := (mem_stagePrintEntries _ _ _ y).1 hy
    have x1 : x.1 = d1 := by rw [ex]
    have y1 : y.1 = d2 := by rw [ey]
    rw [x1, y1]
    exact ⟨le_of_lt hlt, fun h => absurd h (ne_of_lt hlt), fun h => absurd h (ne_of_lt hlt)⟩

/-- Lines made block by block, each block under a key of its own: of three
lines in order, the middle one has the key of the outer two when these have
the same key. -/
theorem contiguous_flatMap {A B C : Type} (key : B → C) (k : A → C) (f : A → List B)
    (L : List A) (hkey : ∀ x ∈ L, ∀ y ∈ f x, key y = k x) (hnd : (L.map k).Nodup)
    (a c b : B) (hsub : List.Sublist [a, c, b] (L.flatMap f)) (hab : key a = key b) : key c = key a := by
  induction L with
  | nil => simp at hsub
  | cons x L ih =>
    rw [List.flatMap_cons] at hsub
    obtain ⟨l1, l2, e, h1, h2⟩ := List.sublist_append_iff.1 hsub
    have hkeyL : ∀ x' ∈ L, ∀ y ∈ f x', key y = k x' :=
      fun x' hx' => hkey x' (List.mem_cons_of_mem _ hx')
    simp only [List.map_cons, List.nodup_cons] at hnd
    have hrest : ∀ y ∈ L.flatMap f, key y ≠ k x := by
      intro y hy hk
      obtain ⟨x', hx', hy'⟩ := List.mem_flatMap.1 hy
      apply hnd.1
      rw [← hk, hkeyL x' hx' y hy']
      exact List.mem_map.2 ⟨x', hx', rfl⟩
    have hx := hkey x (List.mem_cons_self _ _)
    rcases l1 with _ | ⟨p, _ | ⟨q, _ | ⟨r, l1⟩⟩⟩
    · simp only [List.nil_append] at e
      subst e
      exact ih hkeyL hnd.2 h2
    · simp only [List.cons_append, List.nil_append, List.cons.injEq] at e
      obtain ⟨ea, e⟩ := e
      subst ea e
      have ha := hx a (h1.subset (by simp))
      have hb := hrest b (h2.subset (by simp))
      exact absurd (hab ▸ ha) hb
    · simp only [List.cons_append, List.nil_append, List.cons.injEq] at e
      obtain ⟨ea, ec, _⟩ := e
      subst ea ec
      rw [hx a (h1.subset (by simp)), hx c (h1.subset (by simp))]
    · simp only [List.cons_append, List.cons.injEq] at e
      obtain ⟨ea, ec, _⟩ := e
      subst ea ec
      rw [hx a (h1.subset (by simp)), hx c (h1.subset (by simp))]

/-- The (day, time slot) pairs in the order in which `Print` visits them. -/
theorem printEntries_eq_blocks (schedule : Schedule) :
    printEntries schedule
      = ((sortInts schedule.Data.keys).flatMap fun d =>
          (sortTimeSlots (schedule.Data.get d).keys).map fun t => (d, t)).flatMap
            fun k => stagePrintEntries k.1 k.2 ((schedule.Data.get k.1).get k.2) := by
  unfold printEntries
  rw [List.flatMap_assoc]
  congr 1
  funext d
  rw [List.flatMap_map]

theorem printBlocks_nodup (schedule : Schedule) :
    ((sortInts schedule.Data.keys).flatMap fun d =>
      (sortTimeSlots (schedule.Data.get d).keys).map fun t => (d, t)).Nodup := by
  rw [List.nodup_flatMap]
  constructor
  · intro d _
    refine List.Nodup.map (fun a b h => (Prod.mk.inj h).2) ?_
    exact (List.perm_insertionSort _ _).nodup_iff.2 (GoMap.nodup_keys _)
  · have hd : (sortInts schedule.Data.keys).Nodup :=
      (List.perm_insertionSort _ _).nodup_iff.2 (GoMap.nodup_keys _)
    refine List.Pairwise.imp ?_ hd
    intro d1 d2 hne x hx1 hx2
    obtain ⟨_, _, e1⟩ := List.mem_map.1 hx1
    obtain ⟨_, _, e2⟩ := List.mem_map.1 hx2
    apply hne
    rw [← e1] at e2
    exact ((Prod.mk.inj e2).1).symm

theorem printEntries_contiguous (schedule : Schedule)
    (a c b : Int × TimeSlot × Int × List Int) (hsub : List.Sublist [a, c, b] (printEntries schedule))
    (hd : a.1 = b.1) (ht : a.2.1 = b.2.1) : c.1 = a.1 ∧ c.2.1 = a.2.1 := by
  rw [printEntries_eq_blocks] at hsub
  have := contiguous_flatMap (fun e : Int × TimeSlot × Int × List Int => (e.1, e.2.1))
    (fun k : Int × TimeSlot => k) _ _
    (by
      intro k _ y hy
      obtain ⟨_, _, ey⟩ := (mem_stagePrintEntries _ _ _ y).1 hy
      rw [ey])
    (by simpa using printBlocks_nodup schedule) a c b hsub (by simp [hd, ht])
  exact ⟨(Prod.mk.inj this).1, (Prod.mk.inj this).2⟩

/-- Visiting the keys of a map in sorted order reaches the same entries as
enumerating the map. -/
theorem flatMap_keys_perm {K V B : Type} [DecidableEq K] [Inhabited V] (m : GoMap K V)
    (sorted : List K) (hp : sorted.Perm m.keys) (f : K → V → List B) :
    (sorted.flatMap fun k => f k (m.get k)).Perm (m.toList.flatMap fun e => f e.1 e.2) := by
  refine (hp.flatMap_right _).trans ?_
  unfold GoMap.keys
  rw [List.flatMap_map]
  rw [List.flatMap_congr (g := fun e => f e.1 e.2)]
  intro e he
  rw [GoMap.get_of_mem m e.1 e.2 he]

theorem printEntries_perm (schedule : Schedule) :
    (printEntries schedule).Perm
      (schedule.Data.toList.flatMap fun de =>
        de.2.toList.flatMap fun se =>
          se.2.toList.flatMap fun ge =>
            if ge.2.len = 0 then [] else [(de.1, se.1, ge.1, sortInts ge.2.keys)]) := by
  unfold printEntries stagePrintEntries
  refine (flatMap_keys_perm schedule.Data _ (List.perm_insertionSort _ _)
    (fun d slots => (sortTimeSlots slots.keys).flatMap fun t =>
      (sortInts (slots.get t).keys).flatMap fun s =>
        if ((slots.get t).get s).len = 0 then []
        else [(d, t, s, sortInts ((slots.get t).get s).keys)])).trans ?_
  refine List.Perm.flatMap_left _ ?_
  intro de _
  refine (flatMap_keys_perm de.2 _ (List.perm_insertionSort _ _)
    (fun t stages => (sortInts stages.keys).flatMap fun s =>
        if (stages.get s).len = 0 then []
        else [(de.1, t, s, sortInts (stages.get s).keys)])).trans ?_
  refine List.Perm.flatMap_left _ ?_
  intro se _
  exact flatMap_keys_perm se.2 _ (List.perm_insertionSort _ _)
    (fun s groups => if groups.len = 0 then [] else [(de.1, se.1, s, sortInts groups.keys)])

theorem length_filter_stageEntries (data : ScheduleData) :
    ((stageEntries data).filter fun e => e.2.2.2.len != 0).length
      = (data.toList.flatMap fun de =>
          de.2.toList.flatMap fun se =>
            se.2.toList.flatMap fun ge =>
              if ge.2.len = 0 then [] else [(de.1, se.1, ge.1, sortInts ge.2.keys)]).length := by
  have hmap : ∀ (d : Int) (t : TimeSlot) (l : List (Int × GroupSet)),
      ((l.map fun ge => (d, t, ge.1, ge.2)).filter fun e => e.2.2.2.len != 0).length
        = (l.flatMap fun ge =>
            if ge.2.len = 0 then [] else [(d, t, ge.1, sortInts ge.2.keys)]).length := by
    intro d t l
    induction l with
    | nil => rfl
    | cons ge l ih =>
      by_cases h : ge.2.len = 0
      · simp [List.filter_cons, h, ih]
      · simp [List.filter_cons, h, ih]
  unfold stageEntries slotEntries
  rw [List.flatMap_assoc]
  simp only [List.flatMap_map, List.filter_flatMap, List.length_flatMap]
  congr 1
  apply List.map_congr_left
  intro de _
  simp only [Function.comp, List.length_flatMap]
  congr 1
  apply List.map_congr_left
  intro se _
  exact hmap de.1 se.1 se.2.toList

/-! ## Claims about the renderer -/

/-- C12. The lines of `Print` are the formatted entries `printEntries`, and
these come with days ascending; within a day, time slots in non-decreasing
order of `TimeToInt` of the start label; within a time slot, stages strictly
ascending; the lines of one time slot of a day are contiguous (of three lines
in order, the middle one has the day and time slot of the outer two when these
agree); and the groups of a line are strictly ascending. -/
theorem Print_is_ordered (schedule : Schedule) :
    schedule.Print = (printEntries schedule).map formatEntry
    ∧ (printEntries schedule).Pairwise (fun a b =>
        a.1 ≤ b.1
        ∧ (a.1 = b.1 → TimeToInt a.2.1.start ≤ TimeToInt b.2.1.start)
        ∧ (a.1 = b.1 → a.2.1 = b.2.1 → a.2.2.1 < b.2.2.1))
    ∧ (∀ a c b, List.Sublist [a, c, b] (printEntries schedule) → a.1 = b.1 → a.2.1 = b.2.1 →
        c.1 = a.1 ∧ c.2.1 = a.2.1)
    ∧ (∀ e ∈ printEntries schedule, e.2.2.2.Sorted (· < ·)) := by
  refine ⟨Print_eq_map schedule, printEntries_pairwise schedule,
    printEntries_contiguous schedule, ?_⟩
  intro e he
  rw [((mem_printEntries schedule e).1 he).2]
  exact sortInts_sorted_lt _ (GoMap.nodup_keys _)

/-- C13. For a day, time slot and stage whose group set is not empty, exactly
one of the entries `Print` formats is for that triple, and its line is the day
padded to width 2, a space, the stage, a space, the start label padded to
width 5, ` - `, the end label padded to width 5, `: `, then the groups of the
set, each once, strictly ascending, joined by `, `. -/
theorem Print_one_line_per_group_set (schedule : Schedule) (d : Int) (t : TimeSlot) (s : Int)
    (h : (((schedule.Data.get d).get t).get s).len ≠ 0) :
    schedule.Print = (printEntries schedule).map formatEntry
    ∧ (printEntries schedule).filter (fun e => e.1 = d ∧ e.2.1 = t ∧ e.2.2.1 = s)
        = [(d, t, s, sortInts (((schedule.Data.get d).get t).get s).keys)]
    ∧ formatEntry (d, t, s, sortInts (((schedule.Data.get d).get t).get s).keys)
        = String.mk (padLeft 2 (Itoa d) ++ " ".toList ++ Itoa s ++ " ".toList
            ++ padLeft 5 t.start.toList ++ " - ".toList ++ padLeft 5 t.stop.toList
            ++ ": ".toList
            ++ Join ", ".toList
                ((sortInts (((schedule.Data.get d).get t).get s).keys).map Itoa))
    ∧ (sortInts (((schedule.Data.get d).get t).get s).keys).Sorted (· < ·)
    ∧ (∀ g, g ∈ sortInts (((schedule.Data.get d).get t).get s).keys
        ↔ g ∈ (((schedule.Data.get d).get t).get s).keys) := by
  refine ⟨Print_eq_map schedule, ?_, rfl, sortInts_sorted_lt _ (GoMap.nodup_keys _),
    fun g => mem_sortInts _ g⟩
  have hmem : (d, t, s, sortInts (((schedule.Data.get d).get t).get s).keys)
      ∈ printEntries schedule := (mem_printEntries schedule _).2 ⟨h, rfl⟩
  have hpw : (printEntries schedule).Pairwise (fun a b =>
      ¬ (a.1 = b.1 ∧ a.2.1 = b.2.1 ∧ a.2.2.1 = b.2.2.1)) := by
    refine (printEntries_pairwise schedule).imp ?_
    rintro a b ⟨_, _, h3⟩ ⟨e1, e2, e3⟩
    have := h3 e1 e2
    omega
  have hall : ∀ e ∈ printEntries schedule, e.1 = d ∧ e.2.1 = t ∧ e.2.2.1 = s →
      e = (d, t, s, sortInts (((schedule.Data.get d).get t).get s).keys) := by
    rintro ⟨d', t', s', gl⟩ he ⟨e1, e2, e3⟩
    simp only at e1 e2 e3
    subst e1 e2 e3
    have := ((mem_printEntries schedule _).1 he).2
    simp only at this
    rw [this]
  generalize printEntries schedule = E at hmem hpw hall
  induction E with
  | nil => simp at hmem
  | cons x E ih =>
    rw [List.pairwise_cons] at hpw
    by_cases hx : x.1 = d ∧ x.2.1 = t ∧ x.2.2.1 = s
    · have ex := hall x (List.mem_cons_self _ _) hx
      have hnone : E.filter (fun e => e.1 = d ∧ e.2.1 = t ∧ e.2.2.1 = s) = [] := by
        rw [List.filter_eq_nil_iff]
        intro y hy hy'
        have hy'' : y.1 = d ∧ y.2.1 = t ∧ y.2.2.1 = s := by simpa using hy'
        exact hpw.1 y hy ⟨hx.1.trans hy''.1.symm, hx.2.1.trans hy''.2.1.symm,
          hx.2.2.trans hy''.2.2.symm⟩
      rw [List.filter_cons]
      simp only [hx, and_self, decide_True, if_true, hnone]
      rw [ex]
    · rw [List.filter_cons]
      have hx' : decide (x.1 = d ∧ x.2.1 = t ∧ x.2.2.1 = s) = false := by simpa using hx
      simp only [hx', Bool.false_eq_true, if_false]
      rcases List.mem_cons.1 hmem with hm | hm
      · exact absurd ⟨by rw [← hm], by rw [← hm], by rw [← hm]⟩ hx
      · exact ih hm hpw.2 (fun e he => hall e (List.mem_cons_of_mem _ he))

/-- C13 at the schedule of the end-to-end example: day 1, time slot
06:00-08:30, stage 2. -/
theorem Print_one_line_per_group_set_witness :
    (((exampleSchedule.Data.get 1).get (TimeSlot.mk "06:00" "08:30")).get 2).len ≠ 0
    ∧ (printEntries exampleSchedule).filter
        (fun e => e.1 = 1 ∧ e.2.1 = TimeSlot.mk "06:00" "08:30" ∧ e.2.2.1 = 2)
        = [(1, TimeSlot.mk "06:00" "08:30", 2,
            sortInts (((exampleSchedule.Data.get 1).get (TimeSlot.mk "06:00" "08:30")).get
              2).keys)]
    ∧ formatEntry (1, TimeSlot.mk "06:00" "08:30", 2, [1, 2]) = " 1 2 06:00 - 08:30: 1, 2" :=
  ⟨by decide,
    (Print_one_line_per_group_set exampleSchedule 1 (TimeSlot.mk "06:00" "08:30") 2
      (by decide)).2.1,
    by decide⟩

/-- C14. `Print` writes as many lines as the schedule has (day, time slot,
stage) entries with a group set that is not empty, and every line is for a
group set that is not empty and lists at least one group. -/
theorem Print_skips_empty_group_sets (schedule : Schedule) :
    schedule.Print.length
        = ((stageEntries schedule.Data).filter fun e => e.2.2.2.len != 0).length
    ∧ schedule.Print = (printEntries schedule).map formatEntry
    ∧ (∀ e ∈ printEntries schedule,
        (((schedule.Data.get e.1).get e.2.1).get e.2.2.1).len ≠ 0 ∧ e.2.2.2 ≠ []) := by
  refine ⟨?_, Print_eq_map schedule, ?_⟩
  · rw [Print_eq_map, List.length_map, (printEntries_perm schedule).length_eq,
      length_filter_stageEntries]
  · intro e he
    obtain ⟨hne, hg⟩ := (mem_printEntries schedule e).1 he
    refine ⟨hne, ?_⟩
    rw [hg]
    intro h0
    apply hne
    have hk : (((schedule.Data.get e.1).get e.2.1).get e.2.2.1).keys = [] := by
      have hp := List.perm_insertionSort (fun a b : Int => a ≤ b)
        (((schedule.Data.get e.1).get e.2.1).get e.2.2.1).keys
      have h0' : List.insertionSort (fun a b : Int => a ≤ b)
          (((schedule.Data.get e.1).get e.2.1).get e.2.2.1).keys = [] := h0
      rw [h0'] at hp
      exact List.Perm.nil_eq hp |>.symm
    unfold GoMap.keys at hk
    unfold GoMap.len
    rw [List.map_eq_nil_iff.1 hk]
    rfl

/-- C15 fails on the code: the two time slots 06:00-06:30 and 06:30-07:00 of
day 1 have the same rank, and the same schedule contents, enumerated by the
map in the two possible orders, print in two different orders. -/
theorem Print_depends_on_enumeration_order :
    TimeToInt "06:00" = TimeToInt "06:30"
    ∧ halfHourScheduleSwapped.FileName = halfHourSchedule.FileName
    ∧ halfHourScheduleSwapped.Data.keys = halfHourSchedule.Data.keys
    ∧ (halfHourScheduleSwapped.Data.get 1).toList = (halfHourSchedule.Data.get 1).toList.reverse
    ∧ halfHourSchedule.Print = [" 1 1 06:00 - 06:30: 1", " 1 1 06:30 - 07:00: 2"]
    ∧ halfHourScheduleSwapped.Print = [" 1 1 06:30 - 07:00: 2", " 1 1 06:00 - 06:30: 1"] := by
  decide

/-! ## Facts about the heap -/

theorem mem_insertL {K V : Type} [DecidableEq K] (k : K) (v : V) (es : List (K × V))
    (e : K × V) (h : e ∈ insertL k v es) : e = (k, v) ∨ e ∈ es := by
  induction es with
  | nil =>
    simp only [insertL, List.mem_singleton] at h
    exact Or.inl h
  | cons x es ih =>
    by_cases hx : x.1 = k
    · simp only [insertL, hx, if_true, List.mem_cons] at h
      rcases h with h | h
      · exact Or.inl h
      · exact Or.inr (List.mem_cons_of_mem _ h)
    · simp only [insertL, hx, if_false, List.mem_cons] at h
      rcases h with h | h
      · exact Or.inr (by simp [h])
      · rcases ih h with h | h
        · exact Or.inl h
        · exact Or.inr (List.mem_cons_of_mem _ h)

namespace Store

variable {K V : Type}

theorem length_alloc (st : Store K V) : st.alloc.length = st.length + 1 := by
  simp [alloc]

theorem length_set [DecidableEq K] (st : Store K V) (r : Ref) (k : K) (v : V) :
    (st.set r k v).length = st.length := by
  cases r <;> simp [set]

theorem getD_alloc (st : Store K V) (a : Nat) : st.alloc.getD a [] = st.getD a [] := by
  simp only [alloc, List.getD_eq_getElem?_getD, List.getElem?_append]
  split
  · rfl
  · rename_i h
    rw [List.getElem?_eq_none (Nat.le_of_not_lt h)]
    rcases Nat.eq_zero_or_pos (a - st.length) with h0 | h0
    · simp [h0]
    · rw [List.getElem?_eq_none (by simp only [List.length_singleton]; omega)]

theorem getD_set_self [DecidableEq K] (st : Store K V) (a : Nat) (k : K) (v : V)
    (ha : a < st.length) : (st.set (some a) k v).getD a [] = insertL k v (st.getD a []) := by
  simp [set, List.getElem?_set_self ha]

theorem getD_set_ne [DecidableEq K] (st : Store K V) (a a' : Nat) (k : K) (v : V)
    (hne : a ≠ a') : (st.set (some a) k v).getD a' [] = st.getD a' [] := by
  simp [set, List.getElem?_set_ne hne]

theorem prefix_alloc (st0 st : Store K V) (h : List.IsPrefix st0 st) :
    List.IsPrefix st0 st.alloc :=
  h.trans (List.prefix_append _ _)

theorem prefix_set [DecidableEq K] (st0 st : Store K V) (h : List.IsPrefix st0 st) (a : Nat)
    (k : K) (v : V) (ha : st0.length ≤ a) : List.IsPrefix st0 (st.set (some a) k v) := by
  obtain ⟨t, rfl⟩ := h
  simp only [set]
  rw [List.set_append_right _ _ ha]
  exact List.prefix_append _ _

theorem get_set_self [DecidableEq K] [Inhabited V] (st : Store K V) (a : Nat) (k : K) (v : V)
    (ha : a < st.length) : (st.set (some a) k v).get (some a) k = v := by
  simp only [get, entries, getD_set_self st a k v ha, lookupL_insertL, if_true,
    Option.getD_some]

theorem fresh_alloc (n : Nat) (st : Store K Ref) (m len : Nat) (h : Fresh n st m len) :
    Fresh n st.alloc m len := by
  intro a ha e he
  rw [getD_alloc] at he
  exact h a ha e he

theorem fresh_of_getD (n : Nat) (st st' : Store K Ref) (m len len' : Nat) (hlen : len ≤ len')
    (hg : ∀ a, st'.getD a [] = st.getD a []) (h : Fresh n st m len) : Fresh n st' m len' := by
  intro a ha e he
  rw [hg] at he
  obtain ⟨b, e1, e2, e3⟩ := h a ha e he
  exact ⟨b, e1, e2, lt_of_lt_of_le e3 hlen⟩

theorem fresh_set [DecidableEq K] (n : Nat) (st : Store K Ref) (m len : Nat)
    (h : Fresh n st m len) (a : Nat) (k : K) (b : Nat) (hb : m ≤ b) (hb' : b < len) :
    Fresh n (st.set (some a) k (some b)) m len := by
  intro a' ha' e he
  by_cases hne : a = a'
  · subst hne
    by_cases hlt : a < st.length
    · rw [getD_set_self st a k _ hlt] at he
      rcases mem_insertL k _ _ e he with h1 | h1
      · exact ⟨b, by rw [h1], hb, hb'⟩
      · exact h a ha' e h1
    · have : st.set (some a) k (some b) = st := by
        simp only [set]
        exact List.set_eq_of_length_le (Nat.le_of_not_lt hlt)
      rw [this] at he
      exact h a ha' e he
  · rw [getD_set_ne st a a' k _ hne] at he
    exact h a' ha' e he

theorem fresh_get [DecidableEq K] (n : Nat) (st : Store K Ref) (m len : Nat)
    (h : Fresh n st m len) (a : Nat) (ha : n ≤ a) (k : K) (hne : st.get (some a) k ≠ none) :
    ∃ b, st.get (some a) k = some b ∧ m ≤ b ∧ b < len := by
  unfold get at hne ⊢
  cases hl : lookupL k (st.entries (some a)) with
  | none => exact absurd (by rw [hl]; rfl) hne
  | some r =>
    have hmem := mem_of_lookupL k r _ hl
    obtain ⟨b, e1, e2, e3⟩ := h a ha (k, r) hmem
    simp only at e1
    exact ⟨b, by simp [e1], e2, e3⟩

/-- The guard on a map made since the call keeps the objects of before the
call, and leaves the map with a reference to an object made since. -/
theorem ensure_spec {W V' : Type} [DecidableEq K] (P0 P : Store K Ref) (C0 C : Store W V')
    (a : Nat) (k : K) (hP : List.IsPrefix P0 P) (hC : List.IsPrefix C0 C)
    (ha0 : P0.length ≤ a) (ha : a < P.length) (hF : Fresh P0.length P C0.length C.length) :
    List.IsPrefix P0 (ensure P C (some a) k).1
    ∧ List.IsPrefix C0 (ensure P C (some a) k).2
    ∧ (ensure P C (some a) k).1.length = P.length
    ∧ C.length ≤ (ensure P C (some a) k).2.length
    ∧ Fresh P0.length (ensure P C (some a) k).1 C0.length (ensure P C (some a) k).2.length
    ∧ (∃ b, (ensure P C (some a) k).1.get (some a) k = some b ∧ C0.length ≤ b
        ∧ b < (ensure P C (some a) k).2.length)
    ∧ (∀ x, (ensure P C (some a) k).2.getD x [] = C.getD x []) := by
  unfold ensure
  by_cases hnil : P.get (some a) k = none
  · rw [if_pos hnil]
    dsimp only
    have hlen : C.length < C.alloc.length := by rw [length_alloc]; omega
    refine ⟨prefix_set P0 P hP a k _ ha0, prefix_alloc C0 C hC, length_set _ _ _ _,
      le_of_lt hlen, ?_, ?_, getD_alloc C⟩
    · exact fresh_set _ _ _ _ (fresh_of_getD _ P P _ _ _ (le_of_lt hlen) (fun _ => rfl) hF)
        a k C.length hC.length_le hlen
    · exact ⟨C.length, get_set_self P a k _ ha, hC.length_le, hlen⟩
  · rw [if_neg hnil]
    exact ⟨hP, hC, rfl, le_refl _, hF, fresh_get _ _ _ _ hF a ha0 k hnil, fun _ => rfl⟩

end Store

theorem foldl_inv {S A : Type} (I : S → Prop) (f : S → A → S)
    (hstep : ∀ s a, I s → I (f s a)) (l : List A) (s : S) (hs : I s) : I (l.foldl f s) := by
  induction l generalizing s with
  | nil => exact hs
  | cons a l ih => exact ih (f s a) (hstep s a hs)

theorem Store.fresh_base {K : Type} (st st' : Store K Ref) (m len : Nat)
    (hg : ∀ a, st'.getD a [] = st.getD a []) : Store.Fresh st.length st' m len := by
  intro a ha e he
  rw [hg, List.getD_eq_getElem?_getD, List.getElem?_eq_none ha] at he
  simp at he

namespace Heap

theorem building_start (h : Heap) :
    Building h (Heap.mk h.schedules h.days.alloc h.slots h.stages h.groups)
    ∧ Store.Fresh h.stages.length h.stages h.groups.length h.groups.length := by
  refine ⟨⟨rfl, Store.prefix_alloc _ _ (List.prefix_refl _), List.prefix_refl _,
    List.prefix_refl _, List.prefix_refl _, ?_, ?_, ?_⟩, ?_⟩
  · show h.days.length < h.days.alloc.length
    rw [Store.length_alloc]
    omega
  · exact Store.fresh_base h.days h.days.alloc _ _ (Store.getD_alloc h.days)
  · exact Store.fresh_base h.slots h.slots _ _ (fun _ => rfl)
  · exact Store.fresh_base h.stages h.stages _ _ (fun _ => rfl)

/-- The innermost body of `FilterByGroups` writes to objects made since the
call only, and the stage maps made since refer to group sets made since. -/
theorem addGroup_building (h0 h : Heap) (d : Int) (t : TimeSlot) (s g : Int)
    (hB : Building h0 h)
    (hF : Store.Fresh h0.stages.length h.stages h0.groups.length h.groups.length) :
    Building h0 (addGroup (some h0.days.length) h d t s g)
    ∧ Store.Fresh h0.stages.length (addGroup (some h0.days.length) h d t s g).stages
        h0.groups.length (addGroup (some h0.days.length) h d t s g).groups.length := by
  obtain ⟨hs, pD, pT, pS, pG, hlen, fD, fT⟩ := hB
  unfold addGroup
  dsimp only
  have s1 := Store.ensure_spec h0.days h.days h0.slots h.slots h0.days.length d pD pT
    (le_refl _) hlen fD
  generalize Store.ensure h.days h.slots (some h0.days.length) d = ds at s1 ⊢
  obtain ⟨p1, c1, l1, m1, f1, ⟨b, gb, b0, b1⟩, g1⟩ := s1
  rw [gb]
  have s2 := Store.ensure_spec h0.slots ds.2 h0.stages h.stages b t c1 pS b0 b1
    (Store.fresh_of_getD _ h.slots ds.2 _ _ _ (le_refl _) g1 fT)
  generalize Store.ensure ds.2 h.stages (some b) t = ts at s2 ⊢
  obtain ⟨p2, c2, l2, m2, f2, ⟨c, gc, c0, c1'⟩, g2⟩ := s2
  rw [gc]
  have s3 := Store.ensure_spec h0.stages ts.2 h0.groups h.groups c s c2 pG c0 c1'
    (Store.fresh_of_getD _ h.stages ts.2 _ _ _ (le_refl _) g2 hF)
  generalize Store.ensure ts.2 h.groups (some c) s = sg at s3 ⊢
  obtain ⟨p3, c3, l3, m3, f3, ⟨e, ge, e0, e1⟩, g3⟩ := s3
  rw [ge]
  refine ⟨⟨hs, p1, p2, p3, Store.prefix_set _ _ c3 e g () e0, ?_, ?_, ?_⟩, ?_⟩
  · show h0.days.length < ds.1.length
    omega
  · show Store.Fresh h0.days.length ds.1 h0.slots.length ts.1.length
    exact Store.fresh_of_getD _ ds.1 ds.1 _ _ _ (by omega) (fun _ => rfl) f1
  · show Store.Fresh h0.slots.length ts.1 h0.stages.length sg.1.length
    exact Store.fresh_of_getD _ ts.1 ts.1 _ _ _ (by omega) (fun _ => rfl) f2
  · show Store.Fresh h0.stages.length sg.1 h0.groups.length (sg.2.set (some e) g ()).length
    exact Store.fresh_of_getD _ sg.1 sg.1 _ _ _ (by rw [Store.length_set]) (fun _ => rfl) f3

/-- The body of the inner loop of `FilterByStage` writes to objects made since
the call only, and makes no group set. -/
theorem keepStage_building (stage : Int) (h0 h : Heap) (d : Int) (t : TimeSlot) (stages : Ref)
    (hB : Building h0 h) (hG : h.groups = h0.groups) :
    Building h0 (keepStage stage (some h0.days.length) h d t stages)
    ∧ (keepStage stage (some h0.days.length) h d t stages).groups = h0.groups := by
  obtain ⟨hs, pD, pT, pS, pG, hlen, fD, fT⟩ := hB
  unfold keepStage
  dsimp only
  have s1 := Store.ensure_spec h0.days h.days h0.slots h.slots h0.days.length d pD pT
    (le_refl _) hlen fD
  generalize Store.ensure h.days h.slots (some h0.days.length) d = ds at s1 ⊢
  obtain ⟨p1, c1, l1, m1, f1, ⟨b, gb, b0, b1⟩, g1⟩ := s1
  rw [gb]
  have s2 := Store.ensure_spec h0.slots ds.2 h0.stages h.stages b t c1 pS b0 b1
    (Store.fresh_of_getD _ h.slots ds.2 _ _ _ (le_refl _) g1 fT)
  generalize Store.ensure ds.2 h.stages (some b) t = ts at s2 ⊢
  obtain ⟨p2, c2, l2, m2, f2, ⟨c, gc, c0, c1'⟩, g2⟩ := s2
  rw [gc]
  refine ⟨⟨hs, p1, p2, Store.prefix_set _ _ c2 c stage _ c0, pG, ?_, ?_, ?_⟩, hG⟩
  · show h0.days.length < ds.1.length
    omega
  · show Store.Fresh h0.days.length ds.1 h0.slots.length ts.1.length
    exact Store.fresh_of_getD _ ds.1 ds.1 _ _ _ (by omega) (fun _ => rfl) f1
  · show Store.Fresh h0.slots.length ts.1 h0.stages.length
      (ts.2.set (some c) stage (ts.2.get stages stage)).length
    exact Store.fresh_of_getD _ ts.1 ts.1 _ _ _ (by rw [Store.length_set]) (fun _ => rfl) f2

/-- What `FilterByGroups` returns: a new struct with the file name of the
source and a new day map, on a heap built from the heap of the call. -/
theorem FilterByGroups_spec (h : Heap) (schedule : Nat) (groups : List Int) :
    ∃ h2, Building h h2
      ∧ Store.Fresh h.stages.length h2.stages h.groups.length h2.groups.length
      ∧ h.FilterByGroups schedule groups
        = (Heap.mk (h.schedules
              ++ [ScheduleObj.mk (h.schedules.getD schedule default).FileName
                    (some h.days.length)])
            h2.days h2.slots h2.stages h2.groups, h.schedules.length) := by
  let I : Heap → Prop := fun h' =>
    Building h h' ∧ Store.Fresh h.stages.length h'.stages h.groups.length h'.groups.length
  have hloop : I ((Store.entries (Heap.mk h.schedules h.days.alloc h.slots h.stages
      h.groups).days (h.schedules.getD schedule default).Data).foldl (fun h' dayEntry =>
      (h'.slots.entries dayEntry.2).foldl (fun h' slotEntry =>
        (h'.stages.entries slotEntry.2).foldl (fun h' stageEntry =>
          groups.foldl (fun h' group =>
            match lookupL group (h'.groups.entries stageEntry.2) with
            | none => h'
            | some _ =>
              addGroup (some h.days.length) h' dayEntry.1 slotEntry.1 stageEntry.1 group)
            h')
          h')
        h')
      (Heap.mk h.schedules h.days.alloc h.slots h.stages h.groups)) := by
    apply foldl_inv I _ _ _ _ (building_start h)
    intro h' dayEntry hI
    apply foldl_inv I _ _ _ _ hI
    intro h' slotEntry hI
    apply foldl_inv I _ _ _ _ hI
    intro h' stageEntry hI
    apply foldl_inv I _ _ _ _ hI
    intro h' group hI
    split
    · exact hI
    · exact addGroup_building h h' _ _ _ _ hI.1 hI.2
  refine ⟨_, hloop.1, hloop.2, ?_⟩
  unfold FilterByGroups
  dsimp only
  rw [hloop.1.1]

/-- What `FilterByStage` returns: a new struct with the file name of the
source and a new day map, on a heap built from the heap of the call with the
same group sets. -/
theorem FilterByStage_spec (h : Heap) (schedule : Nat) (stage : Int) :
    ∃ h2, Building h h2 ∧ h2.groups = h.groups
      ∧ h.FilterByStage schedule stage
        = (Heap.mk (h.schedules
              ++ [ScheduleObj.mk (h.schedules.getD schedule default).FileName
                    (some h.days.length)])
            h2.days h2.slots h2.stages h2.groups, h.schedules.length) := by
  let I : Heap → Prop := fun h' => Building h h' ∧ h'.groups = h.groups
  have hloop : I ((Store.entries (Heap.mk h.schedules h.days.alloc h.slots h.stages
      h.groups).days (h.schedules.getD schedule default).Data).foldl (fun h' dayEntry =>
      (h'.slots.entries dayEntry.2).foldl (fun h' slotEntry =>
        keepStage stage (some h.days.length) h' dayEntry.1 slotEntry.1 slotEntry.2)
        h')
      (Heap.mk h.schedules h.days.alloc h.slots h.stages h.groups)) := by
    apply foldl_inv I _ _ _ _ ⟨(building_start h).1, rfl⟩
    intro h' dayEntry hI
    apply foldl_inv I _ _ _ _ hI
    intro h' slotEntry hI
    exact keepStage_building stage h h' _ _ _ hI.1 hI.2
  refine ⟨_, hloop.1, hloop.2, ?_⟩
  unfold FilterByStage
  dsimp only
  rw [hloop.1.1]

end Heap

namespace Heap

theorem building_extends (h h2 : Heap) (hB : Building h h2) (obj : ScheduleObj) :
    Extends h (Heap.mk (h.schedules ++ [obj]) h2.days h2.slots h2.stages h2.groups) :=
  ⟨List.prefix_append _ _, hB.2.1, hB.2.2.1, hB.2.2.2.1, hB.2.2.2.2.1⟩

theorem getD_append_length (l : List ScheduleObj) (obj : ScheduleObj) :
    (l ++ [obj]).getD l.length default = obj := by
  simp [List.getD_eq_getElem?_getD, List.getElem?_append_right]

/-- What `FilterByDay` returns: a new struct with the file name of the source,
whose new day map holds, for the day, the reference the source holds; no other
object is made or changed. -/
theorem FilterByDay_spec (h : Heap) (schedule : Nat) (d : Int) :
    h.FilterByDay schedule d
      = (Heap.mk (h.schedules
            ++ [ScheduleObj.mk (h.schedules.getD schedule default).FileName
                  (some h.days.length)])
          (h.days ++ [[(d, h.days.get (h.schedules.getD schedule default).Data d)]])
          h.slots h.stages h.groups, h.schedules.length) := by
  have hget : ∀ r : Ref, h.days.alloc.get r d = h.days.get r d := by
    intro r
    cases r with
    | none => rfl
    | some a => simp only [Store.get, Store.entries, Store.getD_alloc]
  unfold FilterByDay
  dsimp only
  rw [hget]
  congr 2
  simp [Store.set, Store.alloc, insertL]

end Heap

/-! ## Facts about the references a filtered schedule holds -/

namespace Store

variable {K V : Type}

theorem getD_of_prefix (st0 st : Store K V) (h : List.IsPrefix st0 st) (a : Nat)
    (ha : a < st0.length) : st.getD a [] = st0.getD a [] := by
  obtain ⟨t, rfl⟩ := h
  simp [List.getD_eq_getElem?_getD, List.getElem?_append_left ha]

theorem getD_of_length_le (st : Store K V) (a : Nat) (ha : st.length ≤ a) :
    st.getD a [] = [] := by
  simp [List.getD_eq_getElem?_getD, List.getElem?_eq_none ha]

theorem getD_mem (st : Store K V) (a : Nat) (e : K × V) (he : e ∈ st.getD a []) :
    st.getD a [] ∈ st := by
  by_cases ha : a < st.length
  · rw [List.getD_eq_getElem?_getD, List.getElem?_eq_getElem ha]
    exact List.getElem_mem ha
  · rw [getD_of_length_le st a (Nat.le_of_not_lt ha)] at he
    simp at he

theorem entries_of_prefix (st0 st : Store K V) (h : List.IsPrefix st0 st) (r : Ref)
    (hr : ∀ a ∈ r, a < st0.length) : st.entries r = st0.entries r := by
  cases r with
  | none => rfl
  | some a => exact getD_of_prefix st0 st h a (hr a rfl)

theorem get_of_prefix [DecidableEq K] [Inhabited V] (st0 st : Store K V)
    (h : List.IsPrefix st0 st) (r : Ref) (hr : ∀ a ∈ r, a < st0.length) (k : K) :
    st.get r k = st0.get r k := by
  simp only [get, entries_of_prefix st0 st h r hr]

theorem get_of_getD [DecidableEq K] [Inhabited V] (st st' : Store K V)
    (hg : ∀ x, st'.getD x [] = st.getD x []) (r : Ref) (k : K) : st'.get r k = st.get r k := by
  cases r with
  | none => rfl
  | some a => simp only [get, entries, hg]

theorem get_of_length_le [DecidableEq K] [Inhabited V] (st : Store K V) (a : Nat)
    (ha : st.length ≤ a) (k : K) : st.get (some a) k = default := by
  simp only [get, entries, getD_of_length_le st a ha, lookupL, Option.getD_none]

theorem get_set_ne_key [DecidableEq K] [Inhabited V] (st : Store K V) (a : Nat) (k k' : K)
    (v : V) (hne : k' ≠ k) : (st.set (some a) k v).get (some a) k' = st.get (some a) k' := by
  by_cases hlt : a < st.length
  · simp only [get, entries, getD_set_self st a k v hlt, lookupL_insertL, if_neg hne]
  · have : st.set (some a) k v = st := by
      simp only [set]
      exact List.set_eq_of_length_le (Nat.le_of_not_lt hlt)
    rw [this]

theorem get_set_ne_addr [DecidableEq K] [Inhabited V] (st : Store K V) (a a' : Nat) (k k' : K)
    (v : V) (hne : a ≠ a') : (st.set (some a) k v).get (some a') k' = st.get (some a') k' := by
  simp only [get, entries, getD_set_ne st a a' k v hne]

theorem below_entries (st : Store K Ref) (len : Nat) (hB : st.Below len) (r : Ref)
    (e : K × Ref) (he : e ∈ st.entries r) : ∀ a ∈ e.2, a < len := by
  cases r with
  | none => simp [entries] at he
  | some a => exact hB _ (getD_mem st a e he) e he

theorem distinct_entries (st : Store K V) (hD : st.Distinct) (r : Ref) :
    ((st.entries r).map Prod.fst).Nodup := by
  cases r with
  | none => simp [entries]
  | some a =>
    by_cases ha : a < st.length
    · have hm : st.getD a [] ∈ st := by
        rw [List.getD_eq_getElem?_getD, List.getElem?_eq_getElem ha]
        exact List.getElem_mem ha
      exact hD _ hm
    · show ((st.getD a []).map Prod.fst).Nodup
      rw [getD_of_length_le st a (Nat.le_of_not_lt ha)]
      exact List.nodup_nil

/-- What the guard leaves at the keys and objects other than the guarded
one, and at the guarded key. -/
theorem ensure_frame {W V' : Type} [DecidableEq K] (P : Store K Ref) (C : Store W V')
    (a : Nat) (k : K) :
    (∀ k', k' ≠ k → (ensure P C (some a) k).1.get (some a) k' = P.get (some a) k')
    ∧ (∀ a' k', a ≠ a' → (ensure P C (some a) k).1.get (some a') k' = P.get (some a') k')
    ∧ (∀ b, P.get (some a) k = some b → (ensure P C (some a) k).1.get (some a) k = some b)
    ∧ (P.get (some a) k = none → a < P.length →
        (ensure P C (some a) k).1.get (some a) k = some C.length) := by
  unfold ensure
  by_cases hnil : P.get (some a) k = none
  · rw [if_pos hnil]
    dsimp only
    refine ⟨fun k' hk => get_set_ne_key P a k k' _ hk,
      fun a' k' ha => get_set_ne_addr P a a' k k' _ ha, ?_, ?_⟩
    · intro b hb
      rw [hnil] at hb
      cases hb
    · intro _ ha
      exact get_set_self P a k _ ha
  · rw [if_neg hnil]
    exact ⟨fun _ _ => rfl, fun _ _ _ => rfl, fun b hb => hb, fun h => absurd h hnil⟩

end Store

theorem foldl_inv_mem {S A : Type} (I : S → Prop) (f : S → A → S) (l : List A)
    (hstep : ∀ s a, a ∈ l → I s → I (f s a)) (s : S) (hs : I s) : I (l.foldl f s) := by
  induction l generalizing s with
  | nil => exact hs
  | cons a l ih =>
    exact ih (fun s' a' ha' => hstep s' a' (List.mem_cons_of_mem _ ha')) (f s a)
      (hstep s a (List.mem_cons_self _ _) hs)

/-- A loop each of whose steps writes one key, over items of distinct keys:
every item's key reads the item's value, and the other keys read what they
read before the loop. -/
theorem foldl_last_write {S A Key Val : Type} (I : S → Prop) (f : S → A → S) (key : A → Key)
    (val : A → Val) (read : S → Key → Val) (l : List A)
    (hstep : ∀ s a, a ∈ l → I s →
      I (f s a) ∧ read (f s a) (key a) = val a ∧ ∀ k, k ≠ key a → read (f s a) k = read s k)
    (hnd : (l.map key).Nodup) (s : S) (hs : I s) :
    I (l.foldl f s) ∧ (∀ a ∈ l, read (l.foldl f s) (key a) = val a)
    ∧ (∀ k, k ∉ l.map key → read (l.foldl f s) k = read s k) := by
  induction l generalizing s with
  | nil => exact ⟨hs, fun a ha => by simp at ha, fun _ _ => rfl⟩
  | cons a l ih =>
    simp only [List.map_cons, List.nodup_cons] at hnd
    obtain ⟨h1, h2, h3⟩ := hstep s a (List.mem_cons_self _ _) hs
    obtain ⟨i1, i2, i3⟩ := ih (fun s' a' ha' => hstep s' a' (List.mem_cons_of_mem _ ha'))
      hnd.2 (f s a) h1
    refine ⟨i1, ?_, ?_⟩
    · intro a' ha'
      rcases List.mem_cons.1 ha' with e | e
      · subst e
        show read (l.foldl f (f s a')) (key a') = val a'
        rw [i3 _ hnd.1, h2]
      · exact i2 a' e
    · intro k hk
      simp only [List.map_cons, List.mem_cons, not_or] at hk
      show read (l.foldl f (f s a)) k = read s k
      rw [i3 k hk.2, h3 k hk.1]

theorem inj_update {X : Type} (f f' : X → Ref) (x0 : X) (b : Nat)
    (hinj : ∀ x y c, f x = some c → f y = some c → x = y)
    (h0 : f' x0 = some b) (hframe : ∀ x, x ≠ x0 → f' x = f x)
    (hfresh : ∀ x c, x ≠ x0 → f x = some c → c ≠ b) :
    ∀ x y c, f' x = some c → f' y = some c → x = y := by
  intro x y c hx hy
  by_cases ex : x = x0
  · by_cases ey : y = x0
    · rw [ex, ey]
    · subst ex
      rw [h0] at hx
      rw [hframe y ey] at hy
      cases hx
      exact absurd rfl (hfresh y b ey hy)
  · by_cases ey : y = x0
    · subst ey
      rw [h0] at hy
      rw [hframe x ex] at hx
      cases hy
      exact absurd rfl (hfresh x b ex hx)
    · rw [hframe x ex] at hx
      rw [hframe y ey] at hy
      exact hinj x y c hx hy

namespace Heap

/-- The heap the body of the inner loop of `FilterByStage` leaves: the day map
of the result holds a time slot map for the day, that map holds a stage map
for the time slot, and that stage map has been given the reference the loop
variable holds for the stage; nothing else has changed. -/
theorem keepStage_shape (stage : Int) (h0 h : Heap) (d : Int) (t : TimeSlot) (stages : Ref)
    (hB : Building h0 h) :
    ∃ (D : Store Int Ref) (T : Store TimeSlot Ref) (S : Store Int Ref) (b c : Nat),
      keepStage stage (some h0.days.length) h d t stages
        = Heap.mk h.schedules D T (S.set (some c) stage (S.get stages stage)) h.groups
      ∧ D.get (some h0.days.length) d = some b
      ∧ (∀ d', d' ≠ d → D.get (some h0.days.length) d' = h.days.get (some h0.days.length) d')
      ∧ (h.days.get (some h0.days.length) d = some b
          ∨ (h.days.get (some h0.days.length) d = none ∧ b = h.slots.length))
      ∧ T.get (some b) t = some c
      ∧ (∀ t', t' ≠ t → T.get (some b) t' = h.slots.get (some b) t')
      ∧ (∀ b' t', b ≠ b' → T.get (some b') t' = h.slots.get (some b') t')
      ∧ (h.slots.get (some b) t = some c
          ∨ (h.slots.get (some b) t = none ∧ c = h.stages.length))
      ∧ (∀ x, S.getD x [] = h.stages.getD x [])
      ∧ h0.stages.length ≤ c ∧ c < S.length := by
  obtain ⟨hs, pD, pT, pS, pG, hlen, fD, fT⟩ := hB
  unfold keepStage
  dsimp only
  have s1 := Store.ensure_spec h0.days h.days h0.slots h.slots h0.days.length d pD pT
    (le_refl _) hlen fD
  have r1 := Store.ensure_frame h.days h.slots h0.days.length d
  generalize Store.ensure h.days h.slots (some h0.days.length) d = ds at s1 r1 ⊢
  obtain ⟨p1, c1, l1, m1, f1, ⟨b, gb, b0, b1⟩, g1⟩ := s1
  obtain ⟨k1, _, u1, n1⟩ := r1
  rw [gb]
  have s2 := Store.ensure_spec h0.slots ds.2 h0.stages h.stages b t c1 pS b0 b1
    (Store.fresh_of_getD _ h.slots ds.2 _ _ _ (le_refl _) g1 fT)
  have r2 := Store.ensure_frame ds.2 h.stages b t
  generalize Store.ensure ds.2 h.stages (some b) t = ts at s2 r2 ⊢
  obtain ⟨p2, c2, l2, m2, f2, ⟨c, gc, c0, c1'⟩, g2⟩ := s2
  obtain ⟨k2, a2, u2, n2⟩ := r2
  rw [gc]
  have hg : ∀ r k, ds.2.get r k = h.slots.get r k := Store.get_of_getD h.slots ds.2 g1
  refine ⟨ds.1, ts.1, ts.2, b, c, rfl, gb, k1, ?_, gc, ?_, ?_, ?_, g2, c0, c1'⟩
  · cases hd : h.days.get (some h0.days.length) d with
    | none =>
      have e := n1 hd hlen
      rw [gb] at e
      exact Or.inr ⟨rfl, Option.some.inj e⟩
    | some b' =>
      have e := u1 b' hd
      rw [gb] at e
      exact Or.inl e.symm
  · intro t' ht'
    rw [k2 t' ht', hg]
  · intro b' t' hb'
    rw [a2 b' t' hb', hg]
  · rw [← hg]
    cases hd : ds.2.get (some b) t with
    | none =>
      have e := n2 hd b1
      rw [gc] at e
      exact Or.inr ⟨rfl, Option.some.inj e⟩
    | some c' =>
      have e := u2 c' hd
      rw [gc] at e
      exact Or.inl e.symm

/-- The body of the inner loop of `FilterByStage` keeps a property of the
entries of the stage maps made since the call, when the entry it writes has
the property. -/
theorem keepStage_holds (stage : Int) (h0 h : Heap) (d : Int) (t : TimeSlot) (stages : Ref)
    (hB : Building h0 h) (hst : ∀ a ∈ stages, a < h0.stages.length) (Q : Int × Ref → Prop)
    (hQ : Q (stage, h0.stages.get stages stage))
    (hI : ∀ x, h0.stages.length ≤ x → ∀ e ∈ h.stages.getD x [], Q e) :
    ∀ x, h0.stages.length ≤ x →
      ∀ e ∈ (keepStage stage (some h0.days.length) h d t stages).stages.getD x [], Q e := by
  obtain ⟨D, T, S, b, c, e, _, _, _, _, _, _, _, g, c0, c1⟩ := keepStage_shape stage h0 h d t
    stages hB
  rw [e]
  intro x hx e' he'
  have hv : S.get stages stage = h0.stages.get stages stage := by
    rw [Store.get_of_getD h.stages S g, Store.get_of_prefix h0.stages h.stages hB.2.2.2.1 stages hst]
  by_cases hc : c = x
  · subst hc
    change e' ∈ (S.set (some c) stage (S.get stages stage)).getD c [] at he'
    rw [Store.getD_set_self S c stage _ c1] at he'
    rcases mem_insertL _ _ _ _ he' with h1 | h1
    · rw [h1, hv]
      exact hQ
    · rw [g] at h1
      exact hI c hx e' h1
  · change e' ∈ (S.set (some c) stage (S.get stages stage)).getD x [] at he'
    rw [Store.getD_set_ne S c x stage _ hc, g] at he'
    exact hI x hx e' he'

end Heap

namespace Heap

theorem slotsAt_bound (h0 h : Heap) (hB : Building h0 h) (d : Int) (b : Nat)
    (hb : h.slotsAt h0.days.length d = some b) : h0.slots.length ≤ b ∧ b < h.slots.length := by
  have hb' : h.days.get (some h0.days.length) d = some b := hb
  obtain ⟨x, e1, e2, e3⟩ := Store.fresh_get _ _ _ _ hB.2.2.2.2.2.2.1 h0.days.length (le_refl _) d
    (by rw [hb']; simp)
  rw [hb'] at e1
  cases e1
  exact ⟨e2, e3⟩

theorem stagesAt_bound (h0 h : Heap) (hB : Building h0 h) (p : Int × TimeSlot) (c : Nat)
    (hc : h.stagesAt h0.days.length p = some c) :
    h0.stages.length ≤ c ∧ c < h.stages.length := by
  have hc' : h.slots.get (h.slotsAt h0.days.length p.1) p.2 = some c := hc
  cases hr : h.slotsAt h0.days.length p.1 with
  | none =>
    rw [hr] at hc'
    cases hc'
  | some b =>
    rw [hr] at hc'
    obtain ⟨x, e1, e2, e3⟩ := Store.fresh_get _ _ _ _ hB.2.2.2.2.2.2.2 b
      (slotsAt_bound h0 h hB p.1 b hr).1 p.2 (by rw [hc']; simp)
    rw [hc'] at e1
    cases e1
    exact ⟨e2, e3⟩

/-- The body of the inner loop of `FilterByStage` leaves, at the day and time
slot of the iteration, the reference the loop variable holds for the stage,
and leaves every other day and time slot of the result as it was. -/
theorem keepStage_paths (stage : Int) (h0 h : Heap) (d : Int) (t : TimeSlot) (stages : Ref)
    (hB : Building h0 h) (hS : Separate h0.days.length h)
    (hst : ∀ a ∈ stages, a < h0.stages.length) :
    Separate h0.days.length (keepStage stage (some h0.days.length) h d t stages)
    ∧ (keepStage stage (some h0.days.length) h d t stages).groupsAt (some h0.days.length)
          d t stage = h0.stages.get stages stage
    ∧ ∀ p : Int × TimeSlot, p ≠ (d, t) →
        (keepStage stage (some h0.days.length) h d t stages).groupsAt (some h0.days.length)
            p.1 p.2 stage = h.groupsAt (some h0.days.length) p.1 p.2 stage := by
  obtain ⟨D, T, S, b, c, e, gD, fD, cD, gT, fTk, fTa, cT, g, c0, c1⟩ :=
    keepStage_shape stage h0 h d t stages hB
  rw [e]
  obtain ⟨inj1, inj2⟩ := hS
  have F1 : (Heap.mk h.schedules D T (S.set (some c) stage (S.get stages stage))
      h.groups).slotsAt h0.days.length d = some b := gD
  have F2 : ∀ d', d' ≠ d →
      (Heap.mk h.schedules D T (S.set (some c) stage (S.get stages stage))
        h.groups).slotsAt h0.days.length d' = h.slotsAt h0.days.length d' := fD
  have F3 : ∀ d' b', d' ≠ d → h.slotsAt h0.days.length d' = some b' → b' ≠ b := by
    intro d' b' hd hb heq
    rw [heq] at hb
    rcases cD with hc | ⟨hc, hL⟩
    · exact hd (inj1 d' d b hb hc)
    · have := (slotsAt_bound h0 h hB d' b hb).2
      omega
  have star : ∀ t', h.slots.get (some b) t' = h.stagesAt h0.days.length (d, t') := by
    intro t'
    show _ = h.slots.get (h.days.get (some h0.days.length) d) t'
    rcases cD with hc | ⟨hc, hL⟩
    · rw [hc]
    · rw [hc, hL]
      exact Store.get_of_length_le h.slots _ (le_refl _) t'
  have F4 : (Heap.mk h.schedules D T (S.set (some c) stage (S.get stages stage))
      h.groups).stagesAt h0.days.length (d, t) = some c := by
    show T.get (D.get (some h0.days.length) d) t = some c
    rw [gD]
    exact gT
  have F5 : ∀ p, p ≠ (d, t) →
      (Heap.mk h.schedules D T (S.set (some c) stage (S.get stages stage))
        h.groups).stagesAt h0.days.length p = h.stagesAt h0.days.length p := by
    intro p hp
    show T.get (D.get (some h0.days.length) p.1) p.2
      = h.slots.get (h.days.get (some h0.days.length) p.1) p.2
    by_cases hd : p.1 = d
    · have ht : p.2 ≠ t := fun e => hp (Prod.ext hd e)
      rw [hd, gD, fTk p.2 ht, star]
      rfl
    · rw [fD p.1 hd]
      cases hr : h.days.get (some h0.days.length) p.1 with
      | none => rfl
      | some b' => exact fTa b' p.2 (fun e => F3 p.1 b' hd hr e.symm)
  have F6 : ∀ p c', p ≠ (d, t) → h.stagesAt h0.days.length p = some c' → c' ≠ c := by
    intro p c' hp hc heq
    rw [heq] at hc
    rcases cT with hc2 | ⟨hc2, hM⟩
    · rw [star] at hc2
      exact hp (inj2 p (d, t) c hc hc2)
    · have := (stagesAt_bound h0 h hB p c hc).2
      omega
  have hv : S.get stages stage = h0.stages.get stages stage := by
    rw [Store.get_of_getD h.stages S g, Store.get_of_prefix h0.stages h.stages hB.2.2.2.1 stages hst]
  have hS' : ∀ r : Ref, r ≠ some c →
      (S.set (some c) stage (S.get stages stage)).get r stage = h.stages.get r stage := by
    intro r hr
    cases r with
    | none => rfl
    | some x =>
      rw [Store.get_set_ne_addr S c x stage stage _ (fun e => hr (by rw [e])),
        Store.get_of_getD h.stages S g]
  refine ⟨⟨inj_update _ _ d b inj1 F1 F2 F3, inj_update _ _ (d, t) c inj2 F4 F5 F6⟩, ?_, ?_⟩
  · show (S.set (some c) stage (S.get stages stage)).get
      ((Heap.mk h.schedules D T (S.set (some c) stage (S.get stages stage))
        h.groups).stagesAt h0.days.length (d, t)) stage = _
    rw [F4, Store.get_set_self S c stage _ c1, hv]
  · intro p hp
    show (S.set (some c) stage (S.get stages stage)).get
      ((Heap.mk h.schedules D T (S.set (some c) stage (S.get stages stage))
        h.groups).stagesAt h0.days.length p) stage
      = h.stages.get (h.stagesAt h0.days.length p) stage
    rw [F5 p hp]
    apply hS'
    intro e
    exact F6 p c hp e rfl

end Heap

namespace Heap

theorem mem_stageRefs (h : Heap) (data : Ref) (x : Int × TimeSlot × Ref) :
    x ∈ h.stageRefs data ↔ ∃ de ∈ h.days.entries data, ∃ se ∈ h.slots.entries de.2,
      x = (de.1, se.1, se.2) := by
  simp only [stageRefs, List.mem_flatMap, List.mem_map]
  constructor
  · rintro ⟨de, hde, se, hse, e⟩
    exact ⟨de, hde, se, hse, e.symm⟩
  · rintro ⟨de, hde, se, hse, e⟩
    exact ⟨de, hde, se, hse, e.symm⟩

theorem stageRefs_nodup (h : Heap) (hD : h.Distinct) (data : Ref) :
    ((h.stageRefs data).map (fun x => (x.1, x.2.1))).Nodup := by
  have hn := Store.distinct_entries h.days hD.1 data
  unfold stageRefs
  generalize h.days.entries data = L at hn
  induction L with
  | nil => exact List.nodup_nil
  | cons de L ih =>
    simp only [List.map_cons, List.nodup_cons] at hn
    rw [List.flatMap_cons, List.map_append, List.nodup_append]
    refine ⟨?_, ih hn.2, ?_⟩
    · rw [List.map_map]
      have hs := Store.distinct_entries h.slots hD.2 de.2
      have hi : Function.Injective (fun t : TimeSlot => (de.1, t)) := by
        intro a b e
        exact (Prod.mk.inj e).2
      have := List.Nodup.map hi hs
      rw [List.map_map] at this
      exact this
    · intro p hp1 hp2
      simp only [List.mem_map] at hp1
      obtain ⟨x, hx, e1⟩ := hp1
      obtain ⟨se, _, e2⟩ := hx
      have h1 : p.1 = de.1 := by rw [← e1, ← e2]
      rw [List.map_flatMap, List.mem_flatMap] at hp2
      obtain ⟨de', hde', hp3⟩ := hp2
      simp only [List.mem_map] at hp3
      obtain ⟨x', ⟨se', _, e3⟩, e4⟩ := hp3
      have h2 : p.1 = de'.1 := by rw [← e4, ← e3]
      exact hn.1 (List.mem_map.2 ⟨de', hde', by rw [← h2, h1]⟩)

/-- What the source holds at the day and time slot of an iteration is the
reference the loop variable holds. -/
theorem groupsAt_of_mem (h : Heap) (hD : h.Distinct) (data : Ref) (s : Int)
    (x : Int × TimeSlot × Ref) (hx : x ∈ h.stageRefs data) :
    h.groupsAt data x.1 x.2.1 s = h.stages.get x.2.2 s := by
  obtain ⟨de, hde, se, hse, e⟩ := (mem_stageRefs h data x).1 hx
  subst e
  have h1 : h.days.get data de.1 = de.2 := by
    simp only [Store.get, lookupL_of_mem de.1 de.2 _ (Store.distinct_entries h.days hD.1 data) hde,
      Option.getD_some]
  have h2 : h.slots.get de.2 se.1 = se.2 := by
    simp only [Store.get, lookupL_of_mem se.1 se.2 _ (Store.distinct_entries h.slots hD.2 de.2)
      hse, Option.getD_some]
  show h.stages.get (h.slots.get (h.days.get data de.1) se.1) s = h.stages.get se.2 s
  rw [h1, h2]

/-- The source holds nothing at a day and time slot of no iteration. -/
theorem groupsAt_of_not_mem (h : Heap) (data : Ref) (s : Int) (d : Int) (t : TimeSlot)
    (hp : (d, t) ∉ (h.stageRefs data).map (fun x => (x.1, x.2.1))) :
    h.groupsAt data d t s = none := by
  show h.stages.get (h.slots.get (h.days.get data d) t) s = none
  cases h1 : lookupL d (h.days.entries data) with
  | none =>
    have : h.days.get data d = none := by simp only [Store.get, h1]; rfl
    rw [this]
    rfl
  | some r =>
    have e1 : h.days.get data d = r := by simp only [Store.get, h1, Option.getD_some]
    rw [e1]
    cases h2 : lookupL t (h.slots.entries r) with
    | none =>
      have : h.slots.get r t = none := by simp only [Store.get, h2]; rfl
      rw [this]
      rfl
    | some sref =>
      exfalso
      apply hp
      refine List.mem_map.2 ⟨(d, t, sref), ?_, rfl⟩
      exact (mem_stageRefs h data _).2 ⟨(d, r), mem_of_lookupL d r _ h1, (t, sref),
        mem_of_lookupL t sref _ h2, rfl⟩

/-- The two loops of `FilterByStage` are one loop over the iterations. -/
theorem FilterByStage_loop (stage : Int) (h : Heap) (L : List (Int × Ref))
    (hL : ∀ de ∈ L, ∀ a ∈ de.2, a < h.slots.length) (s : Heap)
    (hs : Building h s ∧ s.groups = h.groups) :
    L.foldl (fun h' dayEntry =>
        (h'.slots.entries dayEntry.2).foldl (fun h' slotEntry =>
          keepStage stage (some h.days.length) h' dayEntry.1 slotEntry.1 slotEntry.2) h') s
      = (L.flatMap (fun dayEntry => (h.slots.entries dayEntry.2).map (fun slotEntry =>
            (dayEntry.1, slotEntry.1, slotEntry.2)))).foldl
          (fun h' x => keepStage stage (some h.days.length) h' x.1 x.2.1 x.2.2) s := by
  induction L generalizing s with
  | nil => rfl
  | cons de L ih =>
    rw [List.foldl_cons, List.flatMap_cons, List.foldl_append, List.foldl_map,
      Store.entries_of_prefix h.slots s.slots hs.1.2.2.1 de.2 (hL de (List.mem_cons_self _ _))]
    apply ih (fun de' hde' => hL de' (List.mem_cons_of_mem _ hde'))
    apply foldl_inv (fun h' => Building h h' ∧ h'.groups = h.groups) _ _ _ _ hs
    intro h' se hI
    exact keepStage_building stage h h' _ _ _ hI.1 hI.2

theorem FilterByStage_eq (h : Heap) (schedule : Nat) (stage : Int)
    (hC : h.days.Below h.slots.length) :
    h.FilterByStage schedule stage
      = (Heap.mk
          (((h.stageRefs (h.schedules.getD schedule default).Data).foldl
              (fun h' x => keepStage stage (some h.days.length) h' x.1 x.2.1 x.2.2)
              (Heap.mk h.schedules h.days.alloc h.slots h.stages h.groups)).schedules
            ++ [ScheduleObj.mk (h.schedules.getD schedule default).FileName
                  (some h.days.length)])
          ((h.stageRefs (h.schedules.getD schedule default).Data).foldl
              (fun h' x => keepStage stage (some h.days.length) h' x.1 x.2.1 x.2.2)
              (Heap.mk h.schedules h.days.alloc h.slots h.stages h.groups)).days
          ((h.stageRefs (h.schedules.getD schedule default).Data).foldl
              (fun h' x => keepStage stage (some h.days.length) h' x.1 x.2.1 x.2.2)
              (Heap.mk h.schedules h.days.alloc h.slots h.stages h.groups)).slots
          ((h.stageRefs (h.schedules.getD schedule default).Data).foldl
              (fun h' x => keepStage stage (some h.days.length) h' x.1 x.2.1 x.2.2)
              (Heap.mk h.schedules h.days.alloc h.slots h.stages h.groups)).stages
          ((h.stageRefs (h.schedules.getD schedule default).Data).foldl
              (fun h' x => keepStage stage (some h.days.length) h' x.1 x.2.1 x.2.2)
              (Heap.mk h.schedules h.days.alloc h.slots h.stages h.groups)).groups,
        ((h.stageRefs (h.schedules.getD schedule default).Data).foldl
              (fun h' x => keepStage stage (some h.days.length) h' x.1 x.2.1 x.2.2)
              (Heap.mk h.schedules h.days.alloc h.slots h.stages h.groups)).schedules.length) := by
  have he : ∀ r : Ref, h.days.alloc.entries r = h.days.entries r := by
    intro r
    cases r with
    | none => rfl
    | some a => exact Store.getD_alloc h.days a
  unfold FilterByStage stageRefs
  dsimp only
  rw [he, FilterByStage_loop stage h _
    (fun de hde => Store.below_entries h.days _ hC _ de hde) _ ⟨(building_start h).1, rfl⟩]

end Heap

namespace Heap

/-- The group sets of the schedule `FilterByStage` returns are those of the
source.  Every entry of a stage map made by the call is for the stage and
holds the reference a stage map of the source holds for the stage; and when
the keys of every map are distinct, the result holds at every day and time
slot, for the stage, the very reference the source holds there. -/
theorem FilterByStage_shares (h : Heap) (schedule : Nat) (stage : Int) (hC : h.Closed) :
    (∀ x, h.stages.length ≤ x →
        ∀ e ∈ (h.FilterByStage schedule stage).1.stages.getD x [],
          e.1 = stage
          ∧ ∃ de ∈ h.days.entries (h.schedules.getD schedule default).Data,
              ∃ se ∈ h.slots.entries de.2, e.2 = h.stages.get se.2 stage)
    ∧ (h.Distinct → ∀ d t,
        (h.FilterByStage schedule stage).1.groupsAt (some h.days.length) d t stage
          = h.groupsAt (h.schedules.getD schedule default).Data d t stage) := by
  rw [FilterByStage_eq h schedule stage hC.1]
  have hclosed : ∀ x ∈ h.stageRefs (h.schedules.getD schedule default).Data,
      ∀ a ∈ x.2.2, a < h.stages.length := by
    intro x hx
    obtain ⟨de, hde, se, hse, e⟩ := (mem_stageRefs h _ x).1 hx
    subst e
    exact Store.below_entries h.slots _ hC.2.1 _ se hse
  constructor
  · have hloop := foldl_inv_mem
      (fun h' => (Building h h' ∧ h'.groups = h.groups)
        ∧ ∀ x, h.stages.length ≤ x → ∀ e ∈ h'.stages.getD x [],
            e.1 = stage
            ∧ ∃ de ∈ h.days.entries (h.schedules.getD schedule default).Data,
                ∃ se ∈ h.slots.entries de.2, e.2 = h.stages.get se.2 stage)
      (fun h' x => keepStage stage (some h.days.length) h' x.1 x.2.1 x.2.2)
      (h.stageRefs (h.schedules.getD schedule default).Data)
      (by
        intro s x hx hI
        refine ⟨keepStage_building stage h s _ _ _ hI.1.1 hI.1.2, ?_⟩
        apply keepStage_holds stage h s _ _ _ hI.1.1 (hclosed x hx) _ _ hI.2
        obtain ⟨de, hde, se, hse, e⟩ := (mem_stageRefs h _ x).1 hx
        subst e
        exact ⟨rfl, de, hde, se, hse, rfl⟩)
      (Heap.mk h.schedules h.days.alloc h.slots h.stages h.groups)
      ⟨⟨(building_start h).1, rfl⟩, by
        intro x hx e he
        have he' : e ∈ h.stages.getD x [] := he
        rw [Store.getD_of_length_le h.stages x hx] at he'
        simp at he'⟩
    exact hloop.2
  · intro hD d t
    have hloop := foldl_last_write
      (fun h' => (Building h h' ∧ h'.groups = h.groups) ∧ Separate h.days.length h')
      (fun h' x => keepStage stage (some h.days.length) h' x.1 x.2.1 x.2.2)
      (fun x : Int × TimeSlot × Ref => (x.1, x.2.1))
      (fun x : Int × TimeSlot × Ref => h.stages.get x.2.2 stage)
      (fun h' (p : Int × TimeSlot) => h'.groupsAt (some h.days.length) p.1 p.2 stage)
      (h.stageRefs (h.schedules.getD schedule default).Data)
      (by
        intro s x hx hI
        obtain ⟨k1, k2, k3⟩ := keepStage_paths stage h s x.1 x.2.1 x.2.2 hI.1.1 hI.2
          (hclosed x hx)
        exact ⟨⟨keepStage_building stage h s _ _ _ hI.1.1 hI.1.2, k1⟩, k2, k3⟩)
      (stageRefs_nodup h hD _)
      (Heap.mk h.schedules h.days.alloc h.slots h.stages h.groups)
      ⟨⟨(building_start h).1, rfl⟩, by
        have hn : ∀ d', (Heap.mk h.schedules h.days.alloc h.slots h.stages
            h.groups).slotsAt h.days.length d' = none := by
          intro d'
          show h.days.alloc.get (some h.days.length) d' = none
          rw [Store.get_of_getD h.days h.days.alloc (Store.getD_alloc h.days)]
          exact Store.get_of_length_le h.days _ (le_refl _) d'
        constructor
        · intro d1 d2 b e1
          rw [hn] at e1
          cases e1
        · intro p1 p2 c e1
          have e1' : h.slots.get ((Heap.mk h.schedules h.days.alloc h.slots h.stages
            h.groups).slotsAt h.days.length p1.1) p1.2 = some c := e1
          rw [hn] at e1'
          cases e1'⟩
    generalize (h.stageRefs (h.schedules.getD schedule default).Data).foldl
      (fun h' x => keepStage stage (some h.days.length) h' x.1 x.2.1 x.2.2)
      (Heap.mk h.schedules h.days.alloc h.slots h.stages h.groups) = F at hloop ⊢
    obtain ⟨_, hin, hout⟩ := hloop
    show F.groupsAt (some h.days.length) d t stage = _
    by_cases hp : (d, t) ∈ (h.stageRefs (h.schedules.getD schedule default).Data).map
        (fun x => (x.1, x.2.1))
    · obtain ⟨x, hx, e⟩ := List.mem_map.1 hp
      have e1 : x.1 = d := (Prod.mk.inj e).1
      have e2 : x.2.1 = t := (Prod.mk.inj e).2
      have := hin x hx
      dsimp only at this
      rw [e1, e2] at this
      rw [this, ← groupsAt_of_mem h hD _ stage x hx, e1, e2]
    · have := hout (d, t) hp
      dsimp only at this
      rw [this, groupsAt_of_not_mem h _ stage d t hp]
      show h.stages.get (h.slots.get (h.days.alloc.get (some h.days.length) d) t) stage = none
      rw [Store.get_of_getD h.days h.days.alloc (Store.getD_alloc h.days),
        Store.get_of_length_le h.days _ (le_refl _) d]
      rfl

end Heap

/-! ## Claims about sharing between a filtered schedule and its source -/

/-- The two embeddings of the filters agree on the sample heap: the schedule
the returned struct stands for is the filter of the schedule the source struct
stands for. -/
theorem heap_filters_agree_on_sample :
    (sampleHeap.FilterByDay 0 1).1.toSchedule (sampleHeap.FilterByDay 0 1).2
        = (sampleHeap.toSchedule 0).FilterByDay 1
    ∧ (sampleHeap.FilterByStage 0 2).1.toSchedule (sampleHeap.FilterByStage 0 2).2
        = (sampleHeap.toSchedule 0).FilterByStage 2
    ∧ (sampleHeap.FilterByGroups 0 [2]).1.toSchedule (sampleHeap.FilterByGroups 0 [2]).2
        = (sampleHeap.toSchedule 0).FilterByGroups [2] := by
  decide

/-- C11. Each of `FilterByDay`, `FilterByStage` and `FilterByGroups` returns a
schedule with the file name of its source, in the value embedding and on the
heap; and on the heap every struct and every map object of before the call,
the source and all its maps among them, is unchanged after the call. -/
theorem filters_keep_file_name_and_source (h : Heap) (schedule : Nat) (source : Schedule)
    (dayOfMonth stage : Int) (groups : List Int) :
    ((source.FilterByDay dayOfMonth).FileName = source.FileName
      ∧ (source.FilterByStage stage).FileName = source.FileName
      ∧ (source.FilterByGroups groups).FileName = source.FileName)
    ∧ (((h.FilterByDay schedule dayOfMonth).1.schedules.getD
            (h.FilterByDay schedule dayOfMonth).2 default).FileName
          = (h.schedules.getD schedule default).FileName
        ∧ h.Extends (h.FilterByDay schedule dayOfMonth).1)
    ∧ (((h.FilterByStage schedule stage).1.schedules.getD
            (h.FilterByStage schedule stage).2 default).FileName
          = (h.schedules.getD schedule default).FileName
        ∧ h.Extends (h.FilterByStage schedule stage).1)
    ∧ (((h.FilterByGroups schedule groups).1.schedules.getD
            (h.FilterByGroups schedule groups).2 default).FileName
          = (h.schedules.getD schedule default).FileName
        ∧ h.Extends (h.FilterByGroups schedule groups).1) := by
  refine ⟨⟨rfl, rfl, rfl⟩, ?_, ?_, ?_⟩
  · rw [Heap.FilterByDay_spec]
    dsimp only
    rw [Heap.getD_append_length]
    exact ⟨rfl, List.prefix_append _ _, List.prefix_append _ _, List.prefix_refl _,
      List.prefix_refl _, List.prefix_refl _⟩
  · obtain ⟨h2, hB, _, e⟩ := Heap.FilterByStage_spec h schedule stage
    rw [e]
    dsimp only
    rw [Heap.getD_append_length]
    exact ⟨rfl, Heap.building_extends h h2 hB _⟩
  · obtain ⟨h2, hB, _, e⟩ := Heap.FilterByGroups_spec h schedule groups
    rw [e]
    dsimp only
    rw [Heap.getD_append_length]
    exact ⟨rfl, Heap.building_extends h h2 hB _⟩

/-- C18, as stated, fails.  On the sample heap the schedule `FilterByDay 1`
returns has a new day map, but its entry for day 1 is the very time slot map
of the source (the object at address 0), so that a time slot added through the
result is seen through the source; and the group set the schedule
`FilterByStage 2` returns holds at day 1, 06:00-08:30, stage 2 is the very
group set of the source (the object at address 1). -/
theorem filtered_copies_share_maps :
    ((sampleHeap.FilterByDay 0 1).1.schedules.getD 1 default).Data = some 1
    ∧ (sampleHeap.schedules.getD 0 default).Data = some 0
    ∧ (sampleHeap.FilterByDay 0 1).1.days.get (some 1) 1 = some 0
    ∧ sampleHeap.days.get (some 0) 1 = some 0
    ∧ Store.entries
        (((sampleHeap.FilterByDay 0 1).1.slots).set
          ((sampleHeap.FilterByDay 0 1).1.days.get (some 1) 1)
          (TimeSlot.mk "09:00" "11:30") none)
        (sampleHeap.days.get (some 0) 1)
        = [(TimeSlot.mk "06:00" "08:30", some 0), (TimeSlot.mk "09:00" "11:30", none)]
    ∧ ((sampleHeap.FilterByStage 0 2).1.schedules.getD 1 default).Data = some 1
    ∧ (sampleHeap.FilterByStage 0 2).1.stages.get
        ((sampleHeap.FilterByStage 0 2).1.slots.get
          ((sampleHeap.FilterByStage 0 2).1.days.get (some 1) 1)
          (TimeSlot.mk "06:00" "08:30")) 2 = some 1
    ∧ sampleHeap.stages.get
        (sampleHeap.slots.get (sampleHeap.days.get (some 0) 1) (TimeSlot.mk "06:00" "08:30"))
        2 = some 1 := by
  decide

/-- C18, amended. Every filter returns a struct whose day map is a newly made
object, and leaves every struct and every map object of before the call, the
source and its maps among them, unchanged.  `FilterByDay` makes no other map:
the one entry of its day map holds the reference the source holds for the
day.  `FilterByStage` makes the time slot maps and the stage maps of its
result anew and makes no group set: on a heap without dangling references
every entry of a stage map it makes is for the stage and holds the reference
a stage map of the source holds for the stage, and when moreover the keys of
every map are distinct its result holds at every day and time slot, for the
stage, the very reference the source holds there.  `FilterByGroups` makes
every map of its result anew, the group sets too. -/
theorem filters_make_new_maps (h : Heap) (schedule : Nat) (dayOfMonth stage : Int)
    (groups : List Int) :
    (((h.FilterByDay schedule dayOfMonth).1.schedules.getD
          (h.FilterByDay schedule dayOfMonth).2 default).Data = some h.days.length
      ∧ h.Extends (h.FilterByDay schedule dayOfMonth).1
      ∧ (h.FilterByDay schedule dayOfMonth).1.days.getD h.days.length []
          = [(dayOfMonth, h.days.get (h.schedules.getD schedule default).Data dayOfMonth)]
      ∧ (h.FilterByDay schedule dayOfMonth).1.slots = h.slots
      ∧ (h.FilterByDay schedule dayOfMonth).1.stages = h.stages
      ∧ (h.FilterByDay schedule dayOfMonth).1.groups = h.groups)
    ∧ (((h.FilterByStage schedule stage).1.schedules.getD
          (h.FilterByStage schedule stage).2 default).Data = some h.days.length
      ∧ h.Extends (h.FilterByStage schedule stage).1
      ∧ Store.Fresh h.days.length (h.FilterByStage schedule stage).1.days h.slots.length
          (h.FilterByStage schedule stage).1.slots.length
      ∧ Store.Fresh h.slots.length (h.FilterByStage schedule stage).1.slots h.stages.length
          (h.FilterByStage schedule stage).1.stages.length
      ∧ (h.FilterByStage schedule stage).1.groups = h.groups
      ∧ (h.Closed → ∀ a, h.stages.length ≤ a →
          ∀ e ∈ (h.FilterByStage schedule stage).1.stages.getD a [],
            e.1 = stage
            ∧ ∃ dayEntry ∈ h.days.entries (h.schedules.getD schedule default).Data,
                ∃ slotEntry ∈ h.slots.entries dayEntry.2,
                  e.2 = h.stages.get slotEntry.2 stage)
      ∧ (h.Closed → h.Distinct → ∀ d t,
          (h.FilterByStage schedule stage).1.groupsAt (some h.days.length) d t stage
            = h.groupsAt (h.schedules.getD schedule default).Data d t stage))
    ∧ (((h.FilterByGroups schedule groups).1.schedules.getD
          (h.FilterByGroups schedule groups).2 default).Data = some h.days.length
      ∧ h.Extends (h.FilterByGroups schedule groups).1
      ∧ Store.Fresh h.days.length (h.FilterByGroups schedule groups).1.days h.slots.length
          (h.FilterByGroups schedule groups).1.slots.length
      ∧ Store.Fresh h.slots.length (h.FilterByGroups schedule groups).1.slots h.stages.length
          (h.FilterByGroups schedule groups).1.stages.length
      ∧ Store.Fresh h.stages.length (h.FilterByGroups schedule groups).1.stages
          h.groups.length (h.FilterByGroups schedule groups).1.groups.length) := by
  refine ⟨?_, ?_, ?_⟩
  · rw [Heap.FilterByDay_spec]
    dsimp only
    rw [Heap.getD_append_length]
    refine ⟨rfl, ⟨List.prefix_append _ _, List.prefix_append _ _, List.prefix_refl _,
      List.prefix_refl _, List.prefix_refl _⟩, ?_, rfl, rfl, rfl⟩
    simp [List.getD_eq_getElem?_getD, List.getElem?_append_right]
  · refine ⟨?_, ?_, ?_, ?_, ?_, fun hC => (Heap.FilterByStage_shares h schedule stage hC).1,
      fun hC => (Heap.FilterByStage_shares h schedule stage hC).2⟩
    all_goals
      obtain ⟨h2, hB, hG, e⟩ := Heap.FilterByStage_spec h schedule stage
      rw [e]
      dsimp only
    · rw [Heap.getD_append_length]
    · exact Heap.building_extends h h2 hB _
    · exact hB.2.2.2.2.2.2.1
    · exact hB.2.2.2.2.2.2.2
    · exact hG
  · obtain ⟨h2, hB, hF, e⟩ := Heap.FilterByGroups_spec h schedule groups
    rw [e]
    dsimp only
    rw [Heap.getD_append_length]
    exact ⟨rfl, Heap.building_extends h h2 hB _, hB.2.2.2.2.2.2.1, hB.2.2.2.2.2.2.2, hF⟩

/-- C18, amended, on the second sample heap, which has no dangling reference
and distinct keys: the schedule `FilterByStage 1` returns holds, for stage 1,
the group set at address 0 at day 1, 06:00-08:30, as the source does, and the
nil group set at day 1, 08:00-10:30, as the source does; and the first entry
of the first stage map the call makes is for stage 1 and holds the reference
a stage map of the source holds for stage 1. -/
theorem filters_make_new_maps_witness :
    sampleHeap2.Closed ∧ sampleHeap2.Distinct
    ∧ (sampleHeap2.FilterByStage 0 1).1.groupsAt (some 1) 1 (TimeSlot.mk "06:00" "08:30") 1
        = sampleHeap2.groupsAt (some 0) 1 (TimeSlot.mk "06:00" "08:30") 1
    ∧ sampleHeap2.groupsAt (some 0) 1 (TimeSlot.mk "06:00" "08:30") 1 = some 0
    ∧ (sampleHeap2.FilterByStage 0 1).1.groupsAt (some 1) 1 (TimeSlot.mk "08:00" "10:30") 1
        = sampleHeap2.groupsAt (some 0) 1 (TimeSlot.mk "08:00" "10:30") 1
    ∧ sampleHeap2.groupsAt (some 0) 1 (TimeSlot.mk "08:00" "10:30") 1 = none
    ∧ (sampleHeap2.FilterByStage 0 1).1.stages.getD 3 [] = [(1, some 0)]
    ∧ ((1 : Int), (some 0 : Ref)).1 = 1
    ∧ ∃ dayEntry ∈ sampleHeap2.days.entries (some 0),
        ∃ slotEntry ∈ sampleHeap2.slots.entries dayEntry.2,
          ((1 : Int), (some 0 : Ref)).2 = sampleHeap2.stages.get slotEntry.2 1 :=
  ⟨by decide, by decide,
    (filters_make_new_maps sampleHeap2 0 0 1 []).2.1.2.2.2.2.2.2 (by decide) (by decide) 1
      (TimeSlot.mk "06:00" "08:30"),
    by decide,
    (filters_make_new_maps sampleHeap2 0 0 1 []).2.1.2.2.2.2.2.2 (by decide) (by decide) 1
      (TimeSlot.mk "08:00" "10:30"),
    by decide, by decide,
    (filters_make_new_maps sampleHeap2 0 0 1 []).2.1.2.2.2.2.2.1 (by decide) 3 (by decide)
      (1, some 0) (by decide)⟩

/-- The two embeddings of the filters agree on the second sample heap, also
for a day with the nil map, for an absent day, and for the filters applied one
after the other as the command does. -/
theorem heap_filters_agree_on_sample2 :
    (sampleHeap2.FilterByDay 0 2).1.toSchedule (sampleHeap2.FilterByDay 0 2).2
        = (sampleHeap2.toSchedule 0).FilterByDay 2
    ∧ (sampleHeap2.FilterByDay 0 7).1.toSchedule (sampleHeap2.FilterByDay 0 7).2
        = (sampleHeap2.toSchedule 0).FilterByDay 7
    ∧ (sampleHeap2.FilterByStage 0 2).1.toSchedule (sampleHeap2.FilterByStage 0 2).2
        = (sampleHeap2.toSchedule 0).FilterByStage 2
    ∧ (sampleHeap2.FilterByGroups 0 [1, 5]).1.toSchedule (sampleHeap2.FilterByGroups 0 [1, 5]).2
        = (sampleHeap2.toSchedule 0).FilterByGroups [1, 5]
    ∧ (((sampleHeap2.FilterByStage 0 2).1.FilterByDay 1 1).1.FilterByGroups 2 [1]).1.toSchedule
          (((sampleHeap2.FilterByStage 0 2).1.FilterByDay 1 1).1.FilterByGroups 2 [1]).2
        = (((sampleHeap2.toSchedule 0).FilterByStage 2).FilterByDay 1).FilterByGroups [1] := by
  decide

end LoadSched
